import Mathlib

/-!
# Verification of the multi-way hash equi-join operator (`src/jrd/recsrc/HashJoin.cpp`)

This file gives a shallow embedding of the hash-join operator of the Firebird
record-source layer and proves the specification claims about it.

The embedding follows the source file closely:

* `computeHash` / `encodeKeys` model `HashJoin::computeHash`: the destination
  buffer is zeroed, each key expression's canonical image is written at its
  running offset, and the whole buffer is hashed.
* `CollisionList`, `HashTable` model the nested classes of `HashJoin::HashTable`
  with their `add` / `sort` / `locate` / `iterate` / `put` / `setup` / `reset`
  operations.  The directory of `streamCount * tableSize` slots is modelled as a
  function from the flat index `stream * tableSize + slot` to an optional
  collision list.
* `grLoopF` / `getRecord` model the `while (true)` loop of
  `HashJoin::internalGetRecord`; `fetchGo` / `carryGo` model the two phases of
  `HashJoin::fetchRecord` (advance, then the carry loop over predecessor
  streams).  The loops are expressed with explicit fuel so that everything
  stays kernel-computable; adequacy of the fuel is proved, not assumed.
* `openState` and `close` model `HashJoin::internalOpen` and `HashJoin::close`.

Rows are modelled as lists of already-evaluated key values (`KeyVal`): the
expression evaluator `EVL_expr` is an external collaborator, so a key value is
either NULL, a plain byte image (the `memcpy` branch), an IEEE float/double
given by its byte image, or a canonical image produced by the external text /
decimal-float services.
-/

/-- Modelled from the spec: `InternalHash::hash` (in `src/common/classes/Hash.h`,
not part of the sources).  The spec requires only a deterministic,
byte-oriented 32-bit hash such that bytewise-equal buffers hash equally; we use
a concrete polynomial hash reduced mod `2 ^ 32`. -/
def hashBytes (l : List Nat) : Nat :=
  l.foldl (fun h b => (h * 33 + b % 256) % 2 ^ 32) 5381

/-- `HASH_SIZE` from HashJoin.cpp. -/
def HASH_SIZE : Nat := 1009

/-- An evaluated key expression, as seen by `HashJoin::computeHash` after
`EVL_expr`: either the NULL flag was set, or a typed descriptor.  `raw` is the
generic scalar branch (plain byte copy of the stored bytes), `real32`/`real64`
are IEEE float/double given by their in-memory byte image, and `extKey` is the
canonical image produced by the external text-collation or decimal-float
key services (those services are out of scope per the spec). -/
inductive KeyVal where
  | nullVal : KeyVal
  | raw : List Nat → KeyVal
  | real32 : List Nat → KeyVal
  | real64 : List Nat → KeyVal
  | extKey : List Nat → KeyVal
deriving DecidableEq, Repr

/-- A row is the vector of its evaluated key expressions. -/
abbrev Row := List KeyVal

/-- An IEEE 754 single compares equal to `0.0` exactly when its byte image is
positive zero or negative zero (little-endian images). -/
def f32IsZero (b : List Nat) : Bool :=
  b == List.replicate 4 0 || b == [0, 0, 0, 128]

/-- An IEEE 754 double compares equal to `0.0` exactly when its byte image is
positive zero or negative zero (little-endian images). -/
def f64IsZero (b : List Nat) : Bool :=
  b == List.replicate 8 0 || b == List.replicate 7 0 ++ [128]

/-- The bytes actually written for one key by `HashJoin::computeHash`:
nothing for a NULL key, a `memset` of zeros for a float/double comparing equal
to zero, and otherwise a copy of (at most) `keyLength` bytes of the canonical
image.  Bytes not written stay zero from the initial `memset` of the whole
buffer. -/
def keyImage (keyLength : Nat) : KeyVal → List Nat
  | .nullVal => []
  | .raw bytes => bytes.take keyLength
  | .real32 bytes =>
      if f32IsZero bytes then List.replicate keyLength 0 else bytes.take keyLength
  | .real64 bytes =>
      if f64IsZero bytes then List.replicate keyLength 0 else bytes.take keyLength
  | .extKey image => image.take keyLength

/-- The `keyLength`-byte segment a key occupies in the zeroed key buffer:
the written image followed by the remaining zero bytes. -/
def keySlot (keyLength : Nat) (v : KeyVal) : List Nat :=
  keyImage keyLength v ++ List.replicate (keyLength - (keyImage keyLength v).length) 0

/-- State of the key encoder: the destination buffer and the running write
offset (`keyPtr - keyBuffer` in the source). -/
structure KeyEncoding where
  buf : List Nat
  off : Nat
deriving DecidableEq, Repr

/-- Splice `img` into `buf` at offset `off` (the `memcpy`/`memset` into
`keyPtr`). -/
def writeBytes (buf : List Nat) (off : Nat) (img : List Nat) : List Nat :=
  buf.take off ++ img ++ buf.drop (off + img.length)

/-- One iteration of the encoding loop of `HashJoin::computeHash`: write the
key's image at the current offset, then advance the offset by exactly the
key's length (also for NULL keys, whose image is empty). -/
def encStep (st : KeyEncoding) (kv : Nat × KeyVal) : KeyEncoding :=
  { buf := writeBytes st.buf st.off (keyImage kv.1 kv.2), off := st.off + kv.1 }

/-- The encoding loop of `HashJoin::computeHash`: zero the buffer, then for
each key write its image at the current offset and advance the offset by
exactly `keyLengths[i]` (also for NULL keys). -/
def encodeKeys (keyLengths : List Nat) (row : Row) : KeyEncoding :=
  (keyLengths.zip row).foldl encStep
    { buf := List.replicate keyLengths.sum 0, off := 0 }

/-- One participating input stream: the rows it produces and the per-key
encoded widths (`keyLengths`; `totalKeyLength` is their sum). -/
structure SubStream where
  rows : List Row
  keyLengths : List Nat
deriving DecidableEq, Repr

/-- The encoded key buffer of a row of a sub-stream. -/
def encodedKey (sub : SubStream) (row : Row) : List Nat :=
  (encodeKeys sub.keyLengths row).buf

/-- `HashJoin::computeHash`: encode the row's keys and hash the buffer. -/
def computeHash (sub : SubStream) (row : Row) : Nat :=
  hashBytes (encodedKey sub row)

/-- `HashJoin::HashTable::CollisionList::Entry`. -/
structure Entry where
  hash : Nat
  position : Nat
deriving DecidableEq, Repr

/-- `HashJoin::HashTable::CollisionList`: the entry array plus the iterator.
`iterator = none` models `INVALID_ITERATOR`. -/
structure CollisionList where
  collisions : List Entry
  iterator : Option Nat
deriving DecidableEq, Repr

/-- Insert an entry into an (ascending-by-hash) list, after all entries of
smaller-or-equal hash. -/
def insertEntry (e : Entry) : List Entry → List Entry
  | [] => [e]
  | x :: xs => if x.hash < e.hash then x :: insertEntry e xs else e :: x :: xs

/-- Modelled from the spec: `SortedArray::sort` (in
`src/common/classes/array.h`, not part of the sources) sorts the collision
entries by hash ascending; per the spec the relative order of equal-hash
entries is the build order.  We use a stable insertion sort. -/
def sortEntries : List Entry → List Entry
  | [] => []
  | e :: rest => insertEntry e (sortEntries rest)

/-- `CollisionList::sort`. -/
def CollisionList.sortList (cl : CollisionList) : CollisionList :=
  { cl with collisions := sortEntries cl.collisions }

/-- `CollisionList::add` (`FB_ARRAY_SORT_MANUAL`, so `add` appends). -/
def CollisionList.add (cl : CollisionList) (hash position : Nat) : CollisionList :=
  { cl with collisions := cl.collisions ++ [⟨hash, position⟩] }

/-- Replace a collision list's iterator (statement helper). -/
def withIter (cl : CollisionList) (it : Option Nat) : CollisionList :=
  { cl with iterator := it }

/-- Modelled from the spec: `SortedArray::find` (binary search, in
`src/common/classes/array.h`, not part of the sources) reports whether an
entry with the given hash exists and positions the iterator at the first such
entry; on failure `CollisionList::locate` invalidates the iterator. -/
def CollisionList.locate (cl : CollisionList) (hash : Nat) : Bool × CollisionList :=
  match cl.collisions.findIdx? (fun e => e.hash == hash) with
  | some i => (true, { cl with iterator := some i })
  | none => (false, { cl with iterator := none })

/-- `CollisionList::iterate`: out-of-range iterator fails with no change;
otherwise the entry is read and the iterator post-incremented; a hash mismatch
invalidates the iterator and fails. -/
def CollisionList.iterate (cl : CollisionList) (hash : Nat) : Option Nat × CollisionList :=
  match cl.iterator with
  | none => (none, cl)
  | some i =>
    match cl.collisions[i]? with
    | none => (none, cl)
    | some e =>
      if e.hash == hash then (some e.position, { cl with iterator := some (i + 1) })
      else (none, { cl with iterator := none })

/-- `HashJoin::HashTable`: the directory of `streamCount * tableSize`
collision-list slots (flat index `stream * tableSize + slot`), plus the
remembered probe slot `m_slot`. -/
structure HashTable where
  streamCount : Nat
  tableSize : Nat
  collisions : Nat → Option CollisionList
  slot : Nat

/-- Replace one directory slot. -/
def HashTable.updateSlot (t : HashTable) (idx : Nat) (cl : CollisionList) : HashTable :=
  { t with collisions := fun j => if j = idx then some cl else t.collisions j }

/-- `HashTable::put`: append an entry to slot `(stream, hash mod tableSize)`,
creating the collision list on first use. -/
def HashTable.put (t : HashTable) (stream hash position : Nat) : HashTable :=
  let slot := hash % t.tableSize
  let idx := stream * t.tableSize + slot
  let cl := (t.collisions idx).getD { collisions := [], iterator := none }
  t.updateSlot idx (cl.add hash position)

/-- The loop of `HashTable::setup`, processing streams `i, i+1, …` with `n`
streams left: a missing collision list or a failed `locate` aborts with
`false`; after all streams located, `m_slot` is remembered. -/
def HashTable.setupGo (t : HashTable) (hash slot : Nat) (i : Nat) : Nat → Bool × HashTable
  | 0 => (true, { t with slot := slot })
  | n + 1 =>
    match t.collisions (i * t.tableSize + slot) with
    | none => (false, t)
    | some cl =>
      let r := cl.locate hash
      let t1 := t.updateSlot (i * t.tableSize + slot) r.2
      if r.1 then t1.setupGo hash slot (i + 1) n else (false, t1)

/-- `HashTable::setup`. -/
def HashTable.setup (t : HashTable) (hash : Nat) : Bool × HashTable :=
  t.setupGo hash (hash % t.tableSize) 0 t.streamCount

/-- `HashTable::reset`: re-`locate` stream `stream`'s list in the current
bucket (the result of `locate` is discarded). -/
def HashTable.reset (t : HashTable) (stream hash : Nat) : HashTable :=
  match t.collisions (stream * t.tableSize + t.slot) with
  | none => t
  | some cl => t.updateSlot (stream * t.tableSize + t.slot) (cl.locate hash).2

/-- `HashTable::iterate`: iterate stream `stream`'s list in the current
bucket. -/
def HashTable.iterate (t : HashTable) (stream hash : Nat) : Option Nat × HashTable :=
  match t.collisions (stream * t.tableSize + t.slot) with
  | none => (none, t)
  | some cl =>
    let r := cl.iterate hash
    (r.1, t.updateSlot (stream * t.tableSize + t.slot) r.2)

/-- `HashTable::sort`: sort every allocated collision list. -/
def HashTable.sortAll (t : HashTable) : HashTable :=
  { t with collisions := fun idx => (t.collisions idx).map CollisionList.sortList }

/-- The full operator: the leader sub-stream and the inner (`m_args`)
sub-streams.  `HashJoin::HashJoin` asserts `count >= 2`, i.e. `args ≠ []`. -/
structure HashJoinDef where
  leader : SubStream
  args : List SubStream
deriving DecidableEq, Repr

/-- The `i`-th inner sub-stream (defaulting to an empty stream out of
range). -/
def argAt (cfg : HashJoinDef) (i : Nat) : SubStream :=
  cfg.args.getD i ⟨[], []⟩

/-- The per-invocation impure state (`Impure` in the source) together with the
observable interaction state of the child streams: the not-yet-fetched leader
rows, the leader's current row, each inner buffered stream's current position,
and counters of `open`/`close` calls on the children (instrumentation for the
lifecycle claims). -/
structure Impure where
  flagOpen : Bool
  mustRead : Bool
  first : Bool
  hashTable : Option HashTable
  leaderBuffer : Option (List Nat)
  leaderHash : Nat
  leaderPending : List Row
  leaderCurrent : Option Row
  innerPos : List (Option Nat)
  innerOpens : List Nat
  innerCloses : List Nat
  leaderCloses : Nat

/-- Build one inner stream's part of the hash index: scan the buffered rows in
order, hashing each row's keys and `put`ting `(hash, position)`. -/
def buildStream (t : HashTable) (i : Nat) (sub : SubStream) : HashTable :=
  (sub.rows.enum).foldl (fun acc pr => acc.put i (computeHash sub pr.2) pr.1) t

/-- The freshly allocated hash table (`HashTable(pool, argCount)`): all slots
empty. -/
def initTable (cfg : HashJoinDef) : HashTable :=
  { streamCount := cfg.args.length, tableSize := HASH_SIZE,
    collisions := fun _ => none, slot := 0 }

/-- The hash index as built by the first-leader-row block of
`internalGetRecord`: all inner streams scanned into a fresh table, then all
collision lists sorted. -/
def builtTable (cfg : HashJoinDef) : HashTable :=
  ((cfg.args.enum).foldl (fun t pr => buildStream t pr.1 pr.2) (initTable cfg)).sortAll

/-- The state change of the lazy build block: allocate the table and the
leader scratch buffer and open (and fully scan) every inner buffered
stream. -/
def buildState (cfg : HashJoinDef) (st : Impure) : Impure :=
  { st with hashTable := some (builtTable cfg),
            leaderBuffer := some (List.replicate cfg.leader.keyLengths.sum 0),
            innerOpens := st.innerOpens.map (· + 1) }

/-- The advance phase of `HashJoin::fetchRecord`: `iterate` the stream's
collision list; on a position, `locate` the buffered stream there and fetch
the row (which succeeds exactly for in-range positions). -/
def tryAdvance (cfg : HashJoinDef) (H s : Nat) (t : HashTable) (v : List (Option Nat)) :
    Bool × HashTable × List (Option Nat) :=
  let r := t.iterate s H
  match r.1 with
  | some p =>
    if p < (argAt cfg s).rows.length then (true, r.2, v.set s (some p))
    else (false, r.2, v)
  | none => (false, r.2, v)

mutual

/-- `HashJoin::fetchRecord`: the advance phase, falling through to the carry
loop.  `fuel` bounds the recursion depth; `fetchFuel` below is always
sufficient (proved, not assumed). -/
def fetchGo (cfg : HashJoinDef) (H : Nat) :
    Nat → Nat → HashTable → List (Option Nat) → Bool × HashTable × List (Option Nat)
  | 0, _, t, v => (false, t, v)
  | fuel + 1, s, t, v =>
    let a := tryAdvance cfg H s t v
    if a.1 then a else carryGo cfg H fuel s a.2.1 a.2.2

/-- The carry loop of `HashJoin::fetchRecord`: advance the predecessor stream
(recursively), `reset` this stream's cursor, and retry the advance phase. -/
def carryGo (cfg : HashJoinDef) (H : Nat) :
    Nat → Nat → HashTable → List (Option Nat) → Bool × HashTable × List (Option Nat)
  | 0, _, t, v => (false, t, v)
  | fuel + 1, s, t, v =>
    if s = 0 then (false, t, v)
    else
      let pr := fetchGo cfg H fuel (s - 1) t v
      if pr.1 then
        let t2 := pr.2.1.reset s H
        let a := tryAdvance cfg H s t2 pr.2.2
        if a.1 then a else carryGo cfg H fuel s a.2.1 a.2.2
      else (false, pr.2.1, pr.2.2)

end

/-- A recursion-depth bound for `fetchGo` that is sufficient from every state
reachable in the protocol. -/
def fetchFuel (cfg : HashJoinDef) : Nat :=
  cfg.args.foldl (fun a sub => a * (sub.rows.length + 2)) 2 + 2 * cfg.args.length + 4

/-- `HashJoin::fetchRecord` with its fuel instantiated. -/
def fetchRecord (cfg : HashJoinDef) (H s : Nat) (t : HashTable) (v : List (Option Nat)) :
    Bool × HashTable × List (Option Nat) :=
  fetchGo cfg H (fetchFuel cfg) s t v

/-- The `irsb_first` loop of `internalGetRecord`: fetch the first match of
each inner stream in order, aborting on the first failure. -/
def firstGo (cfg : HashJoinDef) (H : Nat) :
    Nat → Nat → HashTable → List (Option Nat) → Bool × HashTable × List (Option Nat)
  | 0, _, t, v => (true, t, v)
  | n + 1, i, t, v =>
    let r := fetchRecord cfg H i t v
    if r.1 then firstGo cfg H n (i + 1) r.2.1 r.2.2 else (false, r.2.1, r.2.2)

/-- Termination measure of the `while (true)` loop of `internalGetRecord`:
every iteration that does not return consumes a leader row (after at most one
initial iteration with `irsb_mustread` clear). -/
def grMeasure (st : Impure) : Nat :=
  2 * st.leaderPending.length + (if st.mustRead then 1 else 2)

/-- The `while (true)` loop of `HashJoin::internalGetRecord`, with fuel
(`grMeasure` is always sufficient; adequacy is proved below).  Mirrors the
source: the `irsb_mustread` block fetches the next leader row (returning
`false` on exhaustion), lazily builds the index on the first row, hashes the
leader keys and `setup`s the table (skipping the row on failure); the
`irsb_first` block fetches the first match per inner stream; otherwise the
last stream is advanced, carrying to predecessors on exhaustion. -/
def grLoopF (cfg : HashJoinDef) : Nat → Impure → Bool × Impure
  | 0, st => (false, st)
  | fuel + 1, st =>
    if st.mustRead then
      match st.leaderPending with
      | [] => (false, st)
      | L :: rest =>
        let st1 := { st with leaderPending := rest, leaderCurrent := some L }
        let st2 :=
          if st1.hashTable.isNone && st1.leaderBuffer.isNone then buildState cfg st1 else st1
        let buf := encodedKey cfg.leader L
        let H := hashBytes buf
        match st2.hashTable with
        | none => (false, st2)
        | some t =>
          let sr := t.setup H
          let st3 := { st2 with leaderBuffer := some buf, leaderHash := H,
                                hashTable := some sr.2 }
          if sr.1 then
            let st4 := { st3 with mustRead := false, first := true }
            let f := firstGo cfg H cfg.args.length 0 sr.2 st4.innerPos
            if f.1 then
              (true, { st4 with first := false, hashTable := some f.2.1, innerPos := f.2.2 })
            else
              grLoopF cfg fuel { st4 with mustRead := true, hashTable := some f.2.1,
                                          innerPos := f.2.2 }
          else
            grLoopF cfg fuel st3
    else
      if st.first then
        match st.hashTable with
        | none => (false, st)
        | some t =>
          let f := firstGo cfg st.leaderHash cfg.args.length 0 t st.innerPos
          if f.1 then
            (true, { st with first := false, hashTable := some f.2.1, innerPos := f.2.2 })
          else
            grLoopF cfg fuel { st with mustRead := true, hashTable := some f.2.1,
                                       innerPos := f.2.2 }
      else
        match st.hashTable with
        | none => (false, st)
        | some t =>
          let f := fetchRecord cfg st.leaderHash (cfg.args.length - 1) t st.innerPos
          if f.1 then (true, { st with hashTable := some f.2.1, innerPos := f.2.2 })
          else
            grLoopF cfg fuel { st with mustRead := true, hashTable := some f.2.1,
                                       innerPos := f.2.2 }

/-- `HashJoin::internalGetRecord` (the reschedule point is an external
collaborator): nothing happens unless `irsb_open` is set. -/
def getRecord (cfg : HashJoinDef) (st : Impure) : Bool × Impure :=
  if st.flagOpen then grLoopF cfg (grMeasure st) st else (false, st)

/-- `HashJoin::internalOpen`: flags set to `{OPEN, MUST_READ}`, index and
scratch released, leader opened.  This is the state at the start of an
`open`/`close` cycle. -/
def openState (cfg : HashJoinDef) : Impure :=
  { flagOpen := true, mustRead := true, first := false,
    hashTable := none, leaderBuffer := none, leaderHash := 0,
    leaderPending := cfg.leader.rows, leaderCurrent := none,
    innerPos := List.replicate cfg.args.length none,
    innerOpens := List.replicate cfg.args.length 0,
    innerCloses := List.replicate cfg.args.length 0,
    leaderCloses := 0 }

/-- `HashJoin::close`: only if `irsb_open` is set, clear it, release the index
and scratch buffer, and close every child stream. -/
def closeState (st : Impure) : Impure :=
  if st.flagOpen then
    { st with flagOpen := false, hashTable := none, leaderBuffer := none,
              innerCloses := st.innerCloses.map (· + 1),
              leaderCloses := st.leaderCloses + 1 }
  else st

/-- The state after `n` consumer calls to `getRecord`. -/
def stateAfter (cfg : HashJoinDef) : Nat → Impure
  | 0 => openState cfg
  | n + 1 => (getRecord cfg (stateAfter cfg n)).2

/-- Drive the operator like its consumer: call `getRecord` until it returns
`false`, collecting each emitted row as the leader's current row paired with
the inner streams' located positions. -/
def runGo (cfg : HashJoinDef) : Nat → Impure → List (Option Row × List (Option Nat))
  | 0, _ => []
  | fuel + 1, st =>
    let r := getRecord cfg st
    if r.1 then (r.2.leaderCurrent, r.2.innerPos) :: runGo cfg fuel r.2 else []

/-- Upper bound on the number of matches a single leader row can produce. -/
def prodBound (cfg : HashJoinDef) : Nat :=
  cfg.args.foldl (fun a sub => a * sub.rows.length) 1

/-- Enough consumer calls to drain the operator completely. -/
def runFuel (cfg : HashJoinDef) : Nat :=
  cfg.leader.rows.length * (prodBound cfg + 1) + 2

/-- The complete output stream of one `open`/`getRecord`*/`close` cycle. -/
def runJoin (cfg : HashJoinDef) : List (Option Row × List (Option Nat)) :=
  runGo cfg (runFuel cfg) (openState cfg)

/-- The positions (0-based row ordinals) of the rows of `sub` whose encoded
keys hash to `H`, in stream order.  By stability of the collision-list sort,
this is exactly the order in which `iterate` yields the equal-hash entries. -/
def matchOf (sub : SubStream) (H : Nat) : List Nat :=
  ((sub.rows.enum).filter (fun pr => computeHash sub pr.2 == H)).map (·.1)

/-- Right-major Cartesian product: the first list is the outermost odometer
digit, the last list varies fastest. -/
def rightProd {α : Type} : List (List α) → List (List α)
  | [] => [[]]
  | xs :: rest => xs.flatMap (fun x => (rightProd rest).map (x :: ·))

/-- The reference output stream: for each leader row in order, if every inner
stream has at least one row hashing to the leader's key hash, the right-major
Cartesian product of the per-stream match-position lists. -/
def refOutputs (cfg : HashJoinDef) : List (Option Row × List (Option Nat)) :=
  cfg.leader.rows.flatMap (fun L =>
    let H := computeHash cfg.leader L
    if cfg.args.all (fun sub => !(matchOf sub H).isEmpty) then
      (rightProd (cfg.args.map (fun sub => matchOf sub H))).map
        (fun c => (some L, c.map some))
    else [])

/-- The entries appended to slot `(·, s)` while building the index for `sub`:
one entry per row hashing into slot `s`, in stream order. -/
def builtEntriesPre (sub : SubStream) (s : Nat) : List Entry :=
  ((sub.rows.enum).filter (fun pr => computeHash sub pr.2 % HASH_SIZE == s)).map
    (fun pr => ⟨computeHash sub pr.2, pr.1⟩)

/-- The collision entries of slot `(·, s)` after the index-wide sort. -/
def builtEntries (sub : SubStream) (s : Nat) : List Entry :=
  sortEntries (builtEntriesPre sub s)

/-- Index of the first entry of hash `H` in the sorted slot list (the number
of entries of strictly smaller hash). -/
def stIdx (sub : SubStream) (s H : Nat) : Nat :=
  ((builtEntries sub s).filter (fun e => decide (e.hash < H))).length

/-- The entry lists of every slot are exactly the sorted build results
(iterators are unconstrained). -/
def entriesMatch (cfg : HashJoinDef) (t : HashTable) : Prop :=
  ∀ i s, i < cfg.args.length → s < HASH_SIZE →
    (t.collisions (i * HASH_SIZE + s)).map CollisionList.collisions =
      (if builtEntriesPre (argAt cfg i) s = [] then none
       else some (builtEntries (argAt cfg i) s))

/-- Invariant of the probe phase: the table has the built shape. -/
def EntriesOK (cfg : HashJoinDef) (t : HashTable) : Prop :=
  t.streamCount = cfg.args.length ∧ t.tableSize = HASH_SIZE ∧ entriesMatch cfg t

/-- Stream `i`'s slot for hash `H` is allocated and carries the built
entries. -/
def SlotOK (cfg : HashJoinDef) (H : Nat) (t : HashTable) (i : Nat) : Prop :=
  ∃ cl, t.collisions (i * HASH_SIZE + H % HASH_SIZE) = some cl ∧
    cl.collisions = builtEntries (argAt cfg i) (H % HASH_SIZE)

/-- Stream `i`'s collision cursor sits `j` entries into the equal-hash run
for `H` (in the slot probed for `H`). -/
def CurAt (cfg : HashJoinDef) (H : Nat) (t : HashTable) (i j : Nat) : Prop :=
  ∃ cl, t.collisions (i * HASH_SIZE + H % HASH_SIZE) = some cl ∧
    cl.collisions = builtEntries (argAt cfg i) (H % HASH_SIZE) ∧
    cl.iterator = some (stIdx (argAt cfg i) (H % HASH_SIZE) H + j)

/-- Stream `i`'s collision cursor is exhausted for hash `H` (invalidated, or
parked just past the equal-hash run). -/
def CurEx (cfg : HashJoinDef) (H : Nat) (t : HashTable) (i : Nat) : Prop :=
  ∃ cl, t.collisions (i * HASH_SIZE + H % HASH_SIZE) = some cl ∧
    cl.collisions = builtEntries (argAt cfg i) (H % HASH_SIZE) ∧
    (cl.iterator = none ∨
     cl.iterator =
       some (stIdx (argAt cfg i) (H % HASH_SIZE) H + (matchOf (argAt cfg i) H).length))

/-- The current odometer value of one stream: the last match consumed. -/
def curOf (p : Nat × List Nat) : Nat := p.2.getD (p.1 - 1) 0

/-- The combinations still to be emitted after the current one, for a stream
state list given innermost first (each stream as `(digit, matches)` with the
digit counting consumed matches): first vary the innermost stream over its
remaining matches, then advance the outer streams and rerun the innermost
stream over all its matches. -/
def odoTailR : List (Nat × List Nat) → List (List Nat)
  | [] => []
  | d :: restR =>
    (d.2.drop d.1).map (fun x => (restR.reverse.map curOf) ++ [x]) ++
      (odoTailR restR).flatMap (fun c => d.2.map (fun x => c ++ [x]))

/-- The stream state list for streams `0..s` (innermost first) at hash `H`
with digits `J`. -/
def digitsR (cfg : HashJoinDef) (H : Nat) (J : Nat → Nat) (s : Nat) : List (Nat × List Nat) :=
  ((List.range (s + 1)).reverse).map (fun i => (J i, matchOf (argAt cfg i) H))

/-- A 32-bit little-endian integer key value (scenario helper). -/
def i32 (n : Nat) : KeyVal :=
  .raw [n % 256, n / 256 % 256, n / 65536 % 256, n / 16777216 % 256]

/-- The entries a list of `(position, row)` pairs contributes to slot `s`
during the build of `sub`'s index. -/
def entriesOf (sub : SubStream) (prs : List (Nat × Row)) (s : Nat) : List Entry :=
  (prs.filter (fun pr => computeHash sub pr.2 % HASH_SIZE == s)).map
    (fun pr => ⟨computeHash sub pr.2, pr.1⟩)

/-- The contents of one directory slot after appending a batch of entries
(absent slots are created on the first append, with an invalid iterator). -/
def slotAfter (o : Option CollisionList) (es : List Entry) : Option CollisionList :=
  match o, es with
  | o, [] => o
  | some cl, es => some ⟨cl.collisions ++ es, cl.iterator⟩
  | none, es => some ⟨es, none⟩

/-- The current combination (one consumed match per stream) over streams
`0..s`. -/
def cursTo (cfg : HashJoinDef) (H : Nat) (J : Nat → Nat) (s : Nat) : List Nat :=
  (List.range (s + 1)).map (fun i => (matchOf (argAt cfg i) H).getD (J i - 1) 0)

/-- `t2` agrees with `t` on every slot other than the probed slots of streams
`0..s`. -/
def Untouched (cfg : HashJoinDef) (H s : Nat) (t t2 : HashTable) : Prop :=
  ∀ idx, (∀ i, i ≤ s → idx ≠ i * HASH_SIZE + H % HASH_SIZE) →
    t2.collisions idx = t.collisions idx

/-- The bookkeeping fields are unchanged. -/
def FieldsEq (t t2 : HashTable) : Prop :=
  t2.streamCount = t.streamCount ∧ t2.tableSize = t.tableSize ∧ t2.slot = t.slot

/-- Streams `0..s` all sit mid-run at their odometer digits `J`. -/
def CurState (cfg : HashJoinDef) (H : Nat) (t : HashTable) (J : Nat → Nat) (s : Nat) : Prop :=
  ∀ i, i ≤ s → CurAt cfg H t i (J i) ∧ 1 ≤ J i ∧
    J i ≤ (matchOf (argAt cfg i) H).length

/-- The located-row vector reflects the current combination on streams
`0..s`. -/
def VState (cfg : HashJoinDef) (H : Nat) (v : List (Option Nat)) (J : Nat → Nat)
    (s : Nat) : Prop :=
  ∀ i, i ≤ s → v[i]? = some (some ((matchOf (argAt cfg i) H).getD (J i - 1) 0))

/-- The reference output stream restricted to a suffix `R` of the leader's
rows (so `refOutputs` is `refRows` at the full row list). -/
def refRows (cfg : HashJoinDef) (R : List Row) : List (Option Row × List (Option Nat)) :=
  R.flatMap (fun L =>
    let H := computeHash cfg.leader L
    if cfg.args.all (fun sub => !(matchOf sub H).isEmpty) then
      (rightProd (cfg.args.map (fun sub => matchOf sub H))).map
        (fun c => (some L, c.map some))
    else [])

/-- A consumer-visible state in which the next `getRecord` call starts at the
`irsb_mustread` block: open, index built and valid, scratch buffer held. -/
def MustState (cfg : HashJoinDef) (st : Impure) : Prop :=
  st.flagOpen = true ∧ st.mustRead = true ∧
  (∃ t, st.hashTable = some t ∧ EntriesOK cfg t) ∧
  (∃ b, st.leaderBuffer = some b) ∧
  st.innerPos.length = cfg.args.length

/-- A consumer-visible state just after a row was emitted for the current
leader row: the next `getRecord` call advances the last inner stream.  The
odometer digits are `J` and the current leader row's key hash is `H`. -/
def ProbeSt (cfg : HashJoinDef) (H : Nat) (J : Nat → Nat) (st : Impure) : Prop :=
  st.flagOpen = true ∧ st.mustRead = false ∧ st.first = false ∧
  st.leaderHash = H ∧
  (∃ t, st.hashTable = some t ∧ EntriesOK cfg t ∧ t.slot = H % HASH_SIZE ∧
    CurState cfg H t J (cfg.args.length - 1)) ∧
  (∃ b, st.leaderBuffer = some b) ∧
  VState cfg H st.innerPos J (cfg.args.length - 1) ∧
  st.innerPos.length = cfg.args.length

/-- The loop state after a leader row `L` was read and its hash failed
`setup` (the row is skipped). -/
def rowSetupState (cfg : HashJoinDef) (st : Impure) (L : Row) (rest : List Row)
    (t : HashTable) : Impure :=
  { st with
    leaderPending := rest
    leaderCurrent := some L
    leaderBuffer := some (encodedKey cfg.leader L)
    leaderHash := hashBytes (encodedKey cfg.leader L)
    hashTable := some (t.setup (hashBytes (encodedKey cfg.leader L))).2 }

/-- The state emitted after a leader row `L` was read, `setup` succeeded and
the first-match loop fetched one row per inner stream. -/
def rowEmitState (cfg : HashJoinDef) (st : Impure) (L : Row) (rest : List Row)
    (t : HashTable) : Impure :=
  { st with
    leaderPending := rest
    leaderCurrent := some L
    leaderBuffer := some (encodedKey cfg.leader L)
    leaderHash := hashBytes (encodedKey cfg.leader L)
    mustRead := false
    first := false
    hashTable := some (firstGo cfg (hashBytes (encodedKey cfg.leader L))
      cfg.args.length 0
      (t.setup (hashBytes (encodedKey cfg.leader L))).2 st.innerPos).2.1
    innerPos := (firstGo cfg (hashBytes (encodedKey cfg.leader L))
      cfg.args.length 0
      (t.setup (hashBytes (encodedKey cfg.leader L))).2 st.innerPos).2.2 }

/-- The loop state after the first-match loop failed for leader row `L` (the
row is skipped). -/
def rowRetryState (cfg : HashJoinDef) (st : Impure) (L : Row) (rest : List Row)
    (t : HashTable) : Impure :=
  { st with
    leaderPending := rest
    leaderCurrent := some L
    leaderBuffer := some (encodedKey cfg.leader L)
    leaderHash := hashBytes (encodedKey cfg.leader L)
    mustRead := true
    first := true
    hashTable := some (firstGo cfg (hashBytes (encodedKey cfg.leader L))
      cfg.args.length 0
      (t.setup (hashBytes (encodedKey cfg.leader L))).2 st.innerPos).2.1
    innerPos := (firstGo cfg (hashBytes (encodedKey cfg.leader L))
      cfg.args.length 0
      (t.setup (hashBytes (encodedKey cfg.leader L))).2 st.innerPos).2.2 }

/-- The state emitted after the last inner stream advanced within the current
leader row's matches. -/
def probeEmitState (cfg : HashJoinDef) (st : Impure) (t : HashTable) : Impure :=
  { st with
    hashTable := some (fetchRecord cfg st.leaderHash (cfg.args.length - 1) t
      st.innerPos).2.1
    innerPos := (fetchRecord cfg st.leaderHash (cfg.args.length - 1) t
      st.innerPos).2.2 }

/-- The loop state after the current leader row's matches were exhausted: go
back to reading leader rows. -/
def probeRetryState (cfg : HashJoinDef) (st : Impure) (t : HashTable) : Impure :=
  { st with
    mustRead := true
    hashTable := some (fetchRecord cfg st.leaderHash (cfg.args.length - 1) t
      st.innerPos).2.1
    innerPos := (fetchRecord cfg st.leaderHash (cfg.args.length - 1) t
      st.innerPos).2.2 }

/-- The state emitted by the `irsb_first` branch when every inner stream
produced a first match. -/
def firstEmitState (cfg : HashJoinDef) (st : Impure) (t : HashTable) : Impure :=
  { st with
    first := false
    hashTable := some (firstGo cfg st.leaderHash cfg.args.length 0 t st.innerPos).2.1
    innerPos := (firstGo cfg st.leaderHash cfg.args.length 0 t st.innerPos).2.2 }

/-- The loop state after the `irsb_first` branch failed to produce a first
match. -/
def firstRetryState (cfg : HashJoinDef) (st : Impure) (t : HashTable) : Impure :=
  { st with
    mustRead := true
    hashTable := some (firstGo cfg st.leaderHash cfg.args.length 0 t st.innerPos).2.1
    innerPos := (firstGo cfg st.leaderHash cfg.args.length 0 t st.innerPos).2.2 }

/-- Every allocated collision list is sorted by hash ascending. -/
def SortedSlots (t : HashTable) : Prop :=
  ∀ idx cl, t.collisions idx = some cl →
    cl.collisions.Pairwise (fun a b => a.hash ≤ b.hash)

/-- `t2` has the same collision-list contents as `t` in every slot (only
iterators and bookkeeping may differ). -/
def ShapeEq (t t2 : HashTable) : Prop :=
  ∀ idx, (t2.collisions idx).map CollisionList.collisions
    = (t.collisions idx).map CollisionList.collisions

/-- Scenario: a two-byte raw key; `[0, 33]` and `[1, 0]` are different byte
strings with the same hash. -/
def cfgC2 : HashJoinDef :=
  { leader := { rows := [[KeyVal.raw [0, 33]]], keyLengths := [2] },
    args := [{ rows := [[KeyVal.raw [1, 0]]], keyLengths := [2] }] }

/-- Scenario S4 of the spec: a single `i32` key, leader and one inner stream
both `[NULL, 1]`. -/
def cfgC3 : HashJoinDef :=
  { leader := { rows := [[KeyVal.nullVal], [i32 1]], keyLengths := [4] },
    args := [{ rows := [[KeyVal.nullVal], [i32 1]], keyLengths := [4] }] }

/-- Scenario S3 of the spec: a single float key, leader `+0.0`, inner
`-0.0`. -/
def cfgC5 : HashJoinDef :=
  { leader := { rows := [[KeyVal.real32 (List.replicate 4 0)]], keyLengths := [4] },
    args := [{ rows := [[KeyVal.real32 [0, 0, 0, 128]]], keyLengths := [4] }] }

/-- Scenario S6 of the spec: an empty leader over one inner stream. -/
def cfgC6e : HashJoinDef :=
  { leader := { rows := [], keyLengths := [4] },
    args := [{ rows := [[i32 7]], keyLengths := [4] }] }

/-- Scenario: a NULL leader key over an inner stream holding a zero key, a
NULL key and a non-zero key. -/
def cfgC10 : HashJoinDef :=
  { leader := { rows := [[KeyVal.nullVal]], keyLengths := [4] },
    args := [{ rows := [[i32 0], [KeyVal.nullVal], [i32 1]], keyLengths := [4] }] }

/-- The states reachable by the consumer protocol, as far as child-stream
opens are concerned: before the lazy build (no index, no scratch buffer, no
child opened) or after it (every child opened exactly once). -/
def InvOpen (cfg : HashJoinDef) (st : Impure) : Prop :=
  (st.innerOpens = List.replicate cfg.args.length 0 ∧ st.hashTable = none ∧
    st.leaderBuffer = none) ∨
  (st.innerOpens = List.replicate cfg.args.length 1 ∧ ∃ t, st.hashTable = some t)

/-! ## Key encoder lemmas -/

theorem keyImage_length_le (len : Nat) (v : KeyVal) : (keyImage len v).length ≤ len := by
  cases v with
  | nullVal => simp [keyImage]
  | raw b => simp [keyImage]
  | real32 b => by_cases h : f32IsZero b <;> simp [keyImage, h]
  | real64 b => by_cases h : f64IsZero b <;> simp [keyImage, h]
  | extKey b => simp [keyImage]

theorem keySlot_length (len : Nat) (v : KeyVal) : (keySlot len v).length = len := by
  have h := keyImage_length_le len v
  simp only [keySlot, List.length_append, List.length_replicate]
  omega

theorem writeBytes_length (buf img : List Nat) (off : Nat)
    (h : off + img.length ≤ buf.length) :
    (writeBytes buf off img).length = buf.length := by
  simp only [writeBytes, List.length_append, List.length_take, List.length_drop]
  omega


theorem encStep_off (st : KeyEncoding) (kv : Nat × KeyVal) :
    (encStep st kv).off = st.off + kv.1 := rfl

theorem encodeKeysGo_spec (pairs : List (Nat × KeyVal)) (st : KeyEncoding)
    (h : st.off + (pairs.map Prod.fst).sum ≤ st.buf.length) :
    (pairs.foldl encStep st).off = st.off + (pairs.map Prod.fst).sum ∧
    (pairs.foldl encStep st).buf.length = st.buf.length := by
  induction pairs generalizing st with
  | nil => simp
  | cons p rest ih =>
    simp only [List.map_cons, List.sum_cons] at h
    have himg := keyImage_length_le p.1 p.2
    have hlen : (encStep st p).buf.length = st.buf.length := by
      apply writeBytes_length
      omega
    have hrec := ih (encStep st p) (by rw [hlen, encStep_off]; omega)
    simp only [List.foldl_cons, List.map_cons, List.sum_cons]
    rw [hrec.1, hrec.2, hlen, encStep_off]
    exact ⟨by omega, rfl⟩

theorem encStep_buf_zeros (done : List Nat) (R : Nat) (p : Nat × KeyVal)
    (h : p.1 ≤ R) :
    encStep { buf := done ++ List.replicate R 0, off := done.length } p
      = { buf := (done ++ keySlot p.1 p.2) ++ List.replicate (R - p.1) 0,
          off := (done ++ keySlot p.1 p.2).length } := by
  have himg := keyImage_length_le p.1 p.2
  simp only [encStep, writeBytes, KeyEncoding.mk.injEq]
  constructor
  · rw [List.take_left, ← List.drop_drop, List.drop_left, List.drop_replicate]
    have hsplit : R - (keyImage p.1 p.2).length
        = (p.1 - (keyImage p.1 p.2).length) + (R - p.1) := by omega
    rw [hsplit, List.replicate_add, keySlot]
    simp [List.append_assoc]
  · rw [List.length_append, keySlot_length]

theorem encodeKeysGo_buf (pairs : List (Nat × KeyVal)) (done : List Nat) (R : Nat)
    (h : (pairs.map Prod.fst).sum ≤ R) :
    (pairs.foldl encStep { buf := done ++ List.replicate R 0, off := done.length }).buf
      = done ++ (pairs.flatMap fun p => keySlot p.1 p.2)
          ++ List.replicate (R - (pairs.map Prod.fst).sum) 0 := by
  induction pairs generalizing done R with
  | nil => simp
  | cons p rest ih =>
    simp only [List.map_cons, List.sum_cons] at h
    rw [List.foldl_cons, encStep_buf_zeros done R p (by omega),
      ih (done ++ keySlot p.1 p.2) (R - p.1) (by omega)]
    have hcnt : R - p.1 - (rest.map Prod.fst).sum = R - (p.1 + (rest.map Prod.fst).sum) := by
      omega
    rw [hcnt]
    simp [List.append_assoc]

theorem encodeKeys_buf (ls : List Nat) (row : Row) (h : row.length = ls.length) :
    (encodeKeys ls row).buf = (ls.zip row).flatMap fun p => keySlot p.1 p.2 := by
  have hz : (List.map Prod.fst (ls.zip row)).sum = ls.sum := by
    rw [List.map_fst_zip ls row (by omega)]
  have := encodeKeysGo_buf (ls.zip row) [] ls.sum (by omega)
  simpa [encodeKeys, hz] using this

/-! ## Sorting and collision-list lemmas -/


theorem insertEntry_length (e : Entry) (l : List Entry) :
    (insertEntry e l).length = l.length + 1 := by
  induction l with
  | nil => rfl
  | cons x xs ih =>
    by_cases h : x.hash < e.hash <;> simp [insertEntry, h, ih]

theorem mem_insertEntry (a e : Entry) (l : List Entry) :
    a ∈ insertEntry e l ↔ a = e ∨ a ∈ l := by
  induction l with
  | nil => simp [insertEntry]
  | cons x xs ih =>
    by_cases h : x.hash < e.hash
    · simp only [insertEntry, if_pos h, List.mem_cons, ih]
      tauto
    · simp only [insertEntry, if_neg h, List.mem_cons]

theorem insertEntry_sorted (e : Entry) (l : List Entry)
    (h : l.Pairwise (fun a b => a.hash ≤ b.hash)) :
    (insertEntry e l).Pairwise (fun a b => a.hash ≤ b.hash) := by
  induction l with
  | nil => simp [insertEntry]
  | cons x xs ih =>
    rw [List.pairwise_cons] at h
    by_cases hx : x.hash < e.hash
    · simp only [insertEntry, if_pos hx, List.pairwise_cons]
      refine ⟨fun b hb => ?_, ih h.2⟩
      rcases (mem_insertEntry b e xs).1 hb with hb | hb
      · subst hb; omega
      · exact h.1 b hb
    · simp only [insertEntry, if_neg hx, List.pairwise_cons]
      refine ⟨fun b hb => ?_, h.1, h.2⟩
      rcases List.mem_cons.1 hb with hb | hb
      · subst hb; omega
      · have := h.1 b hb
        omega

theorem sortEntries_length (l : List Entry) : (sortEntries l).length = l.length := by
  induction l with
  | nil => rfl
  | cons e rest ih =>
    rw [sortEntries, insertEntry_length, ih]
    rfl

theorem mem_sortEntries (a : Entry) (l : List Entry) :
    a ∈ sortEntries l ↔ a ∈ l := by
  induction l with
  | nil => simp [sortEntries]
  | cons e rest ih =>
    rw [sortEntries, mem_insertEntry, ih]
    simp

theorem sortEntries_sorted (l : List Entry) :
    (sortEntries l).Pairwise (fun a b => a.hash ≤ b.hash) := by
  induction l with
  | nil => simp [sortEntries]
  | cons e rest ih => exact insertEntry_sorted e _ ih

theorem filter_insertEntry (e : Entry) (l : List Entry) (H : Nat) :
    (insertEntry e l).filter (fun x => x.hash == H)
      = if e.hash == H then e :: l.filter (fun x => x.hash == H)
        else l.filter (fun x => x.hash == H) := by
  induction l with
  | nil =>
    by_cases h : (e.hash == H) = true <;> simp [insertEntry, h]
  | cons x xs ih =>
    by_cases hx : x.hash < e.hash
    · by_cases h2 : (e.hash == H) = true
      · have h3 : (x.hash == H) = false := by
          rw [beq_eq_false_iff_ne]
          rw [beq_iff_eq] at h2
          omega
        simp [insertEntry, hx, h2, h3, ih]
      · simp only [insertEntry, if_pos hx, List.filter_cons, ih, if_neg h2]
    · by_cases h2 : (e.hash == H) = true <;> simp [insertEntry, hx, h2]

theorem filter_sortEntries (l : List Entry) (H : Nat) :
    (sortEntries l).filter (fun x => x.hash == H) = l.filter (fun x => x.hash == H) := by
  induction l with
  | nil => rfl
  | cons e rest ih =>
    by_cases h : (e.hash == H) = true <;>
      simp [sortEntries, filter_insertEntry, List.filter_cons, ih, h]

theorem sorted_decomp (l : List Entry) (H : Nat)
    (h : l.Pairwise (fun a b => a.hash ≤ b.hash)) :
    l = l.filter (fun e => decide (e.hash < H))
        ++ l.filter (fun e => e.hash == H)
        ++ l.filter (fun e => decide (H < e.hash)) := by
  induction l with
  | nil => rfl
  | cons a tl ih =>
    rw [List.pairwise_cons] at h
    have htl := ih h.2
    rcases Nat.lt_trichotomy a.hash H with hlt | heq | hgt
    · have h1 : decide (a.hash < H) = true := by simpa using hlt
      have h2 : (a.hash == H) = false := by rw [beq_eq_false_iff_ne]; omega
      have h3 : decide (H < a.hash) = false := by simp; omega
      simp only [List.filter_cons, h1, h2, h3, Bool.false_eq_true, if_true, if_false,
        List.cons_append]
      rw [← htl]
    · have h1 : decide (a.hash < H) = false := by simp; omega
      have h2 : (a.hash == H) = true := by rw [beq_iff_eq]; omega
      have h3 : decide (H < a.hash) = false := by simp; omega
      have hnil : tl.filter (fun e => decide (e.hash < H)) = [] := by
        rw [List.filter_eq_nil_iff]
        intro b hb
        have := h.1 b hb
        simp only [decide_eq_true_eq]
        omega
      rw [hnil] at htl
      simp only [List.filter_cons, h1, h2, h3, Bool.false_eq_true, if_true, if_false,
        hnil, List.nil_append, List.cons_append]
      rw [List.nil_append] at htl
      rw [← htl]
    · have h1 : decide (a.hash < H) = false := by simp; omega
      have h2 : (a.hash == H) = false := by rw [beq_eq_false_iff_ne]; omega
      have h3 : decide (H < a.hash) = true := by simpa using hgt
      have hnil1 : tl.filter (fun e => decide (e.hash < H)) = [] := by
        rw [List.filter_eq_nil_iff]
        intro b hb
        have := h.1 b hb
        simp only [decide_eq_true_eq]
        omega
      have hnil2 : tl.filter (fun e => e.hash == H) = [] := by
        rw [List.filter_eq_nil_iff]
        intro b hb
        have := h.1 b hb
        simp only [beq_iff_eq]
        omega
      rw [hnil1, hnil2] at htl
      simp only [List.nil_append] at htl
      simp only [List.filter_cons, h1, h2, h3, Bool.false_eq_true, if_true, if_false,
        hnil1, hnil2, List.nil_append]
      rw [← htl]

theorem findIdx?_append_fails {α : Type} (p : α → Bool) (A B : List α) (i : Nat)
    (hA : ∀ a ∈ A, p a = false) :
    (A ++ B).findIdx? p i = B.findIdx? p (i + A.length) := by
  induction A generalizing i with
  | nil => simp
  | cons a A ih =>
    rw [List.cons_append, List.findIdx?_cons, hA a (by simp)]
    simp only [Bool.false_eq_true, if_false]
    rw [ih (i + 1) (fun x hx => hA x (by simp [hx]))]
    congr 1
    simp only [List.length_cons]
    omega

theorem getElem_decomp_run {α : Type} (A B C : List α) (j : Nat) (hj : j < B.length) :
    (A ++ B ++ C)[A.length + j]? = B[j]? := by
  rw [List.append_assoc, List.getElem?_append, if_neg (by omega),
    Nat.add_sub_cancel_left, List.getElem?_append, if_pos hj]

theorem getElem_decomp_end {α : Type} (A B C : List α) :
    (A ++ B ++ C)[A.length + B.length]? = C[0]? := by
  rw [List.append_assoc, List.getElem?_append, if_neg (by omega),
    Nat.add_sub_cancel_left, List.getElem?_append, if_neg (by omega), Nat.sub_self]

theorem locate_neg (cl : CollisionList) (H : Nat)
    (hempty : cl.collisions.filter (fun e => e.hash == H) = []) :
    cl.locate H = (false, { cl with iterator := none }) := by
  have hnone : cl.collisions.findIdx? (fun e => e.hash == H) = none := by
    rw [List.findIdx?_eq_none_iff]
    intro x hx
    have := List.filter_eq_nil_iff.1 hempty x hx
    simpa using this
  simp [CollisionList.locate, hnone, withIter]

theorem locate_pos (cl : CollisionList) (H : Nat)
    (hs : cl.collisions.Pairwise (fun a b => a.hash ≤ b.hash))
    (hne : cl.collisions.filter (fun e => e.hash == H) ≠ []) :
    cl.locate H = (true, withIter cl
      (some ((cl.collisions.filter (fun e => decide (e.hash < H))).length))) := by
  obtain ⟨A, B, C, hd, hA, hB, hC⟩ :
      ∃ A B C, cl.collisions = A ++ B ++ C
        ∧ A = cl.collisions.filter (fun e => decide (e.hash < H))
        ∧ B = cl.collisions.filter (fun e => e.hash == H)
        ∧ C = cl.collisions.filter (fun e => decide (H < e.hash)) :=
    ⟨_, _, _, sorted_decomp cl.collisions H hs, rfl, rfl, rfl⟩
  rw [← hB] at hne
  rw [← hA]
  obtain ⟨b, B', hBcons⟩ : ∃ b B', B = b :: B' := by
    cases hcase : B with
    | nil => exact absurd hcase hne
    | cons b B' => exact ⟨b, B', rfl⟩
  have hfind : cl.collisions.findIdx? (fun e => e.hash == H) = some A.length := by
    rw [show cl.collisions.findIdx? (fun e => e.hash == H)
        = (A ++ (B ++ C)).findIdx? (fun e => e.hash == H) from by
      rw [← List.append_assoc, ← hd]]
    rw [findIdx?_append_fails _ A (B ++ C) 0 (fun a ha => by
      rw [hA] at ha
      have := List.mem_filter.1 ha
      simp only [decide_eq_true_eq] at this
      rw [beq_eq_false_iff_ne]
      omega)]
    rw [hBcons, List.cons_append, List.findIdx?_cons]
    have hb : (b.hash == H) = true := by
      have hmem : b ∈ B := by rw [hBcons]; exact List.mem_cons_self b B'
      rw [hB] at hmem
      exact (List.mem_filter.1 hmem).2
    rw [hb]
    simp
  simp [CollisionList.locate, hfind, withIter]

theorem iterate_invalid (cl : CollisionList) (H : Nat) (h : cl.iterator = none) :
    cl.iterate H = (none, cl) := by
  simp [CollisionList.iterate, h]

theorem iterate_hit (cl : CollisionList) (H j : Nat)
    (hs : cl.collisions.Pairwise (fun a b => a.hash ≤ b.hash))
    (hit : cl.iterator
      = some ((cl.collisions.filter (fun e => decide (e.hash < H))).length + j))
    (hj : j < (cl.collisions.filter (fun e => e.hash == H)).length) :
    ∃ e : Entry, (cl.collisions.filter (fun e => e.hash == H))[j]? = some e ∧
      cl.iterate H = (some e.position, withIter cl
        (some ((cl.collisions.filter (fun e => decide (e.hash < H))).length + j + 1))) := by
  obtain ⟨A, B, C, hd, hA, hB, hC⟩ :
      ∃ A B C, cl.collisions = A ++ B ++ C
        ∧ A = cl.collisions.filter (fun e => decide (e.hash < H))
        ∧ B = cl.collisions.filter (fun e => e.hash == H)
        ∧ C = cl.collisions.filter (fun e => decide (H < e.hash)) :=
    ⟨_, _, _, sorted_decomp cl.collisions H hs, rfl, rfl, rfl⟩
  rw [← hB] at hj ⊢
  rw [← hA] at hit ⊢
  obtain ⟨e, he⟩ : ∃ e, B[j]? = some e := by
    rw [List.getElem?_eq_getElem hj]
    exact ⟨_, rfl⟩
  refine ⟨e, he, ?_⟩
  have hcoll : cl.collisions[A.length + j]? = some e := by
    rw [hd, getElem_decomp_run A B C j hj, he]
  have hhash : (e.hash == H) = true := by
    have hmem : e ∈ B := List.getElem?_mem he
    rw [hB] at hmem
    exact (List.mem_filter.1 hmem).2
  simp [CollisionList.iterate, hit, hcoll, hhash, withIter]

theorem iterate_end (cl : CollisionList) (H : Nat)
    (hs : cl.collisions.Pairwise (fun a b => a.hash ≤ b.hash))
    (hit : cl.iterator
      = some ((cl.collisions.filter (fun e => decide (e.hash < H))).length
          + (cl.collisions.filter (fun e => e.hash == H)).length)) :
    ∃ it, cl.iterate H = (none, withIter cl it) ∧
      (it = none ∨ it = some ((cl.collisions.filter (fun e => decide (e.hash < H))).length
          + (cl.collisions.filter (fun e => e.hash == H)).length)) := by
  obtain ⟨A, B, C, hd, hA, hB, hC⟩ :
      ∃ A B C, cl.collisions = A ++ B ++ C
        ∧ A = cl.collisions.filter (fun e => decide (e.hash < H))
        ∧ B = cl.collisions.filter (fun e => e.hash == H)
        ∧ C = cl.collisions.filter (fun e => decide (H < e.hash)) :=
    ⟨_, _, _, sorted_decomp cl.collisions H hs, rfl, rfl, rfl⟩
  rw [← hB]
  rw [← hA] at hit ⊢
  rw [← hB] at hit
  have hcoll : cl.collisions[A.length + B.length]? = C[0]? := by
    rw [hd, getElem_decomp_end A B C]
  cases hC0 : C with
  | nil =>
    refine ⟨some (A.length + B.length), ?_, Or.inr rfl⟩
    have hcnone : cl.collisions[A.length + B.length]? = none := by
      rw [hcoll, hC0]
      rfl
    have hwi : withIter cl (some (A.length + B.length)) = cl := by
      cases cl with
      | mk c i =>
        simp only [withIter]
        simp only at hit
        rw [hit]
    simp [CollisionList.iterate, hit, hcnone, hwi]
  | cons c C' =>
    refine ⟨none, ?_, Or.inl rfl⟩
    have hcget : cl.collisions[A.length + B.length]? = some c := by
      rw [hcoll, hC0]
      simp
    have hchash : (c.hash == H) = false := by
      have hmem : c ∈ C := by rw [hC0]; exact List.mem_cons_self c C'
      rw [hC] at hmem
      have := List.mem_filter.1 hmem
      simp only [decide_eq_true_eq] at this
      rw [beq_eq_false_iff_ne]
      omega
    simp [CollisionList.iterate, hit, hcget, hchash, withIter]

/-! ## Hash-table directory lemmas -/

theorem slotAfter_nil (o : Option CollisionList) : slotAfter o [] = o := by
  cases o <;> rfl

theorem slotAfter_cons (o : Option CollisionList) (e : Entry) (es : List Entry) :
    slotAfter o (e :: es) = slotAfter (slotAfter o [e]) es := by
  cases o with
  | none => cases es <;> simp [slotAfter]
  | some cl => cases es <;> simp [slotAfter]

theorem slotIdx_inj (T i1 s1 i2 s2 : Nat) (h1 : s1 < T) (h2 : s2 < T)
    (h : i1 * T + s1 = i2 * T + s2) : i1 = i2 ∧ s1 = s2 := by
  have hT : 0 < T := by omega
  have e1 : (i1 * T + s1) / T = i1 := by
    rw [Nat.mul_comm, Nat.mul_add_div hT, Nat.div_eq_of_lt h1]
    omega
  have e2 : (i2 * T + s2) / T = i2 := by
    rw [Nat.mul_comm, Nat.mul_add_div hT, Nat.div_eq_of_lt h2]
    omega
  have hi : i1 = i2 := by rw [← e1, ← e2, h]
  subst hi
  exact ⟨rfl, by omega⟩

theorem HASH_SIZE_pos : 0 < HASH_SIZE := by decide

theorem updateSlot_self (t : HashTable) (idx : Nat) (cl : CollisionList) :
    (t.updateSlot idx cl).collisions idx = some cl := by
  simp [HashTable.updateSlot]

theorem updateSlot_other (t : HashTable) (idx idx2 : Nat) (cl : CollisionList)
    (h : idx2 ≠ idx) :
    (t.updateSlot idx cl).collisions idx2 = t.collisions idx2 := by
  simp [HashTable.updateSlot, h]

theorem put_at (t : HashTable) (i hash pos : Nat) (ht : t.tableSize = HASH_SIZE) :
    (t.put i hash pos).collisions (i * HASH_SIZE + hash % HASH_SIZE)
      = slotAfter (t.collisions (i * HASH_SIZE + hash % HASH_SIZE)) [⟨hash, pos⟩] := by
  cases ho : t.collisions (i * HASH_SIZE + hash % HASH_SIZE) with
  | none => simp [HashTable.put, ht, HashTable.updateSlot, ho, slotAfter, CollisionList.add]
  | some cl => simp [HashTable.put, ht, HashTable.updateSlot, ho, slotAfter, CollisionList.add]

theorem put_other (t : HashTable) (i hash pos idx : Nat) (ht : t.tableSize = HASH_SIZE)
    (h : idx ≠ i * HASH_SIZE + hash % HASH_SIZE) :
    (t.put i hash pos).collisions idx = t.collisions idx := by
  simp [HashTable.put, ht, HashTable.updateSlot, h]

theorem put_tableSize (t : HashTable) (i hash pos : Nat) :
    (t.put i hash pos).tableSize = t.tableSize := rfl

theorem put_streamCount (t : HashTable) (i hash pos : Nat) :
    (t.put i hash pos).streamCount = t.streamCount := rfl

theorem putFold_tableSize (sub : SubStream) (i : Nat) (prs : List (Nat × Row))
    (t : HashTable) :
    ((prs.foldl (fun acc pr => acc.put i (computeHash sub pr.2) pr.1) t)).tableSize
      = t.tableSize := by
  induction prs generalizing t with
  | nil => rfl
  | cons pr prs ih => rw [List.foldl_cons, ih]; rfl

theorem putFold_streamCount (sub : SubStream) (i : Nat) (prs : List (Nat × Row))
    (t : HashTable) :
    ((prs.foldl (fun acc pr => acc.put i (computeHash sub pr.2) pr.1) t)).streamCount
      = t.streamCount := by
  induction prs generalizing t with
  | nil => rfl
  | cons pr prs ih => rw [List.foldl_cons, ih]; rfl

theorem putFold_at (sub : SubStream) (i : Nat) (prs : List (Nat × Row)) (t : HashTable)
    (ht : t.tableSize = HASH_SIZE) (s : Nat) (hs : s < HASH_SIZE) :
    ((prs.foldl (fun acc pr => acc.put i (computeHash sub pr.2) pr.1) t)).collisions
        (i * HASH_SIZE + s)
      = slotAfter (t.collisions (i * HASH_SIZE + s)) (entriesOf sub prs s) := by
  induction prs generalizing t with
  | nil => rw [List.foldl_nil, entriesOf, List.filter_nil, List.map_nil, slotAfter_nil]
  | cons pr prs ih =>
    have ht1 : (t.put i (computeHash sub pr.2) pr.1).tableSize = HASH_SIZE := by
      rw [put_tableSize, ht]
    rw [List.foldl_cons, ih _ ht1]
    by_cases hslot : computeHash sub pr.2 % HASH_SIZE = s
    · have hcond : (computeHash sub pr.2 % HASH_SIZE == s) = true := by
        rw [beq_iff_eq]; exact hslot
      have hput := put_at t i (computeHash sub pr.2) pr.1 ht
      rw [hslot] at hput
      rw [hput]
      simp only [entriesOf, List.filter_cons, hcond, if_true, List.map_cons]
      conv_rhs => rw [slotAfter_cons]
    · have hcond : (computeHash sub pr.2 % HASH_SIZE == s) = false := by
        rw [beq_eq_false_iff_ne]; exact hslot
      have hput := put_other t i (computeHash sub pr.2) pr.1 (i * HASH_SIZE + s) ht (by
        intro hcontra
        have := slotIdx_inj HASH_SIZE i s i (computeHash sub pr.2 % HASH_SIZE) hs
          (Nat.mod_lt _ HASH_SIZE_pos) hcontra
        omega)
      rw [hput]
      simp only [entriesOf, List.filter_cons, hcond, Bool.false_eq_true, if_false]

theorem putFold_other (sub : SubStream) (i : Nat) (prs : List (Nat × Row)) (t : HashTable)
    (ht : t.tableSize = HASH_SIZE) (idx : Nat)
    (hidx : ∀ s, s < HASH_SIZE → idx ≠ i * HASH_SIZE + s) :
    ((prs.foldl (fun acc pr => acc.put i (computeHash sub pr.2) pr.1) t)).collisions idx
      = t.collisions idx := by
  induction prs generalizing t with
  | nil => rfl
  | cons pr prs ih =>
    have ht1 : (t.put i (computeHash sub pr.2) pr.1).tableSize = HASH_SIZE := by
      rw [put_tableSize, ht]
    rw [List.foldl_cons, ih _ ht1]
    exact put_other t i _ pr.1 idx ht
      (hidx (computeHash sub pr.2 % HASH_SIZE) (Nat.mod_lt _ HASH_SIZE_pos))

theorem buildStream_tableSize (t : HashTable) (i : Nat) (sub : SubStream) :
    (buildStream t i sub).tableSize = t.tableSize :=
  putFold_tableSize sub i sub.rows.enum t

theorem buildStream_streamCount (t : HashTable) (i : Nat) (sub : SubStream) :
    (buildStream t i sub).streamCount = t.streamCount :=
  putFold_streamCount sub i sub.rows.enum t

theorem foldEnum_tableSize (l : List (Nat × SubStream)) (t : HashTable) :
    (l.foldl (fun acc pr => buildStream acc pr.1 pr.2) t).tableSize = t.tableSize := by
  induction l generalizing t with
  | nil => rfl
  | cons pr l ih => rw [List.foldl_cons, ih, buildStream_tableSize]

theorem foldEnum_streamCount (l : List (Nat × SubStream)) (t : HashTable) :
    (l.foldl (fun acc pr => buildStream acc pr.1 pr.2) t).streamCount = t.streamCount := by
  induction l generalizing t with
  | nil => rfl
  | cons pr l ih => rw [List.foldl_cons, ih, buildStream_streamCount]

theorem foldEnum_untouched (args : List SubStream) (n : Nat) (t : HashTable)
    (ht : t.tableSize = HASH_SIZE) (idx : Nat)
    (hidx : ∀ j s, n ≤ j → s < HASH_SIZE → idx ≠ j * HASH_SIZE + s) :
    ((List.enumFrom n args).foldl (fun acc pr => buildStream acc pr.1 pr.2) t).collisions idx
      = t.collisions idx := by
  induction args generalizing n t with
  | nil => rfl
  | cons sub rest ih =>
    rw [List.enumFrom_cons, List.foldl_cons]
    rw [ih (n + 1) _ (by rw [buildStream_tableSize, ht])
      (fun j s hj hs => hidx j s (by omega) hs)]
    exact putFold_other sub n sub.rows.enum t ht idx
      (fun s hs => hidx n s (by omega) hs)

theorem foldEnum_at (args : List SubStream) (n : Nat) (t : HashTable)
    (ht : t.tableSize = HASH_SIZE) (i s : Nat) (hs : s < HASH_SIZE)
    (hi : n ≤ i) (hilt : i < n + args.length) :
    ((List.enumFrom n args).foldl (fun acc pr => buildStream acc pr.1 pr.2) t).collisions
        (i * HASH_SIZE + s)
      = slotAfter (t.collisions (i * HASH_SIZE + s))
          (entriesOf (args.getD (i - n) ⟨[], []⟩)
            ((args.getD (i - n) ⟨[], []⟩).rows.enum) s) := by
  induction args generalizing n t with
  | nil => simp at hilt; omega
  | cons sub rest ih =>
    rw [List.enumFrom_cons, List.foldl_cons]
    by_cases hin : i = n
    · subst hin
      rw [foldEnum_untouched rest (i + 1) _ (by rw [buildStream_tableSize, ht])
        (i * HASH_SIZE + s) (fun j s2 hj hs2 => by
          intro hcontra
          have := slotIdx_inj HASH_SIZE i s j s2 hs hs2 hcontra
          omega)]
      rw [Nat.sub_self, List.getD_cons_zero]
      exact putFold_at sub i sub.rows.enum t ht s hs
    · have hgt : n < i := by omega
      have hstep : (buildStream t n sub).collisions (i * HASH_SIZE + s)
          = t.collisions (i * HASH_SIZE + s) :=
        putFold_other sub n sub.rows.enum t ht _ (fun s2 hs2 => by
          intro hcontra
          have := slotIdx_inj HASH_SIZE i s n s2 hs hs2 hcontra
          omega)
      rw [ih (n + 1) _ (by rw [buildStream_tableSize, ht]) (by omega)
        (by simp at hilt ⊢; omega), hstep]
      have hidxeq : i - n = (i - (n + 1)) + 1 := by omega
      rw [hidxeq, List.getD_cons_succ]

theorem builtTable_streamCount (cfg : HashJoinDef) :
    (builtTable cfg).streamCount = cfg.args.length := by
  unfold builtTable
  rw [show cfg.args.enum = List.enumFrom 0 cfg.args from rfl]
  exact foldEnum_streamCount _ _

theorem builtTable_tableSize (cfg : HashJoinDef) :
    (builtTable cfg).tableSize = HASH_SIZE := by
  unfold builtTable
  rw [show cfg.args.enum = List.enumFrom 0 cfg.args from rfl]
  exact foldEnum_tableSize _ _

theorem builtTable_entries (cfg : HashJoinDef) (i s : Nat)
    (hi : i < cfg.args.length) (hs : s < HASH_SIZE) :
    (builtTable cfg).collisions (i * HASH_SIZE + s)
      = if builtEntriesPre (argAt cfg i) s = [] then none
        else some ⟨builtEntries (argAt cfg i) s, none⟩ := by
  unfold builtTable
  rw [show cfg.args.enum = List.enumFrom 0 cfg.args from rfl]
  have hfold := foldEnum_at cfg.args 0 (initTable cfg) rfl i s hs
    (Nat.zero_le i) (by omega)
  simp only [Nat.sub_zero] at hfold
  simp only [HashTable.sortAll, hfold]
  have hpre : entriesOf (cfg.args.getD i ⟨[], []⟩) ((cfg.args.getD i ⟨[], []⟩).rows.enum) s
      = builtEntriesPre (argAt cfg i) s := rfl
  rw [hpre]
  cases hcase : builtEntriesPre (argAt cfg i) s with
  | nil => simp [slotAfter, initTable]
  | cons e es =>
    simp only [slotAfter, initTable, Option.map_some]
    simp only [if_neg (by simp : e :: es ≠ [])]
    simp only [CollisionList.sortList, builtEntries]
    rw [hcase]
    simp [CollisionList.sortList]

theorem EntriesOK_builtTable (cfg : HashJoinDef) : EntriesOK cfg (builtTable cfg) := by
  refine ⟨builtTable_streamCount cfg, builtTable_tableSize cfg, fun i s hi hs => ?_⟩
  rw [builtTable_entries cfg i s hi hs]
  cases hcase : builtEntriesPre (argAt cfg i) s with
  | nil => simp
  | cons e es => simp

theorem entriesOf_cons (sub : SubStream) (pr : Nat × Row) (prs : List (Nat × Row)) (s : Nat) :
    entriesOf sub (pr :: prs) s
      = if computeHash sub pr.2 % HASH_SIZE == s
        then Entry.mk (computeHash sub pr.2) pr.1 :: entriesOf sub prs s
        else entriesOf sub prs s := by
  simp only [entriesOf, List.filter_cons]
  by_cases h : (computeHash sub pr.2 % HASH_SIZE == s) = true <;> simp [h]

theorem entriesOf_filterH (sub : SubStream) (H : Nat) (prs : List (Nat × Row)) :
    (entriesOf sub prs (H % HASH_SIZE)).filter (fun e => e.hash == H)
      = (prs.filter (fun pr => computeHash sub pr.2 == H)).map
          (fun pr => (⟨computeHash sub pr.2, pr.1⟩ : Entry)) := by
  induction prs with
  | nil => rfl
  | cons pr prs ih =>
    by_cases hH : (computeHash sub pr.2 == H) = true
    · have hH2 : computeHash sub pr.2 = H := by rwa [beq_iff_eq] at hH
      have hslot : (computeHash sub pr.2 % HASH_SIZE == H % HASH_SIZE) = true := by
        rw [beq_iff_eq, hH2]
      rw [entriesOf_cons, if_pos hslot, List.filter_cons, List.filter_cons]
      simp only [hH, if_true]
      rw [List.map_cons, ih]
    · by_cases hslot : (computeHash sub pr.2 % HASH_SIZE == H % HASH_SIZE) = true
      · rw [entriesOf_cons, if_pos hslot, List.filter_cons, List.filter_cons]
        simp only [hH, Bool.false_eq_true, if_false]
        exact ih
      · rw [entriesOf_cons, if_neg hslot, List.filter_cons]
        simp only [hH, Bool.false_eq_true, if_false]
        exact ih

theorem matchOf_eq (sub : SubStream) (H : Nat) :
    ((builtEntries sub (H % HASH_SIZE)).filter (fun e => e.hash == H)).map Entry.position
      = matchOf sub H := by
  rw [builtEntries, filter_sortEntries]
  rw [show builtEntriesPre sub (H % HASH_SIZE)
      = entriesOf sub sub.rows.enum (H % HASH_SIZE) from rfl]
  rw [entriesOf_filterH]
  simp [matchOf, List.map_map]

theorem matchOf_length_eq (sub : SubStream) (H : Nat) :
    ((builtEntries sub (H % HASH_SIZE)).filter (fun e => e.hash == H)).length
      = (matchOf sub H).length := by
  rw [← matchOf_eq]
  simp

theorem matchOf_mem_lt (sub : SubStream) (H p : Nat) (hp : p ∈ matchOf sub H) :
    p < sub.rows.length := by
  simp only [matchOf, List.mem_map] at hp
  obtain ⟨pr, hpr, hpeq⟩ := hp
  have hmem : pr ∈ sub.rows.enum := List.mem_of_mem_filter hpr
  obtain ⟨i0, x0⟩ := pr
  have := List.mem_enumFrom hmem
  simp only at hpeq
  omega

theorem matchOf_nonempty_iff (sub : SubStream) (H : Nat) :
    (builtEntriesPre sub (H % HASH_SIZE)).filter (fun e => e.hash == H) ≠ []
      ↔ matchOf sub H ≠ [] := by
  rw [show builtEntriesPre sub (H % HASH_SIZE)
      = entriesOf sub sub.rows.enum (H % HASH_SIZE) from rfl]
  rw [entriesOf_filterH]
  constructor
  · intro h hcontra
    apply h
    simp only [matchOf] at hcontra
    rw [List.map_eq_nil_iff] at hcontra ⊢
    exact hcontra
  · intro h hcontra
    apply h
    simp only [matchOf]
    rw [List.map_eq_nil_iff] at hcontra ⊢
    exact hcontra

/-! ## Table-level probe operation lemmas -/

theorem locate_collisions (cl : CollisionList) (H : Nat) :
    (cl.locate H).2.collisions = cl.collisions := by
  unfold CollisionList.locate
  cases cl.collisions.findIdx? (fun e => e.hash == H) <;> rfl

theorem iterate_collisions (cl : CollisionList) (H : Nat) :
    (cl.iterate H).2.collisions = cl.collisions := by
  unfold CollisionList.iterate
  cases hit : cl.iterator with
  | none => rfl
  | some i =>
    simp only
    cases hg : cl.collisions[i]? with
    | none => simp [hg]
    | some e => by_cases hh : (e.hash == H) = true <;> simp [hg, hh]

theorem findIdx?_isSome_iff {α : Type} (p : α → Bool) (l : List α) (i : Nat) :
    (l.findIdx? p i).isSome = true ↔ ∃ a ∈ l, p a = true := by
  induction l generalizing i with
  | nil => simp
  | cons x xs ih =>
    rw [List.findIdx?_cons]
    by_cases hx : p x = true
    · simp [hx]
    · simp only [hx, Bool.false_eq_true, if_false, ih (i + 1), List.mem_cons]
      constructor
      · rintro ⟨a, ha, hpa⟩
        exact ⟨a, Or.inr ha, hpa⟩
      · rintro ⟨a, ha, hpa⟩
        rcases ha with ha | ha
        · subst ha
          exact absurd hpa hx
        · exact ⟨a, ha, hpa⟩

theorem locate_bool (cl : CollisionList) (H : Nat) :
    (cl.locate H).1 = true ↔ ∃ e ∈ cl.collisions, e.hash = H := by
  have hiff := findIdx?_isSome_iff (fun e => e.hash == H) cl.collisions 0
  unfold CollisionList.locate
  cases hf : cl.collisions.findIdx? (fun e => e.hash == H) with
  | none =>
    rw [hf] at hiff
    simp only [Option.isSome_none] at hiff
    simp only
    constructor
    · intro h
      exact absurd h (by simp)
    · rintro ⟨e, he, heq⟩
      exact absurd (hiff.symm.1 ⟨e, he, by rw [beq_iff_eq]; exact heq⟩) (by simp)
  | some i =>
    rw [hf] at hiff
    simp only [Option.isSome_some] at hiff
    simp only
    obtain ⟨e, he, hpe⟩ := hiff.1 trivial
    rw [beq_iff_eq] at hpe
    exact ⟨fun _ => ⟨e, he, hpe⟩, fun _ => trivial⟩

theorem updateSlot_streamCount (t : HashTable) (idx : Nat) (cl : CollisionList) :
    (t.updateSlot idx cl).streamCount = t.streamCount := rfl

theorem updateSlot_tableSize (t : HashTable) (idx : Nat) (cl : CollisionList) :
    (t.updateSlot idx cl).tableSize = t.tableSize := rfl

theorem updateSlot_slot (t : HashTable) (idx : Nat) (cl : CollisionList) :
    (t.updateSlot idx cl).slot = t.slot := rfl

theorem table_iterate_eq (t : HashTable) (i H : Nat) (cl : CollisionList)
    (hcl : t.collisions (i * t.tableSize + t.slot) = some cl) :
    t.iterate i H
      = ((cl.iterate H).1, t.updateSlot (i * t.tableSize + t.slot) (cl.iterate H).2) := by
  unfold HashTable.iterate
  rw [hcl]

theorem table_reset_eq (t : HashTable) (i H : Nat) (cl : CollisionList)
    (hcl : t.collisions (i * t.tableSize + t.slot) = some cl) :
    t.reset i H = t.updateSlot (i * t.tableSize + t.slot) (cl.locate H).2 := by
  unfold HashTable.reset
  rw [hcl]

theorem builtEntries_filter_ne (sub : SubStream) (H : Nat)
    (h : matchOf sub H ≠ []) :
    (builtEntries sub (H % HASH_SIZE)).filter (fun e => e.hash == H) ≠ [] := by
  intro hcontra
  apply h
  have := matchOf_eq sub H
  rw [hcontra] at this
  simpa using this.symm

theorem builtEntriesPre_ne (sub : SubStream) (H : Nat)
    (h : matchOf sub H ≠ []) :
    builtEntriesPre sub (H % HASH_SIZE) ≠ [] := by
  intro hcontra
  apply builtEntries_filter_ne sub H h
  rw [builtEntries, hcontra]
  rfl

theorem table_iterate_hit (cfg : HashJoinDef) (H : Nat) (t : HashTable) (i j : Nat)
    (ht : t.tableSize = HASH_SIZE) (hslot : t.slot = H % HASH_SIZE)
    (hcur : CurAt cfg H t i j) (hj : j < (matchOf (argAt cfg i) H).length) :
    (t.iterate i H).1 = some ((matchOf (argAt cfg i) H).getD j 0) ∧
    CurAt cfg H (t.iterate i H).2 i (j + 1) ∧
    (∀ idx, idx ≠ i * HASH_SIZE + H % HASH_SIZE →
      (t.iterate i H).2.collisions idx = t.collisions idx) ∧
    (t.iterate i H).2.streamCount = t.streamCount ∧
    (t.iterate i H).2.tableSize = t.tableSize ∧
    (t.iterate i H).2.slot = t.slot := by
  obtain ⟨cl, hcl, hcoll, hiter⟩ := hcur
  have hsorted : cl.collisions.Pairwise (fun a b => a.hash ≤ b.hash) := by
    rw [hcoll]
    exact sortEntries_sorted _
  have hjlen : j < (cl.collisions.filter (fun e => e.hash == H)).length := by
    rw [hcoll, matchOf_length_eq]
    exact hj
  have hits : cl.iterator
      = some ((cl.collisions.filter (fun e => decide (e.hash < H))).length + j) := by
    rw [hiter, hcoll]
    rfl
  obtain ⟨e, hge, hcliter⟩ := iterate_hit cl H j hsorted hits hjlen
  have hcl2 : t.collisions (i * t.tableSize + t.slot) = some cl := by
    rw [ht, hslot]
    exact hcl
  rw [table_iterate_eq t i H cl hcl2, hcliter]
  have hval : e.position = (matchOf (argAt cfg i) H).getD j 0 := by
    rw [← matchOf_eq, List.getD_eq_getElem?_getD, List.getElem?_map]
    rw [hcoll] at hge
    rw [hge]
    rfl
  refine ⟨by rw [hval], ?_, ?_, rfl, rfl, rfl⟩
  · refine ⟨withIter cl (some ((cl.collisions.filter (fun e => decide (e.hash < H))).length
      + j + 1)), ?_, ?_, ?_⟩
    · rw [ht, hslot] at hcl2 ⊢
      exact updateSlot_self t _ _
    · rw [withIter]
      exact hcoll
    · rw [withIter]
      simp only
      rw [hcoll]
      rw [show stIdx (argAt cfg i) (H % HASH_SIZE) H + (j + 1)
          = ((builtEntries (argAt cfg i) (H % HASH_SIZE)).filter
              (fun e => decide (e.hash < H))).length + j + 1 from by
        rw [stIdx]
        omega]
  · intro idx hidx
    apply updateSlot_other
    rw [ht, hslot]
    exact hidx

theorem table_iterate_end (cfg : HashJoinDef) (H : Nat) (t : HashTable) (i : Nat)
    (ht : t.tableSize = HASH_SIZE) (hslot : t.slot = H % HASH_SIZE)
    (hcur : CurAt cfg H t i ((matchOf (argAt cfg i) H).length)) :
    (t.iterate i H).1 = none ∧
    CurEx cfg H (t.iterate i H).2 i ∧
    (∀ idx, idx ≠ i * HASH_SIZE + H % HASH_SIZE →
      (t.iterate i H).2.collisions idx = t.collisions idx) ∧
    (t.iterate i H).2.streamCount = t.streamCount ∧
    (t.iterate i H).2.tableSize = t.tableSize ∧
    (t.iterate i H).2.slot = t.slot := by
  obtain ⟨cl, hcl, hcoll, hiter⟩ := hcur
  have hsorted : cl.collisions.Pairwise (fun a b => a.hash ≤ b.hash) := by
    rw [hcoll]
    exact sortEntries_sorted _
  have hits : cl.iterator
      = some ((cl.collisions.filter (fun e => decide (e.hash < H))).length
          + (cl.collisions.filter (fun e => e.hash == H)).length) := by
    rw [hiter, hcoll, matchOf_length_eq]
    rfl
  obtain ⟨it, hcliter, hitcases⟩ := iterate_end cl H hsorted hits
  have hcl2 : t.collisions (i * t.tableSize + t.slot) = some cl := by
    rw [ht, hslot]
    exact hcl
  rw [table_iterate_eq t i H cl hcl2, hcliter]
  refine ⟨rfl, ?_, ?_, rfl, rfl, rfl⟩
  · refine ⟨withIter cl it, ?_, ?_, ?_⟩
    · rw [ht, hslot] at hcl2 ⊢
      exact updateSlot_self t _ _
    · rw [withIter]
      exact hcoll
    · rw [withIter]
      simp only
      rcases hitcases with hcase | hcase
      · exact Or.inl hcase
      · refine Or.inr ?_
        rw [hcase, hcoll, matchOf_length_eq]
        rfl
  · intro idx hidx
    apply updateSlot_other
    rw [ht, hslot]
    exact hidx

theorem table_iterate_ex (cfg : HashJoinDef) (H : Nat) (t : HashTable) (i : Nat)
    (ht : t.tableSize = HASH_SIZE) (hslot : t.slot = H % HASH_SIZE)
    (hcur : CurEx cfg H t i) :
    (t.iterate i H).1 = none ∧
    CurEx cfg H (t.iterate i H).2 i ∧
    (∀ idx, idx ≠ i * HASH_SIZE + H % HASH_SIZE →
      (t.iterate i H).2.collisions idx = t.collisions idx) ∧
    (t.iterate i H).2.streamCount = t.streamCount ∧
    (t.iterate i H).2.tableSize = t.tableSize ∧
    (t.iterate i H).2.slot = t.slot := by
  obtain ⟨cl, hcl, hcoll, hitcases⟩ := hcur
  have hcl2 : t.collisions (i * t.tableSize + t.slot) = some cl := by
    rw [ht, hslot]
    exact hcl
  rcases hitcases with hcase | hcase
  · have hcliter : cl.iterate H = (none, cl) := iterate_invalid cl H hcase
    rw [table_iterate_eq t i H cl hcl2, hcliter]
    refine ⟨rfl, ?_, ?_, rfl, rfl, rfl⟩
    · refine ⟨cl, ?_, hcoll, Or.inl hcase⟩
      rw [ht, hslot] at hcl2 ⊢
      exact updateSlot_self t _ _
    · intro idx hidx
      apply updateSlot_other
      rw [ht, hslot]
      exact hidx
  · have hsorted : cl.collisions.Pairwise (fun a b => a.hash ≤ b.hash) := by
      rw [hcoll]
      exact sortEntries_sorted _
    have hits : cl.iterator
        = some ((cl.collisions.filter (fun e => decide (e.hash < H))).length
            + (cl.collisions.filter (fun e => e.hash == H)).length) := by
      rw [hcase, hcoll, matchOf_length_eq]
      rfl
    obtain ⟨it, hcliter, hitcases2⟩ := iterate_end cl H hsorted hits
    rw [table_iterate_eq t i H cl hcl2, hcliter]
    refine ⟨rfl, ?_, ?_, rfl, rfl, rfl⟩
    · refine ⟨withIter cl it, ?_, ?_, ?_⟩
      · rw [ht, hslot] at hcl2 ⊢
        exact updateSlot_self t _ _
      · rw [withIter]
        exact hcoll
      · rw [withIter]
        simp only
        rcases hitcases2 with hcase2 | hcase2
        · exact Or.inl hcase2
        · refine Or.inr ?_
          rw [hcase2, hcoll, matchOf_length_eq]
          rfl
    · intro idx hidx
      apply updateSlot_other
      rw [ht, hslot]
      exact hidx

theorem table_reset (cfg : HashJoinDef) (H : Nat) (t : HashTable) (i : Nat)
    (ht : t.tableSize = HASH_SIZE) (hslot : t.slot = H % HASH_SIZE)
    (hok : SlotOK cfg H t i) (hne : matchOf (argAt cfg i) H ≠ []) :
    CurAt cfg H (t.reset i H) i 0 ∧
    (∀ idx, idx ≠ i * HASH_SIZE + H % HASH_SIZE →
      (t.reset i H).collisions idx = t.collisions idx) ∧
    (t.reset i H).streamCount = t.streamCount ∧
    (t.reset i H).tableSize = t.tableSize ∧
    (t.reset i H).slot = t.slot := by
  obtain ⟨cl, hcl, hcoll⟩ := hok
  have hsorted : cl.collisions.Pairwise (fun a b => a.hash ≤ b.hash) := by
    rw [hcoll]
    exact sortEntries_sorted _
  have hne2 : cl.collisions.filter (fun e => e.hash == H) ≠ [] := by
    rw [hcoll]
    exact builtEntries_filter_ne _ _ hne
  have hloc := locate_pos cl H hsorted hne2
  have hcl2 : t.collisions (i * t.tableSize + t.slot) = some cl := by
    rw [ht, hslot]
    exact hcl
  rw [table_reset_eq t i H cl hcl2, hloc]
  refine ⟨?_, ?_, rfl, rfl, rfl⟩
  · refine ⟨withIter cl (some ((cl.collisions.filter
      (fun e => decide (e.hash < H))).length)), ?_, ?_, ?_⟩
    · rw [ht, hslot] at hcl2 ⊢
      exact updateSlot_self t _ _
    · rw [withIter]
      exact hcoll
    · rw [withIter]
      simp only
      rw [hcoll]
      rw [show stIdx (argAt cfg i) (H % HASH_SIZE) H + 0
          = ((builtEntries (argAt cfg i) (H % HASH_SIZE)).filter
              (fun e => decide (e.hash < H))).length from by
        rw [stIdx]
        omega]
  · intro idx hidx
    apply updateSlot_other
    rw [ht, hslot]
    exact hidx

theorem argAt_eq_getElem (cfg : HashJoinDef) (i : Nat) (hi : i < cfg.args.length) :
    argAt cfg i = cfg.args[i] := by
  rw [argAt, List.getD_eq_getElem?_getD, List.getElem?_eq_getElem hi]
  rfl

theorem all_matchOf_iff (cfg : HashJoinDef) (H : Nat) :
    (cfg.args.all (fun sub => !(matchOf sub H).isEmpty) = true)
      ↔ ∀ i, i < cfg.args.length → matchOf (argAt cfg i) H ≠ [] := by
  rw [List.all_eq_true]
  constructor
  · intro h i hi
    have hmem : argAt cfg i ∈ cfg.args := by
      rw [argAt_eq_getElem cfg i hi]
      exact List.getElem_mem hi
    have := h _ hmem
    simpa using this
  · intro h sub hsub
    obtain ⟨i, hi, heq⟩ := List.mem_iff_getElem.1 hsub
    have := h i hi
    rw [argAt_eq_getElem cfg i hi, heq] at this
    simpa using this

theorem entriesMatch_slot (cfg : HashJoinDef) (H : Nat) (t : HashTable)
    (hm : entriesMatch cfg t) (i : Nat) (hi : i < cfg.args.length)
    (hne : matchOf (argAt cfg i) H ≠ []) : SlotOK cfg H t i := by
  have hmod : H % HASH_SIZE < HASH_SIZE := Nat.mod_lt _ HASH_SIZE_pos
  have := hm i (H % HASH_SIZE) hi hmod
  rw [if_neg (builtEntriesPre_ne _ _ hne)] at this
  obtain ⟨cl, hcl, hcoll⟩ := Option.map_eq_some'.1 this
  exact ⟨cl, hcl, hcoll⟩

theorem setupGo_true (cfg : HashJoinDef) (H : Nat) :
    ∀ n i t, i + n = cfg.args.length →
    t.tableSize = HASH_SIZE → t.streamCount = cfg.args.length → entriesMatch cfg t →
    (∀ i2, i2 < cfg.args.length → matchOf (argAt cfg i2) H ≠ []) →
    (∀ i2, i2 < i → CurAt cfg H t i2 0) →
    (t.setupGo H (H % HASH_SIZE) i n).1 = true ∧
    (t.setupGo H (H % HASH_SIZE) i n).2.tableSize = HASH_SIZE ∧
    (t.setupGo H (H % HASH_SIZE) i n).2.streamCount = cfg.args.length ∧
    entriesMatch cfg (t.setupGo H (H % HASH_SIZE) i n).2 ∧
    (t.setupGo H (H % HASH_SIZE) i n).2.slot = H % HASH_SIZE ∧
    (∀ i2, i2 < cfg.args.length → CurAt cfg H (t.setupGo H (H % HASH_SIZE) i n).2 i2 0) := by
  intro n
  induction n with
  | zero =>
    intro i t hik ht hsc hm hall hprev
    refine ⟨rfl, ht, hsc, ?_, rfl, ?_⟩
    · intro i2 s hi2 hs
      exact hm i2 s hi2 hs
    · intro i2 hi2
      have := hprev i2 (by omega)
      obtain ⟨cl, hcl, hcoll, hiter⟩ := this
      exact ⟨cl, hcl, hcoll, hiter⟩
  | succ n ih =>
    intro i t hik ht hsc hm hall hprev
    have hi : i < cfg.args.length := by omega
    obtain ⟨cl, hcl, hcoll⟩ := entriesMatch_slot cfg H t hm i hi (hall i hi)
    have hsorted : cl.collisions.Pairwise (fun a b => a.hash ≤ b.hash) := by
      rw [hcoll]
      exact sortEntries_sorted _
    have hne2 : cl.collisions.filter (fun e => e.hash == H) ≠ [] := by
      rw [hcoll]
      exact builtEntries_filter_ne _ _ (hall i hi)
    have hloc := locate_pos cl H hsorted hne2
    have hstep : t.setupGo H (H % HASH_SIZE) i (n + 1)
        = (t.updateSlot (i * HASH_SIZE + H % HASH_SIZE) (cl.locate H).2).setupGo
            H (H % HASH_SIZE) (i + 1) n := by
      simp only [HashTable.setupGo, ht, hcl, hloc, eq_self_iff_true, if_true]
    rw [hstep]
    set t1 := t.updateSlot (i * HASH_SIZE + H % HASH_SIZE) (cl.locate H).2 with ht1
    have ht1size : t1.tableSize = HASH_SIZE := by rw [ht1, updateSlot_tableSize, ht]
    have ht1sc : t1.streamCount = cfg.args.length := by rw [ht1, updateSlot_streamCount, hsc]
    have ht1at : t1.collisions (i * HASH_SIZE + H % HASH_SIZE) = some (cl.locate H).2 := by
      rw [ht1]
      exact updateSlot_self t _ _
    have ht1other : ∀ idx, idx ≠ i * HASH_SIZE + H % HASH_SIZE →
        t1.collisions idx = t.collisions idx := by
      intro idx hidx
      rw [ht1]
      exact updateSlot_other t _ idx _ hidx
    have ht1m : entriesMatch cfg t1 := by
      intro i2 s hi2 hs
      by_cases hcase : i2 * HASH_SIZE + s = i * HASH_SIZE + H % HASH_SIZE
      · obtain ⟨hieq, hseq⟩ := slotIdx_inj HASH_SIZE i2 s i (H % HASH_SIZE) hs
          (Nat.mod_lt _ HASH_SIZE_pos) hcase
        subst hieq
        subst hseq
        rw [ht1at]
        have := hm i2 (H % HASH_SIZE) hi2 (Nat.mod_lt _ HASH_SIZE_pos)
        rw [hcl] at this
        simp only [Option.map_some', locate_collisions] at this ⊢
        exact this
      · rw [ht1other _ hcase]
        exact hm i2 s hi2 hs
    have ht1prev : ∀ i2, i2 < i + 1 → CurAt cfg H t1 i2 0 := by
      intro i2 hi2
      by_cases hcase : i2 = i
      · subst hcase
        refine ⟨(cl.locate H).2, ht1at, ?_, ?_⟩
        · rw [locate_collisions]
          exact hcoll
        · rw [hloc]
          simp only [withIter]
          rw [hcoll]
          rw [show stIdx (argAt cfg i2) (H % HASH_SIZE) H + 0
              = ((builtEntries (argAt cfg i2) (H % HASH_SIZE)).filter
                  (fun e => decide (e.hash < H))).length from by
            rw [stIdx]
            omega]
      · have := hprev i2 (by omega)
        obtain ⟨cl2, hcl2, hcoll2, hiter2⟩ := this
        refine ⟨cl2, ?_, hcoll2, hiter2⟩
        rw [ht1other _ (by
          intro hcontra
          obtain ⟨hieq, _⟩ := slotIdx_inj HASH_SIZE i2 (H % HASH_SIZE) i (H % HASH_SIZE)
            (Nat.mod_lt _ HASH_SIZE_pos) (Nat.mod_lt _ HASH_SIZE_pos) hcontra
          exact hcase hieq)]
        exact hcl2
    exact ih (i + 1) t1 (by omega) ht1size ht1sc ht1m hall ht1prev

theorem matchOf_empty_filter (sub : SubStream) (H : Nat)
    (h : matchOf sub H = []) :
    (builtEntries sub (H % HASH_SIZE)).filter (fun e => e.hash == H) = [] := by
  have := matchOf_eq sub H
  rw [h] at this
  exact List.map_eq_nil_iff.1 this

theorem setupGo_false (cfg : HashJoinDef) (H : Nat) :
    ∀ n i t, i + n = cfg.args.length →
    t.tableSize = HASH_SIZE → t.streamCount = cfg.args.length → entriesMatch cfg t →
    (∃ i2, i ≤ i2 ∧ i2 < cfg.args.length ∧ matchOf (argAt cfg i2) H = []) →
    (t.setupGo H (H % HASH_SIZE) i n).1 = false ∧
    (t.setupGo H (H % HASH_SIZE) i n).2.tableSize = HASH_SIZE ∧
    (t.setupGo H (H % HASH_SIZE) i n).2.streamCount = cfg.args.length ∧
    entriesMatch cfg (t.setupGo H (H % HASH_SIZE) i n).2 := by
  intro n
  induction n with
  | zero =>
    intro i t hik ht hsc hm hfail
    obtain ⟨i2, h1, h2, _⟩ := hfail
    omega
  | succ n ih =>
    intro i t hik ht hsc hm hfail
    have hi : i < cfg.args.length := by omega
    by_cases hmi : matchOf (argAt cfg i) H = []
    · by_cases hpre : builtEntriesPre (argAt cfg i) (H % HASH_SIZE) = []
      · have hnone : t.collisions (i * HASH_SIZE + H % HASH_SIZE) = none := by
          have := hm i (H % HASH_SIZE) hi (Nat.mod_lt _ HASH_SIZE_pos)
          rw [if_pos hpre] at this
          exact Option.map_eq_none'.1 this
        have hstep : t.setupGo H (H % HASH_SIZE) i (n + 1) = (false, t) := by
          simp only [HashTable.setupGo, ht, hnone]
        rw [hstep]
        exact ⟨rfl, ht, hsc, hm⟩
      · obtain ⟨cl, hcl, hcoll⟩ : ∃ cl,
            t.collisions (i * HASH_SIZE + H % HASH_SIZE) = some cl ∧
            cl.collisions = builtEntries (argAt cfg i) (H % HASH_SIZE) := by
          have := hm i (H % HASH_SIZE) hi (Nat.mod_lt _ HASH_SIZE_pos)
          rw [if_neg hpre] at this
          exact Option.map_eq_some'.1 this
        have hloc := locate_neg cl H (by
          rw [hcoll]
          exact matchOf_empty_filter _ _ hmi)
        have hstep : t.setupGo H (H % HASH_SIZE) i (n + 1)
            = (false, t.updateSlot (i * HASH_SIZE + H % HASH_SIZE) (cl.locate H).2) := by
          simp only [HashTable.setupGo, ht, hcl, hloc, Bool.false_eq_true, if_false]
        rw [hstep]
        refine ⟨rfl, by rw [updateSlot_tableSize, ht], by rw [updateSlot_streamCount, hsc], ?_⟩
        intro i2 s hi2 hs
        by_cases hcase : i2 * HASH_SIZE + s = i * HASH_SIZE + H % HASH_SIZE
        · obtain ⟨hieq, hseq⟩ := slotIdx_inj HASH_SIZE i2 s i (H % HASH_SIZE) hs
            (Nat.mod_lt _ HASH_SIZE_pos) hcase
          subst hieq
          subst hseq
          rw [show (t.updateSlot (i2 * HASH_SIZE + H % HASH_SIZE) (cl.locate H).2).collisions
              (i2 * HASH_SIZE + H % HASH_SIZE) = some (cl.locate H).2 from
            updateSlot_self t _ _]
          have h2 := hm i2 (H % HASH_SIZE) hi2 (Nat.mod_lt _ HASH_SIZE_pos)
          rw [hcl] at h2
          simp only [Option.map_some', locate_collisions] at h2 ⊢
          exact h2
        · rw [updateSlot_other t _ _ _ hcase]
          exact hm i2 s hi2 hs
    · obtain ⟨cl, hcl, hcoll⟩ := entriesMatch_slot cfg H t hm i hi hmi
      have hsorted : cl.collisions.Pairwise (fun a b => a.hash ≤ b.hash) := by
        rw [hcoll]
        exact sortEntries_sorted _
      have hne2 : cl.collisions.filter (fun e => e.hash == H) ≠ [] := by
        rw [hcoll]
        exact builtEntries_filter_ne _ _ hmi
      have hloc := locate_pos cl H hsorted hne2
      have hstep : t.setupGo H (H % HASH_SIZE) i (n + 1)
          = (t.updateSlot (i * HASH_SIZE + H % HASH_SIZE) (cl.locate H).2).setupGo
              H (H % HASH_SIZE) (i + 1) n := by
        simp only [HashTable.setupGo, ht, hcl, hloc, eq_self_iff_true, if_true]
      rw [hstep]
      set t1 := t.updateSlot (i * HASH_SIZE + H % HASH_SIZE) (cl.locate H).2 with ht1
      have ht1size : t1.tableSize = HASH_SIZE := by rw [ht1, updateSlot_tableSize, ht]
      have ht1sc : t1.streamCount = cfg.args.length := by
        rw [ht1, updateSlot_streamCount, hsc]
      have ht1m : entriesMatch cfg t1 := by
        intro i2 s hi2 hs
        by_cases hcase : i2 * HASH_SIZE + s = i * HASH_SIZE + H % HASH_SIZE
        · obtain ⟨hieq, hseq⟩ := slotIdx_inj HASH_SIZE i2 s i (H % HASH_SIZE) hs
            (Nat.mod_lt _ HASH_SIZE_pos) hcase
          subst hieq
          subst hseq
          rw [ht1, show (t.updateSlot (i2 * HASH_SIZE + H % HASH_SIZE)
              (cl.locate H).2).collisions (i2 * HASH_SIZE + H % HASH_SIZE)
              = some (cl.locate H).2 from updateSlot_self t _ _]
          have h2 := hm i2 (H % HASH_SIZE) hi2 (Nat.mod_lt _ HASH_SIZE_pos)
          rw [hcl] at h2
          simp only [Option.map_some', locate_collisions] at h2 ⊢
          exact h2
        · rw [ht1, updateSlot_other t _ _ _ hcase]
          exact hm i2 s hi2 hs
      refine ih (i + 1) t1 (by omega) ht1size ht1sc ht1m ?_
      obtain ⟨i2, hle, hlt, hempty⟩ := hfail
      refine ⟨i2, ?_, hlt, hempty⟩
      have : i2 ≠ i := by
        intro hcontra
        subst hcontra
        exact hmi hempty
      omega

theorem setup_unfold (t : HashTable) (H : Nat) (ht : t.tableSize = HASH_SIZE) :
    t.setup H = t.setupGo H (H % HASH_SIZE) 0 t.streamCount := by
  unfold HashTable.setup
  rw [ht]

theorem table_setup_true (cfg : HashJoinDef) (H : Nat) (t : HashTable)
    (hOK : EntriesOK cfg t)
    (hall : ∀ i, i < cfg.args.length → matchOf (argAt cfg i) H ≠ []) :
    (t.setup H).1 = true ∧ EntriesOK cfg (t.setup H).2 ∧
    (t.setup H).2.slot = H % HASH_SIZE ∧
    (∀ i, i < cfg.args.length → CurAt cfg H (t.setup H).2 i 0) := by
  obtain ⟨hsc, ht, hm⟩ := hOK
  rw [setup_unfold t H ht]
  have := setupGo_true cfg H t.streamCount 0 t (by omega) ht hsc hm hall
    (fun i2 h => absurd h (by omega))
  exact ⟨this.1, ⟨this.2.2.1, this.2.1, this.2.2.2.1⟩, this.2.2.2.2.1, this.2.2.2.2.2⟩

theorem table_setup_false (cfg : HashJoinDef) (H : Nat) (t : HashTable)
    (hOK : EntriesOK cfg t)
    (hfail : ∃ i, i < cfg.args.length ∧ matchOf (argAt cfg i) H = []) :
    (t.setup H).1 = false ∧ EntriesOK cfg (t.setup H).2 := by
  obtain ⟨hsc, ht, hm⟩ := hOK
  rw [setup_unfold t H ht]
  obtain ⟨i, hi, hempty⟩ := hfail
  have := setupGo_false cfg H t.streamCount 0 t (by omega) ht hsc hm
    ⟨i, by omega, hi, hempty⟩
  exact ⟨this.1, this.2.2.1, this.2.1, this.2.2.2⟩

/-! ## Advance-phase lemmas -/

theorem matchOf_getD_lt (cfg : HashJoinDef) (H i j : Nat)
    (hj : j < (matchOf (argAt cfg i) H).length) :
    (matchOf (argAt cfg i) H).getD j 0 < (argAt cfg i).rows.length := by
  apply matchOf_mem_lt
  rw [List.getD_eq_getElem?_getD, List.getElem?_eq_getElem hj]
  exact List.getElem_mem hj

theorem tryAdvance_hit (cfg : HashJoinDef) (H : Nat) (t : HashTable) (i j : Nat)
    (v : List (Option Nat))
    (ht : t.tableSize = HASH_SIZE) (hslot : t.slot = H % HASH_SIZE)
    (hcur : CurAt cfg H t i j) (hj : j < (matchOf (argAt cfg i) H).length) :
    (tryAdvance cfg H i t v).1 = true ∧
    (tryAdvance cfg H i t v).2.2 = v.set i (some ((matchOf (argAt cfg i) H).getD j 0)) ∧
    CurAt cfg H (tryAdvance cfg H i t v).2.1 i (j + 1) ∧
    (∀ idx, idx ≠ i * HASH_SIZE + H % HASH_SIZE →
      (tryAdvance cfg H i t v).2.1.collisions idx = t.collisions idx) ∧
    FieldsEq t (tryAdvance cfg H i t v).2.1 := by
  obtain ⟨h1, h2, h3, h4, h5, h6⟩ := table_iterate_hit cfg H t i j ht hslot hcur hj
  have hlt : (matchOf (argAt cfg i) H).getD j 0 < (argAt cfg i).rows.length :=
    matchOf_getD_lt cfg H i j hj
  simp only [tryAdvance, h1, hlt, if_true]
  exact ⟨trivial, trivial, h2, h3, h4, h5, h6⟩

theorem tryAdvance_end (cfg : HashJoinDef) (H : Nat) (t : HashTable) (i : Nat)
    (v : List (Option Nat))
    (ht : t.tableSize = HASH_SIZE) (hslot : t.slot = H % HASH_SIZE)
    (hcur : CurAt cfg H t i ((matchOf (argAt cfg i) H).length)) :
    (tryAdvance cfg H i t v).1 = false ∧
    (tryAdvance cfg H i t v).2.2 = v ∧
    CurEx cfg H (tryAdvance cfg H i t v).2.1 i ∧
    (∀ idx, idx ≠ i * HASH_SIZE + H % HASH_SIZE →
      (tryAdvance cfg H i t v).2.1.collisions idx = t.collisions idx) ∧
    FieldsEq t (tryAdvance cfg H i t v).2.1 := by
  obtain ⟨h1, h2, h3, h4, h5, h6⟩ := table_iterate_end cfg H t i ht hslot hcur
  simp only [tryAdvance, h1]
  exact ⟨trivial, trivial, h2, h3, h4, h5, h6⟩

theorem tryAdvance_ex (cfg : HashJoinDef) (H : Nat) (t : HashTable) (i : Nat)
    (v : List (Option Nat))
    (ht : t.tableSize = HASH_SIZE) (hslot : t.slot = H % HASH_SIZE)
    (hcur : CurEx cfg H t i) :
    (tryAdvance cfg H i t v).1 = false ∧
    (tryAdvance cfg H i t v).2.2 = v ∧
    CurEx cfg H (tryAdvance cfg H i t v).2.1 i ∧
    (∀ idx, idx ≠ i * HASH_SIZE + H % HASH_SIZE →
      (tryAdvance cfg H i t v).2.1.collisions idx = t.collisions idx) ∧
    FieldsEq t (tryAdvance cfg H i t v).2.1 := by
  obtain ⟨h1, h2, h3, h4, h5, h6⟩ := table_iterate_ex cfg H t i ht hslot hcur
  simp only [tryAdvance, h1]
  exact ⟨trivial, trivial, h2, h3, h4, h5, h6⟩

theorem CurEx_SlotOK (cfg : HashJoinDef) (H : Nat) (t : HashTable) (i : Nat)
    (h : CurEx cfg H t i) : SlotOK cfg H t i := by
  obtain ⟨cl, hcl, hcoll, _⟩ := h
  exact ⟨cl, hcl, hcoll⟩

theorem CurAt_of_untouched (cfg : HashJoinDef) (H : Nat) (t t2 : HashTable) (i j : Nat)
    (h : CurAt cfg H t i j)
    (heq : t2.collisions (i * HASH_SIZE + H % HASH_SIZE)
      = t.collisions (i * HASH_SIZE + H % HASH_SIZE)) : CurAt cfg H t2 i j := by
  obtain ⟨cl, hcl, hcoll, hiter⟩ := h
  exact ⟨cl, heq.trans hcl, hcoll, hiter⟩

theorem CurEx_of_untouched (cfg : HashJoinDef) (H : Nat) (t t2 : HashTable) (i : Nat)
    (h : CurEx cfg H t i)
    (heq : t2.collisions (i * HASH_SIZE + H % HASH_SIZE)
      = t.collisions (i * HASH_SIZE + H % HASH_SIZE)) : CurEx cfg H t2 i := by
  obtain ⟨cl, hcl, hcoll, hiter⟩ := h
  exact ⟨cl, heq.trans hcl, hcoll, hiter⟩

theorem idx_ne_of_stream_ne (i i2 : Nat) (H : Nat) (h : i ≠ i2) :
    i * HASH_SIZE + H % HASH_SIZE ≠ i2 * HASH_SIZE + H % HASH_SIZE := by
  intro hcontra
  obtain ⟨hieq, _⟩ := slotIdx_inj HASH_SIZE i (H % HASH_SIZE) i2 (H % HASH_SIZE)
    (Nat.mod_lt _ HASH_SIZE_pos) (Nat.mod_lt _ HASH_SIZE_pos) hcontra
  exact h hieq

/-! ## Odometer-tail structural lemmas -/

theorem digitsR_succ (cfg : HashJoinDef) (H : Nat) (J : Nat → Nat) (s : Nat) :
    digitsR cfg H J (s + 1)
      = (J (s + 1), matchOf (argAt cfg (s + 1)) H) :: digitsR cfg H J s := by
  unfold digitsR
  rw [List.range_succ, List.reverse_append]
  rfl

theorem digitsR_congr (cfg : HashJoinDef) (H : Nat) (J J2 : Nat → Nat) (s : Nat)
    (h : ∀ i, i ≤ s → J i = J2 i) :
    digitsR cfg H J s = digitsR cfg H J2 s := by
  unfold digitsR
  apply List.map_congr_left
  intro i hi
  rw [List.mem_reverse, List.mem_range] at hi
  rw [h i (by omega)]

theorem cursTo_congr (cfg : HashJoinDef) (H : Nat) (J J2 : Nat → Nat) (s : Nat)
    (h : ∀ i, i ≤ s → J i = J2 i) :
    cursTo cfg H J s = cursTo cfg H J2 s := by
  unfold cursTo
  apply List.map_congr_left
  intro i hi
  rw [List.mem_range] at hi
  rw [h i (by omega)]

theorem cursTo_succ (cfg : HashJoinDef) (H : Nat) (J : Nat → Nat) (s : Nat) :
    cursTo cfg H J (s + 1)
      = cursTo cfg H J s ++ [(matchOf (argAt cfg (s + 1)) H).getD (J (s + 1) - 1) 0] := by
  unfold cursTo
  rw [List.range_succ, List.map_append]
  rfl

theorem digitsR_rev_curOf (cfg : HashJoinDef) (H : Nat) (J : Nat → Nat) (s : Nat) :
    (digitsR cfg H J s).reverse.map curOf = cursTo cfg H J s := by
  unfold digitsR cursTo
  rw [← List.map_reverse, List.reverse_reverse, List.map_map]
  rfl

theorem fetchGo_succ (cfg : HashJoinDef) (H fuel s : Nat) (t : HashTable)
    (v : List (Option Nat)) :
    fetchGo cfg H (fuel + 1) s t v
      = if (tryAdvance cfg H s t v).1 then tryAdvance cfg H s t v
        else carryGo cfg H fuel s (tryAdvance cfg H s t v).2.1 (tryAdvance cfg H s t v).2.2 :=
  rfl

theorem carryGo_succ_zero (cfg : HashJoinDef) (H fuel : Nat) (t : HashTable)
    (v : List (Option Nat)) :
    carryGo cfg H (fuel + 1) 0 t v = (false, t, v) := rfl

theorem carryGo_succ_pos (cfg : HashJoinDef) (H fuel s : Nat) (t : HashTable)
    (v : List (Option Nat)) (hs : s ≠ 0) :
    carryGo cfg H (fuel + 1) s t v
      = if (fetchGo cfg H fuel (s - 1) t v).1 then
          (if (tryAdvance cfg H s ((fetchGo cfg H fuel (s - 1) t v).2.1.reset s H)
                (fetchGo cfg H fuel (s - 1) t v).2.2).1 then
            tryAdvance cfg H s ((fetchGo cfg H fuel (s - 1) t v).2.1.reset s H)
              (fetchGo cfg H fuel (s - 1) t v).2.2
          else
            carryGo cfg H fuel s
              (tryAdvance cfg H s ((fetchGo cfg H fuel (s - 1) t v).2.1.reset s H)
                (fetchGo cfg H fuel (s - 1) t v).2.2).2.1
              (tryAdvance cfg H s ((fetchGo cfg H fuel (s - 1) t v).2.1.reset s H)
                (fetchGo cfg H fuel (s - 1) t v).2.2).2.2)
        else (false, (fetchGo cfg H fuel (s - 1) t v).2.1,
          (fetchGo cfg H fuel (s - 1) t v).2.2) := by
  conv_lhs => rw [carryGo]
  rw [if_neg hs]

theorem digitsR_zero (cfg : HashJoinDef) (H : Nat) (J : Nat → Nat) :
    digitsR cfg H J 0 = [(J 0, matchOf (argAt cfg 0) H)] := rfl

theorem cursTo_zero (cfg : HashJoinDef) (H : Nat) (J : Nat → Nat) :
    cursTo cfg H J 0 = [(matchOf (argAt cfg 0) H).getD (J 0 - 1) 0] := rfl

theorem lt_of_getElem?_eq_some {α : Type} {l : List α} {n : Nat} {a : α}
    (h : l[n]? = some a) : n < l.length := by
  by_contra hcontra
  rw [List.getElem?_eq_none (by omega)] at h
  cases h

theorem matchOf_ne_nil_of_pos (sub : SubStream) (H : Nat)
    (h : 0 < (matchOf sub H).length) : matchOf sub H ≠ [] := by
  intro hcontra
  rw [hcontra] at h
  simp at h

theorem fetchGo_spec (cfg : HashJoinDef) (H : Nat) :
    ∀ (s fuel : Nat), 2 * s + 2 ≤ fuel →
    ∀ (t : HashTable) (v : List (Option Nat)) (J : Nat → Nat),
    t.tableSize = HASH_SIZE → t.slot = H % HASH_SIZE →
    CurState cfg H t J s → VState cfg H v J s →
    ((odoTailR (digitsR cfg H J s) = [] →
      (fetchGo cfg H fuel s t v).1 = false ∧
      (fetchGo cfg H fuel s t v).2.2 = v ∧
      (∀ i, i ≤ s → CurEx cfg H (fetchGo cfg H fuel s t v).2.1 i) ∧
      Untouched cfg H s t (fetchGo cfg H fuel s t v).2.1 ∧
      FieldsEq t (fetchGo cfg H fuel s t v).2.1) ∧
    (∀ c cs, odoTailR (digitsR cfg H J s) = c :: cs →
      ∃ J2, (fetchGo cfg H fuel s t v).1 = true ∧
        CurState cfg H (fetchGo cfg H fuel s t v).2.1 J2 s ∧
        cursTo cfg H J2 s = c ∧
        odoTailR (digitsR cfg H J2 s) = cs ∧
        VState cfg H (fetchGo cfg H fuel s t v).2.2 J2 s ∧
        (∀ i2, s < i2 → (fetchGo cfg H fuel s t v).2.2[i2]? = v[i2]?) ∧
        (fetchGo cfg H fuel s t v).2.2.length = v.length ∧
        Untouched cfg H s t (fetchGo cfg H fuel s t v).2.1 ∧
        FieldsEq t (fetchGo cfg H fuel s t v).2.1)) := by
  intro s
  induction s with
  | zero =>
    intro fuel hfuel t v J ht hslot hcur hv
    obtain ⟨f, rfl⟩ : ∃ f, fuel = f + 1 := ⟨fuel - 1, by omega⟩
    obtain ⟨hat, h1le, hmle⟩ := hcur 0 (Nat.le_refl 0)
    have hvlen : 0 < v.length := lt_of_getElem?_eq_some (hv 0 (Nat.le_refl 0))
    have htail : odoTailR (digitsR cfg H J 0)
        = ((matchOf (argAt cfg 0) H).drop (J 0)).map (fun x => [x]) := by
      rw [digitsR_zero]
      simp [odoTailR]
    by_cases hlt : J 0 < (matchOf (argAt cfg 0) H).length
    · obtain ⟨ha1, ha2, ha3, ha4, ha5⟩ :=
        tryAdvance_hit cfg H t 0 (J 0) v ht hslot hat hlt
      have hstep : fetchGo cfg H (f + 1) 0 t v = tryAdvance cfg H 0 t v := by
        rw [fetchGo_succ, if_pos ha1]
      have hdrop : (matchOf (argAt cfg 0) H).drop (J 0)
          = (matchOf (argAt cfg 0) H)[J 0] :: (matchOf (argAt cfg 0) H).drop (J 0 + 1) :=
        List.drop_eq_getElem_cons hlt
      have hgetd : (matchOf (argAt cfg 0) H).getD (J 0) 0 = (matchOf (argAt cfg 0) H)[J 0] := by
        rw [List.getD_eq_getElem?_getD, List.getElem?_eq_getElem hlt]
        rfl
      constructor
      · intro hnil
        rw [htail, hdrop] at hnil
        cases hnil
      · intro c cs hcc
        rw [htail, hdrop, List.map_cons] at hcc
        obtain ⟨hc, hcs⟩ := List.cons.inj hcc
        refine ⟨fun _ => J 0 + 1, ?_, ?_, ?_, ?_, ?_, ?_, ?_, ?_, ?_⟩
        · rw [hstep]
          exact ha1
        · intro i hi
          interval_cases i
          rw [hstep]
          exact ⟨ha3, show 1 ≤ J 0 + 1 by omega,
            show J 0 + 1 ≤ (matchOf (argAt cfg 0) H).length by omega⟩
        · rw [cursTo_zero, ← hc]
          simp only [Nat.add_sub_cancel]
          rw [hgetd]
        · rw [← hcs]
          have : digitsR cfg H (fun _ => J 0 + 1) 0
              = [(J 0 + 1, matchOf (argAt cfg 0) H)] := rfl
          rw [this]
          simp [odoTailR]
        · intro i hi
          interval_cases i
          rw [hstep, ha2]
          simp only [Nat.add_sub_cancel]
          rw [List.getElem?_set_self (by omega), hgetd]
        · intro i2 hi2
          rw [hstep, ha2, List.getElem?_set_ne (by omega)]
        · rw [hstep, ha2, List.length_set]
        · intro idx hidx
          rw [hstep]
          exact ha4 idx (hidx 0 (Nat.le_refl 0))
        · rw [hstep]
          exact ha5
    · have hJ0 : J 0 = (matchOf (argAt cfg 0) H).length := by omega
      have hcurm : CurAt cfg H t 0 ((matchOf (argAt cfg 0) H).length) := by
        rw [← hJ0]
        exact hat
      obtain ⟨ha1, ha2, ha3, ha4, ha5⟩ := tryAdvance_end cfg H t 0 v ht hslot hcurm
      obtain ⟨g, rfl⟩ : ∃ g, f = g + 1 := ⟨f - 1, by omega⟩
      have hstep : fetchGo cfg H (g + 1 + 1) 0 t v
          = (false, (tryAdvance cfg H 0 t v).2.1, (tryAdvance cfg H 0 t v).2.2) := by
        rw [fetchGo_succ, if_neg (by rw [ha1]; exact Bool.false_ne_true),
          carryGo_succ_zero]
      have htailnil : odoTailR (digitsR cfg H J 0) = [] := by
        rw [htail, hJ0]
        rw [List.drop_eq_nil_iff.2 (Nat.le_refl _)]
        rfl
      constructor
      · intro _
        rw [hstep]
        refine ⟨rfl, ha2, ?_, ?_, ha5⟩
        · intro i hi
          interval_cases i
          exact ha3
        · intro idx hidx
          exact ha4 idx (hidx 0 (Nat.le_refl 0))
      · intro c cs hcc
        rw [htailnil] at hcc
        cases hcc
  | succ s ihs =>
    intro fuel hfuel t v J ht hslot hcur hv
    obtain ⟨f, rfl⟩ : ∃ f, fuel = f + 1 := ⟨fuel - 1, by omega⟩
    obtain ⟨hat, h1le, hmle⟩ := hcur (s + 1) (Nat.le_refl (s + 1))
    have hvlen : s + 1 < v.length := lt_of_getElem?_eq_some (hv (s + 1) (Nat.le_refl _))
    have htail : odoTailR (digitsR cfg H J (s + 1))
        = ((matchOf (argAt cfg (s + 1)) H).drop (J (s + 1))).map
            (fun x => cursTo cfg H J s ++ [x])
          ++ (odoTailR (digitsR cfg H J s)).flatMap
              (fun c => (matchOf (argAt cfg (s + 1)) H).map (fun x => c ++ [x])) := by
      rw [digitsR_succ]
      show ((matchOf (argAt cfg (s + 1)) H).drop (J (s + 1))).map
            (fun x => (digitsR cfg H J s).reverse.map curOf ++ [x])
          ++ (odoTailR (digitsR cfg H J s)).flatMap
              (fun c => (matchOf (argAt cfg (s + 1)) H).map (fun x => c ++ [x]))
          = _
      rw [digitsR_rev_curOf]
    by_cases hlt : J (s + 1) < (matchOf (argAt cfg (s + 1)) H).length
    · obtain ⟨ha1, ha2, ha3, ha4, ha5⟩ :=
        tryAdvance_hit cfg H t (s + 1) (J (s + 1)) v ht hslot hat hlt
      have hstep : fetchGo cfg H (f + 1) (s + 1) t v = tryAdvance cfg H (s + 1) t v := by
        rw [fetchGo_succ, if_pos ha1]
      have hdrop : (matchOf (argAt cfg (s + 1)) H).drop (J (s + 1))
          = (matchOf (argAt cfg (s + 1)) H)[J (s + 1)]
            :: (matchOf (argAt cfg (s + 1)) H).drop (J (s + 1) + 1) :=
        List.drop_eq_getElem_cons hlt
      have hgetd : (matchOf (argAt cfg (s + 1)) H).getD (J (s + 1)) 0
          = (matchOf (argAt cfg (s + 1)) H)[J (s + 1)] := by
        rw [List.getD_eq_getElem?_getD, List.getElem?_eq_getElem hlt]
        rfl
      set J2 : Nat → Nat := fun i => if i = s + 1 then J (s + 1) + 1 else J i with hJ2
      have hJ2below : ∀ i, i ≤ s → J i = J2 i := by
        intro i hi
        rw [hJ2]
        simp only
        rw [if_neg (by omega)]
      have hdig2 : digitsR cfg H J2 s = digitsR cfg H J s :=
        (digitsR_congr cfg H J J2 s hJ2below).symm
      have hcurs2 : cursTo cfg H J2 s = cursTo cfg H J s :=
        (cursTo_congr cfg H J J2 s hJ2below).symm
      constructor
      · intro hnil
        rw [htail, hdrop, List.map_cons] at hnil
        cases hnil
      · intro c cs hcc
        rw [htail, hdrop, List.map_cons] at hcc
        obtain ⟨hc, hcs⟩ := List.cons.inj hcc
        refine ⟨J2, ?_, ?_, ?_, ?_, ?_, ?_, ?_, ?_, ?_⟩
        · rw [hstep]
          exact ha1
        · intro i hi
          rw [hstep]
          by_cases hieq : i = s + 1
          · subst hieq
            have hJ2v : J2 (s + 1) = J (s + 1) + 1 := by simp [hJ2]
            refine ⟨?_, by rw [hJ2v]; omega, by rw [hJ2v]; omega⟩
            rw [hJ2v]
            exact ha3
          · have hile : i ≤ s := by omega
            obtain ⟨hia, hi1, him⟩ := hcur i (by omega)
            refine ⟨?_, ?_, ?_⟩
            · rw [show J2 i = J i from (hJ2below i hile).symm]
              exact CurAt_of_untouched cfg H t _ i (J i) hia
                (ha4 _ (idx_ne_of_stream_ne i (s + 1) H hieq))
            · rw [show J2 i = J i from (hJ2below i hile).symm]
              exact hi1
            · rw [show J2 i = J i from (hJ2below i hile).symm]
              exact him
        · rw [cursTo_succ, hcurs2, ← hc]
          have : J2 (s + 1) - 1 = J (s + 1) := by simp [hJ2]
          rw [this, hgetd]
        · rw [digitsR_succ, ← hcs]
          show ((matchOf (argAt cfg (s + 1)) H).drop (J2 (s + 1))).map
                (fun x => (digitsR cfg H J2 s).reverse.map curOf ++ [x])
              ++ (odoTailR (digitsR cfg H J2 s)).flatMap
                  (fun c => (matchOf (argAt cfg (s + 1)) H).map (fun x => c ++ [x]))
              = _
          rw [digitsR_rev_curOf, hdig2, hcurs2]
          have : J2 (s + 1) = J (s + 1) + 1 := by simp [hJ2]
          rw [this]
          rfl
        · intro i hi
          rw [hstep, ha2]
          by_cases hieq : i = s + 1
          · subst hieq
            rw [List.getElem?_set_self (by omega)]
            have : J2 (s + 1) - 1 = J (s + 1) := by simp [hJ2]
            rw [this, hgetd]
          · rw [List.getElem?_set_ne (by omega)]
            rw [show J2 i = J i from (hJ2below i (by omega)).symm]
            exact hv i (by omega)
        · intro i2 hi2
          rw [hstep, ha2, List.getElem?_set_ne (by omega)]
        · rw [hstep, ha2, List.length_set]
        · intro idx hidx
          rw [hstep]
          exact ha4 idx (hidx (s + 1) (Nat.le_refl _))
        · rw [hstep]
          exact ha5
    · have hJm : J (s + 1) = (matchOf (argAt cfg (s + 1)) H).length := by omega
      have hm1 : 0 < (matchOf (argAt cfg (s + 1)) H).length := by omega
      have hcurm : CurAt cfg H t (s + 1) ((matchOf (argAt cfg (s + 1)) H).length) := by
        rw [← hJm]
        exact hat
      obtain ⟨ha1, ha2, ha3, ha4, ha5⟩ := tryAdvance_end cfg H t (s + 1) v ht hslot hcurm
      obtain ⟨g, rfl⟩ : ∃ g, f = g + 1 := ⟨f - 1, by omega⟩
      set t1 := (tryAdvance cfg H (s + 1) t v).2.1 with ht1def
      have hstep : fetchGo cfg H (g + 1 + 1) (s + 1) t v
          = carryGo cfg H (g + 1) (s + 1) t1 (tryAdvance cfg H (s + 1) t v).2.2 := by
        rw [fetchGo_succ, if_neg (by rw [ha1]; exact Bool.false_ne_true)]
      rw [ha2] at hstep
      have ht1 : t1.tableSize = HASH_SIZE := by rw [ht1def, ha5.2.1, ht]
      have hslot1 : t1.slot = H % HASH_SIZE := by rw [ht1def, ha5.2.2, hslot]
      have hcur1 : CurState cfg H t1 J s := by
        intro i hi
        obtain ⟨hia, hi1, him⟩ := hcur i (by omega)
        exact ⟨CurAt_of_untouched cfg H t t1 i (J i) hia
          (ha4 _ (idx_ne_of_stream_ne i (s + 1) H (by omega))), hi1, him⟩
      have hvS : VState cfg H v J s := fun i hi => hv i (by omega)
      have ihres := ihs g (by omega) t1 v J ht1 hslot1 hcur1 hvS
      have hdropnil : (matchOf (argAt cfg (s + 1)) H).drop (J (s + 1)) = [] := by
        rw [List.drop_eq_nil_iff]
        omega
      have htail2 : odoTailR (digitsR cfg H J (s + 1))
          = (odoTailR (digitsR cfg H J s)).flatMap
              (fun c => (matchOf (argAt cfg (s + 1)) H).map (fun x => c ++ [x])) := by
        rw [htail, hdropnil]
        rfl
      cases htails : odoTailR (digitsR cfg H J s) with
      | nil =>
        obtain ⟨hp1, hp2, hp3, hp4, hp5⟩ := ihres.1 htails
        set pr := fetchGo cfg H g s t1 v with hprdef
        have hcstep : carryGo cfg H (g + 1) (s + 1) t1 v = (false, pr.2.1, pr.2.2) := by
          rw [carryGo_succ_pos cfg H g (s + 1) t1 v (Nat.succ_ne_zero s)]
          simp only [Nat.add_sub_cancel]
          rw [if_neg (by rw [← hprdef, hp1]; exact Bool.false_ne_true)]
        rw [hcstep] at hstep
        constructor
        · intro _
          rw [hstep]
          refine ⟨rfl, by rw [hp2], ?_, ?_, ?_⟩
          · intro i hi
            by_cases hieq : i = s + 1
            · subst hieq
              refine CurEx_of_untouched cfg H t1 pr.2.1 (s + 1) ha3 ?_
              exact hp4 _ (fun i2 hi2 => idx_ne_of_stream_ne (s + 1) i2 H (by omega))
            · exact hp3 i (by omega)
          · intro idx hidx
            rw [hp4 idx (fun i2 hi2 => hidx i2 (by omega)),
              ha4 idx (hidx (s + 1) (Nat.le_refl _))]
          · exact ⟨by rw [hp5.1, ha5.1], by rw [hp5.2.1, ha5.2.1], by rw [hp5.2.2, ha5.2.2]⟩
        · intro c cs hcc
          rw [htail2, htails] at hcc
          cases hcc
      | cons c0 cs0 =>
        obtain ⟨J2p, hp1, hp2, hp3, hp4, hp5, hp6, hp7, hp8, hp9⟩ :=
          ihres.2 c0 cs0 htails
        set pr := fetchGo cfg H g s t1 v with hprdef
        have hpr21 : pr.2.1.tableSize = HASH_SIZE := by rw [hp9.2.1, ht1]
        have hpr21slot : pr.2.1.slot = H % HASH_SIZE := by rw [hp9.2.2, hslot1]
        have hexpr : CurEx cfg H pr.2.1 (s + 1) := by
          refine CurEx_of_untouched cfg H t1 pr.2.1 (s + 1) ha3 ?_
          exact hp8 _ (fun i2 hi2 => idx_ne_of_stream_ne (s + 1) i2 H (by omega))
        have hmne : matchOf (argAt cfg (s + 1)) H ≠ [] :=
          matchOf_ne_nil_of_pos _ _ hm1
        obtain ⟨hr1, hr2, hr3, hr4, hr5⟩ := table_reset cfg H pr.2.1 (s + 1)
          hpr21 hpr21slot (CurEx_SlotOK cfg H pr.2.1 (s + 1) hexpr) hmne
        set t2 := pr.2.1.reset (s + 1) H with ht2def
        have ht2 : t2.tableSize = HASH_SIZE := by rw [ht2def, hr4, hpr21]
        have hslot2 : t2.slot = H % HASH_SIZE := by rw [ht2def, hr5, hpr21slot]
        obtain ⟨hb1, hb2, hb3, hb4, hb5⟩ :=
          tryAdvance_hit cfg H t2 (s + 1) 0 pr.2.2 ht2 hslot2 hr1 hm1
        have hcstep : carryGo cfg H (g + 1) (s + 1) t1 v
            = tryAdvance cfg H (s + 1) t2 pr.2.2 := by
          rw [carryGo_succ_pos cfg H g (s + 1) t1 v (Nat.succ_ne_zero s)]
          simp only [Nat.add_sub_cancel]
          rw [if_pos (by rw [← hprdef, hp1]), ← hprdef, ← ht2def, if_pos hb1]
        rw [hcstep] at hstep
        set J2 : Nat → Nat := fun i => if i = s + 1 then 1 else J2p i with hJ2
        have hJ2below : ∀ i, i ≤ s → J2p i = J2 i := by
          intro i hi
          rw [hJ2]
          simp only
          rw [if_neg (by omega)]
        have hdig2 : digitsR cfg H J2 s = digitsR cfg H J2p s :=
          (digitsR_congr cfg H J2p J2 s hJ2below).symm
        have hcurs2 : cursTo cfg H J2 s = cursTo cfg H J2p s :=
          (cursTo_congr cfg H J2p J2 s hJ2below).symm
        have hmdrop : matchOf (argAt cfg (s + 1)) H
            = (matchOf (argAt cfg (s + 1)) H)[0]
              :: (matchOf (argAt cfg (s + 1)) H).drop 1 := by
          conv_lhs => rw [show matchOf (argAt cfg (s + 1)) H
            = (matchOf (argAt cfg (s + 1)) H).drop 0 from rfl]
          exact List.drop_eq_getElem_cons hm1
        have hgetd0 : (matchOf (argAt cfg (s + 1)) H).getD 0 0
            = (matchOf (argAt cfg (s + 1)) H)[0] := by
          rw [List.getD_eq_getElem?_getD, List.getElem?_eq_getElem hm1]
          rfl
        have hvlen2 : s + 1 < pr.2.2.length := by
          rw [hp7]
          exact hvlen
        constructor
        · intro hnil
          rw [htail2, htails, List.flatMap_cons] at hnil
          rw [hmdrop, List.map_cons] at hnil
          cases hnil
        · intro c cs hcc
          rw [htail2, htails, List.flatMap_cons] at hcc
          conv_lhs at hcc => rw [hmdrop, List.map_cons]
          rw [List.cons_append] at hcc
          obtain ⟨hc, hcs⟩ := List.cons.inj hcc
          refine ⟨J2, ?_, ?_, ?_, ?_, ?_, ?_, ?_, ?_, ?_⟩
          · rw [hstep]
            exact hb1
          · intro i hi
            rw [hstep]
            by_cases hieq : i = s + 1
            · subst hieq
              have hJ2v : J2 (s + 1) = 0 + 1 := by simp [hJ2]
              refine ⟨?_, hJ2v.ge, by rw [hJ2v]; omega⟩
              rw [hJ2v]
              exact hb3
            · have hile : i ≤ s := by omega
              obtain ⟨hia, hi1, him⟩ := hp2 i hile
              refine ⟨?_, ?_, ?_⟩
              · rw [show J2 i = J2p i from (hJ2below i hile).symm]
                refine CurAt_of_untouched cfg H pr.2.1 _ i (J2p i) hia ?_
                rw [hb4 _ (idx_ne_of_stream_ne i (s + 1) H hieq),
                  hr2 _ (idx_ne_of_stream_ne i (s + 1) H hieq)]
              · rw [show J2 i = J2p i from (hJ2below i hile).symm]
                exact hi1
              · rw [show J2 i = J2p i from (hJ2below i hile).symm]
                exact him
          · rw [cursTo_succ, hcurs2, hp3, ← hc]
            have : J2 (s + 1) - 1 = 0 := by simp [hJ2]
            rw [this, hgetd0]
          · rw [digitsR_succ, ← hcs]
            show ((matchOf (argAt cfg (s + 1)) H).drop (J2 (s + 1))).map
                  (fun x => (digitsR cfg H J2 s).reverse.map curOf ++ [x])
                ++ (odoTailR (digitsR cfg H J2 s)).flatMap
                    (fun c => (matchOf (argAt cfg (s + 1)) H).map (fun x => c ++ [x]))
                = _
            rw [digitsR_rev_curOf, hdig2, hcurs2, hp3, hp4]
            have : J2 (s + 1) = 1 := by simp [hJ2]
            rw [this, ← hmdrop]
          · intro i hi
            rw [hstep, hb2]
            by_cases hieq : i = s + 1
            · subst hieq
              rw [List.getElem?_set_self hvlen2]
              have : J2 (s + 1) - 1 = 0 := by simp [hJ2]
              rw [this]
            · rw [List.getElem?_set_ne (by omega)]
              rw [show J2 i = J2p i from (hJ2below i (by omega)).symm]
              exact hp5 i (by omega)
          · intro i2 hi2
            rw [hstep, hb2, List.getElem?_set_ne (by omega), hp6 i2 (by omega)]
          · rw [hstep, hb2, List.length_set, hp7]
          · intro idx hidx
            rw [hstep]
            rw [hb4 _ (hidx (s + 1) (Nat.le_refl _)), hr2 _ (hidx (s + 1) (Nat.le_refl _)),
              hp8 _ (fun i2 hi2 => hidx i2 (by omega)),
              ha4 _ (hidx (s + 1) (Nat.le_refl _))]
          · refine ⟨?_, ?_, ?_⟩
            · rw [hstep, hb5.1, hr3, hp9.1, ha5.1]
            · rw [hstep, hb5.2.1, hr4, hp9.2.1, ha5.2.1]
            · rw [hstep, hb5.2.2, hr5, hp9.2.2, ha5.2.2]

/-! ## Driver lemmas: the first-match loop -/

theorem fetchFuel_ge (cfg : HashJoinDef) : 2 * cfg.args.length + 4 ≤ fetchFuel cfg := by
  rw [fetchFuel]
  omega

theorem SlotOK_of_CurAt (cfg : HashJoinDef) (H : Nat) (t : HashTable) (i j : Nat)
    (h : CurAt cfg H t i j) : SlotOK cfg H t i := by
  obtain ⟨cl, hcl, hcoll, _⟩ := h
  exact ⟨cl, hcl, hcoll⟩

theorem EntriesOK_probe (cfg : HashJoinDef) (H s : Nat) (t t2 : HashTable)
    (hOK : EntriesOK cfg t)
    (hf : FieldsEq t t2)
    (hunt : Untouched cfg H s t t2)
    (hslots : ∀ i, i ≤ s → SlotOK cfg H t2 i)
    (hall : ∀ i, i ≤ s → matchOf (argAt cfg i) H ≠ []) :
    EntriesOK cfg t2 := by
  obtain ⟨hsc, ht, hm⟩ := hOK
  refine ⟨hf.1.trans hsc, hf.2.1.trans ht, ?_⟩
  intro i sl hi hsl
  by_cases hcase : i ≤ s ∧ sl = H % HASH_SIZE
  · obtain ⟨his, rfl⟩ := hcase
    obtain ⟨cl, hcl, hcoll⟩ := hslots i his
    rw [hcl, if_neg (builtEntriesPre_ne _ _ (hall i his)), Option.map_some', hcoll]
  · have hne : ∀ i0, i0 ≤ s → i * HASH_SIZE + sl ≠ i0 * HASH_SIZE + H % HASH_SIZE := by
      intro i0 hi0 hcontra
      obtain ⟨hieq, hsleq⟩ := slotIdx_inj HASH_SIZE i sl i0 (H % HASH_SIZE)
        hsl (Nat.mod_lt _ HASH_SIZE_pos) hcontra
      exact hcase ⟨hieq ▸ hi0, hsleq⟩
    rw [hunt _ hne]
    exact hm i sl hi hsl

theorem firstGo_zero (cfg : HashJoinDef) (H i : Nat) (t : HashTable)
    (v : List (Option Nat)) : firstGo cfg H 0 i t v = (true, t, v) := rfl

theorem firstGo_succ (cfg : HashJoinDef) (H n i : Nat) (t : HashTable)
    (v : List (Option Nat)) :
    firstGo cfg H (n + 1) i t v
      = if (fetchRecord cfg H i t v).1 then
          firstGo cfg H n (i + 1) (fetchRecord cfg H i t v).2.1 (fetchRecord cfg H i t v).2.2
        else (false, (fetchRecord cfg H i t v).2.1, (fetchRecord cfg H i t v).2.2) := rfl

theorem fetchRecord_hit (cfg : HashJoinDef) (H i j : Nat) (t : HashTable)
    (v : List (Option Nat))
    (ht : t.tableSize = HASH_SIZE) (hslot : t.slot = H % HASH_SIZE)
    (hcur : CurAt cfg H t i j) (hj : j < (matchOf (argAt cfg i) H).length) :
    fetchRecord cfg H i t v = tryAdvance cfg H i t v := by
  obtain ⟨f, hf⟩ : ∃ f, fetchFuel cfg = f + 1 :=
    ⟨fetchFuel cfg - 1, by have := fetchFuel_ge cfg; omega⟩
  rw [fetchRecord, hf, fetchGo_succ,
    if_pos (tryAdvance_hit cfg H t i j v ht hslot hcur hj).1]

theorem firstGo_spec (cfg : HashJoinDef) (H : Nat) :
    ∀ (n i : Nat) (t : HashTable) (v : List (Option Nat)),
    i + n = cfg.args.length →
    t.tableSize = HASH_SIZE → t.slot = H % HASH_SIZE →
    (∀ j, j < cfg.args.length → matchOf (argAt cfg j) H ≠ []) →
    (∀ j, j < i → CurAt cfg H t j 1) →
    (∀ j, i ≤ j → j < cfg.args.length → CurAt cfg H t j 0) →
    (∀ j, j < i → v[j]? = some (some ((matchOf (argAt cfg j) H).getD 0 0))) →
    v.length = cfg.args.length →
    (firstGo cfg H n i t v).1 = true ∧
    (∀ j, j < cfg.args.length → CurAt cfg H (firstGo cfg H n i t v).2.1 j 1) ∧
    (∀ j, j < cfg.args.length →
      (firstGo cfg H n i t v).2.2[j]? = some (some ((matchOf (argAt cfg j) H).getD 0 0))) ∧
    (firstGo cfg H n i t v).2.2.length = v.length ∧
    (∀ idx, (∀ j, j < cfg.args.length → idx ≠ j * HASH_SIZE + H % HASH_SIZE) →
      (firstGo cfg H n i t v).2.1.collisions idx = t.collisions idx) ∧
    FieldsEq t (firstGo cfg H n i t v).2.1 := by
  intro n
  induction n with
  | zero =>
    intro i t v hik ht hslot hall hbefore hafter hvb hvlen
    rw [firstGo_zero]
    refine ⟨rfl, ?_, ?_, rfl, fun idx _ => rfl, ⟨rfl, rfl, rfl⟩⟩
    · intro j hj
      exact hbefore j (by omega)
    · intro j hj
      exact hvb j (by omega)
  | succ n ih =>
    intro i t v hik ht hslot hall hbefore hafter hvb hvlen
    have hi : i < cfg.args.length := by omega
    have hfirst : CurAt cfg H t i 0 := hafter i (Nat.le_refl i) hi
    have hm : 0 < (matchOf (argAt cfg i) H).length := List.length_pos.2 (hall i hi)
    obtain ⟨ha1, ha2, ha3, ha4, ha5⟩ := tryAdvance_hit cfg H t i 0 v ht hslot hfirst hm
    have hfr : fetchRecord cfg H i t v = tryAdvance cfg H i t v :=
      fetchRecord_hit cfg H i 0 t v ht hslot hfirst hm
    rw [firstGo_succ, hfr, if_pos ha1]
    have hih := ih (i + 1) (tryAdvance cfg H i t v).2.1 (tryAdvance cfg H i t v).2.2
      (by omega) (ha5.2.1.trans ht) (ha5.2.2.trans hslot) hall
      (by
        intro j hj
        by_cases hje : j = i
        · subst hje
          exact ha3
        · exact CurAt_of_untouched cfg H t _ j 1 (hbefore j (by omega))
            (ha4 _ (idx_ne_of_stream_ne j i H hje)))
      (by
        intro j hj1 hj2
        exact CurAt_of_untouched cfg H t _ j 0 (hafter j (by omega) hj2)
          (ha4 _ (idx_ne_of_stream_ne j i H (by omega))))
      (by
        intro j hj
        rw [ha2]
        by_cases hje : j = i
        · subst hje
          rw [List.getElem?_set_self (by omega)]
        · rw [List.getElem?_set_ne (by omega)]
          exact hvb j (by omega))
      (by rw [ha2, List.length_set, hvlen])
    obtain ⟨hh1, hh2, hh3, hh4, hh5, hh6⟩ := hih
    refine ⟨hh1, hh2, hh3, ?_, ?_, ?_⟩
    · rw [hh4, ha2, List.length_set]
    · intro idx hidx
      rw [hh5 idx hidx, ha4 idx (hidx i hi)]
    · exact ⟨hh6.1.trans ha5.1, hh6.2.1.trans ha5.2.1, hh6.2.2.trans ha5.2.2⟩

/-! ## Driver lemmas: the getRecord loop -/

theorem grLoopF_nil (cfg : HashJoinDef) (fuel : Nat) (st : Impure)
    (hmr : st.mustRead = true) (hpend : st.leaderPending = []) :
    grLoopF cfg (fuel + 1) st = (false, st) := by
  simp only [grLoopF, hmr, hpend, if_true]


theorem grLoopF_cons (cfg : HashJoinDef) (fuel : Nat) (st : Impure) (L : Row)
    (rest : List Row) (t : HashTable)
    (hmr : st.mustRead = true) (hpend : st.leaderPending = L :: rest)
    (hht : st.hashTable = some t) :
    grLoopF cfg (fuel + 1) st
      = (if (t.setup (hashBytes (encodedKey cfg.leader L))).1 then
          (if (firstGo cfg (hashBytes (encodedKey cfg.leader L)) cfg.args.length 0
                (t.setup (hashBytes (encodedKey cfg.leader L))).2 st.innerPos).1 then
            (true, rowEmitState cfg st L rest t)
          else grLoopF cfg fuel (rowRetryState cfg st L rest t))
        else grLoopF cfg fuel (rowSetupState cfg st L rest t)) := by
  simp only [grLoopF, hmr, hpend, if_true, hht, Option.isNone_some, Bool.false_and,
    Bool.and_self, Bool.false_eq_true, if_false, rowEmitState, rowRetryState,
    rowSetupState]

theorem grLoopF_probe (cfg : HashJoinDef) (fuel : Nat) (st : Impure) (t : HashTable)
    (hmr : st.mustRead = false) (hf : st.first = false) (hht : st.hashTable = some t) :
    grLoopF cfg (fuel + 1) st
      = (if (fetchRecord cfg st.leaderHash (cfg.args.length - 1) t st.innerPos).1 then
          (true, probeEmitState cfg st t)
        else grLoopF cfg fuel (probeRetryState cfg st t)) := by
  simp only [grLoopF, hmr, hf, hht, Bool.false_eq_true, if_false, probeEmitState,
    probeRetryState]

theorem getRecord_open (cfg : HashJoinDef) (st : Impure) (h : st.flagOpen = true) :
    getRecord cfg st = grLoopF cfg (grMeasure st) st := by
  rw [getRecord, if_pos h]

theorem runGo_succ (cfg : HashJoinDef) (fuel : Nat) (st : Impure) :
    runGo cfg (fuel + 1) st
      = (if (getRecord cfg st).1 then
          ((getRecord cfg st).2.leaderCurrent, (getRecord cfg st).2.innerPos)
            :: runGo cfg fuel (getRecord cfg st).2
        else []) := rfl

theorem runGo_congr (cfg : HashJoinDef) (fuel : Nat) (st st2 : Impure)
    (h : getRecord cfg st = getRecord cfg st2) :
    runGo cfg (fuel + 1) st = runGo cfg (fuel + 1) st2 := by
  rw [runGo_succ, runGo_succ, h]

/-! ## Bridging the right-major product and the odometer tail -/

theorem rightProd_single {α : Type} (c : List α) :
    rightProd [c] = c.map (fun x => [x]) := by
  rw [show rightProd [c] = c.flatMap (fun x => (rightProd []).map (x :: ·)) from rfl]
  rw [show rightProd ([] : List (List α)) = [[]] from rfl]
  induction c with
  | nil => rfl
  | cons x c ih =>
    rw [List.flatMap_cons, List.map_cons, ih]
    rfl

theorem rightProd_append_singleton {α : Type} (M : List (List α)) (c : List α) :
    rightProd (M ++ [c]) = (rightProd M).flatMap (fun p => c.map (fun x => p ++ [x])) := by
  induction M with
  | nil =>
    rw [List.nil_append, rightProd_single,
      show rightProd ([] : List (List α)) = [[]] from rfl]
    simp
  | cons a M ih =>
    rw [List.cons_append]
    rw [show rightProd (a :: (M ++ [c]))
        = a.flatMap (fun x => (rightProd (M ++ [c])).map (x :: ·)) from rfl]
    rw [show rightProd (a :: M)
        = a.flatMap (fun x => (rightProd M).map (x :: ·)) from rfl]
    rw [ih]
    simp only [List.map_flatMap, List.flatMap_assoc, List.flatMap_map, List.map_map]
    apply List.flatMap_congr
    intro x _
    apply List.flatMap_congr
    intro p _
    rfl

theorem bridge_rev :
    ∀ Mr : List (List Nat), Mr ≠ [] → (∀ l, l ∈ Mr → l ≠ []) →
    rightProd Mr.reverse
      = (Mr.reverse.map (fun l => l.getD 0 0)) :: odoTailR (Mr.map (fun l => (1, l))) := by
  intro Mr
  induction Mr with
  | nil => intro h; exact absurd rfl h
  | cons c Mr ih =>
    intro _ hne
    have hc : c ≠ [] := hne c (List.mem_cons_self c Mr)
    obtain ⟨c0, c2, rfl⟩ : ∃ c0 c2, c = c0 :: c2 := by
      cases c with
      | nil => exact absurd rfl hc
      | cons c0 c2 => exact ⟨c0, c2, rfl⟩
    cases Mr with
    | nil =>
      rw [List.reverse_singleton, rightProd_single]
      rw [show odoTailR ([c0 :: c2].map (fun l => (1, l)))
          = ((c0 :: c2).drop 1).map (fun x =>
              (([] : List (Nat × List Nat)).reverse.map curOf) ++ [x])
            ++ (odoTailR []).flatMap (fun p => (c0 :: c2).map (fun x => p ++ [x]))
          from rfl]
      rw [show odoTailR ([] : List (Nat × List Nat)) = [] from rfl]
      simp
    | cons d Mr2 =>
      have ihres := ih (by simp) (fun l hl => hne l (List.mem_cons_of_mem _ hl))
      rw [List.reverse_cons, rightProd_append_singleton, ihres, List.flatMap_cons]
      rw [List.map_cons]
      rw [show odoTailR (((c0 :: c2) :: d :: Mr2).map (fun l => (1, l)))
          = ((c0 :: c2).drop 1).map (fun x =>
              ((((d :: Mr2).map (fun l => (1, l))).reverse).map curOf) ++ [x])
            ++ (odoTailR ((d :: Mr2).map (fun l => (1, l)))).flatMap
                (fun p => (c0 :: c2).map (fun x => p ++ [x]))
          from rfl]
      have hcur : (((d :: Mr2).map (fun l => (1, l))).reverse).map curOf
          = ((d :: Mr2).reverse).map (fun l => l.getD 0 0) := by
        rw [List.reverse_map, List.map_map]
        rfl
      rw [hcur]
      rw [List.map_append]
      rfl

theorem args_map_matchOf (cfg : HashJoinDef) (H : Nat) (hk : cfg.args ≠ []) :
    cfg.args.map (fun sub => matchOf sub H)
      = (List.range (cfg.args.length - 1 + 1)).map
          (fun i => matchOf (argAt cfg i) H) := by
  have hlen : 0 < cfg.args.length := List.length_pos.2 hk
  have hrange : cfg.args.length - 1 + 1 = cfg.args.length := by omega
  apply List.ext_getElem
  · simp [hrange]
  · intro i h1 h2
    have hi : i < cfg.args.length := by simpa using h1
    rw [List.getElem_map, List.getElem_map, List.getElem_range,
      argAt_eq_getElem cfg i hi]

theorem bridge (cfg : HashJoinDef) (H : Nat) (hk : cfg.args ≠ [])
    (hall : ∀ i, i < cfg.args.length → matchOf (argAt cfg i) H ≠ []) :
    rightProd (cfg.args.map (fun sub => matchOf sub H))
      = cursTo cfg H (fun _ => 1) (cfg.args.length - 1)
        :: odoTailR (digitsR cfg H (fun _ => 1) (cfg.args.length - 1)) := by
  have hlen : 0 < cfg.args.length := List.length_pos.2 hk
  set s := cfg.args.length - 1 with hs
  set M := (List.range (s + 1)).map (fun i => matchOf (argAt cfg i) H) with hM
  have hMr : M.reverse.reverse = M := List.reverse_reverse M
  have hMne : M.reverse ≠ [] := by
    intro hcontra
    have : M = [] := by
      rw [← hMr, hcontra]
      rfl
    rw [hM] at this
    have := congrArg List.length this
    simp at this
  have hMall : ∀ l, l ∈ M.reverse → l ≠ [] := by
    intro l hl
    rw [List.mem_reverse, hM, List.mem_map] at hl
    obtain ⟨i, hi, rfl⟩ := hl
    rw [List.mem_range] at hi
    exact hall i (by omega)
  have hb := bridge_rev M.reverse hMne hMall
  rw [hMr] at hb
  rw [args_map_matchOf cfg H hk, ← hM, hb]
  have h1 : M.map (fun l => l.getD 0 0) = cursTo cfg H (fun _ => 1) s := by
    rw [hM, cursTo, List.map_map]
    rfl
  have h2 : M.reverse.map (fun l => (1, l)) = digitsR cfg H (fun _ => 1) s := by
    rw [hM, digitsR, ← List.map_reverse, List.map_map]
    rfl
  rw [← h1, ← h2]

/-! ## The leader-row loop -/

theorem refRows_nil (cfg : HashJoinDef) : refRows cfg [] = [] := rfl

theorem refRows_cons (cfg : HashJoinDef) (L : Row) (R : List Row) :
    refRows cfg (L :: R)
      = (if cfg.args.all (fun sub => !(matchOf sub (computeHash cfg.leader L)).isEmpty) then
          (rightProd (cfg.args.map (fun sub => matchOf sub (computeHash cfg.leader L)))).map
            (fun c => (some L, c.map some))
        else []) ++ refRows cfg R := by
  simp only [refRows, List.flatMap_cons]

theorem grLoopF_must_spec (cfg : HashJoinDef) (hk : cfg.args ≠ []) :
    ∀ (R : List Row) (st : Impure) (fuel : Nat),
    MustState cfg st → st.leaderPending = R → 2 * R.length + 1 ≤ fuel →
    (refRows cfg R = [] ∧ (grLoopF cfg fuel st).1 = false) ∨
    (∃ L R2 cs,
      R2.length < R.length ∧
      refRows cfg R
        = (some L, (cursTo cfg (computeHash cfg.leader L) (fun _ => 1)
            (cfg.args.length - 1)).map some)
          :: (cs.map (fun c => (some L, c.map some)) ++ refRows cfg R2) ∧
      (grLoopF cfg fuel st).1 = true ∧
      ProbeSt cfg (computeHash cfg.leader L) (fun _ => 1) (grLoopF cfg fuel st).2 ∧
      (grLoopF cfg fuel st).2.leaderPending = R2 ∧
      (grLoopF cfg fuel st).2.leaderCurrent = some L ∧
      (grLoopF cfg fuel st).2.innerPos
        = (cursTo cfg (computeHash cfg.leader L) (fun _ => 1)
            (cfg.args.length - 1)).map some ∧
      odoTailR (digitsR cfg (computeHash cfg.leader L) (fun _ => 1)
        (cfg.args.length - 1)) = cs) := by
  have hlen : 0 < cfg.args.length := List.length_pos.2 hk
  intro R
  induction R with
  | nil =>
    intro st fuel hMust hpend hfuel
    obtain ⟨f, rfl⟩ : ∃ f, fuel = f + 1 := ⟨fuel - 1, by omega⟩
    left
    exact ⟨rfl, by rw [grLoopF_nil cfg f st hMust.2.1 hpend]⟩
  | cons L R2 ihR =>
    intro st fuel hMust hpend hfuel
    obtain ⟨hopen, hmr, ⟨t, hht, hOK⟩, ⟨b, hbuf⟩, hvlen⟩ := hMust
    obtain ⟨f, rfl⟩ : ∃ f, fuel = f + 1 := ⟨fuel - 1, by omega⟩
    have hstep := grLoopF_cons cfg f st L R2 t hmr hpend hht
    rw [show hashBytes (encodedKey cfg.leader L) = computeHash cfg.leader L from rfl]
      at hstep
    by_cases hall : cfg.args.all
        (fun sub => !(matchOf sub (computeHash cfg.leader L)).isEmpty) = true
    · have halli : ∀ i, i < cfg.args.length →
          matchOf (argAt cfg i) (computeHash cfg.leader L) ≠ [] :=
        (all_matchOf_iff cfg (computeHash cfg.leader L)).1 hall
      obtain ⟨hs1, hsOK, hsslot, hscur⟩ :=
        table_setup_true cfg (computeHash cfg.leader L) t hOK halli
      have hfg := firstGo_spec cfg (computeHash cfg.leader L) cfg.args.length 0
        (t.setup (computeHash cfg.leader L)).2 st.innerPos (by omega)
        hsOK.2.1 hsslot halli
        (fun j hj => absurd hj (Nat.not_lt_zero j))
        (fun j _ hj2 => hscur j hj2)
        (fun j hj => absurd hj (Nat.not_lt_zero j))
        hvlen
      obtain ⟨hf1, hfcur, hfv, hflen, hfunt, hffld⟩ := hfg
      rw [hstep, if_pos hs1, if_pos hf1]
      right
      refine ⟨L, R2,
        odoTailR (digitsR cfg (computeHash cfg.leader L) (fun _ => 1)
          (cfg.args.length - 1)),
        by simp, ?_, rfl, ?_, rfl, rfl, ?_, rfl⟩
      · rw [refRows_cons, if_pos hall,
          bridge cfg (computeHash cfg.leader L) hk halli, List.map_cons,
          List.cons_append]
      · refine ⟨hopen, rfl, rfl, rfl, ?_, ⟨encodedKey cfg.leader L, rfl⟩, ?_, ?_⟩
        · refine ⟨(firstGo cfg (computeHash cfg.leader L) cfg.args.length 0
            (t.setup (computeHash cfg.leader L)).2 st.innerPos).2.1, rfl, ?_, ?_, ?_⟩
          · refine EntriesOK_probe cfg (computeHash cfg.leader L)
              (cfg.args.length - 1) (t.setup (computeHash cfg.leader L)).2 _ hsOK
              hffld ?_ ?_ ?_
            · intro idx hidx
              exact hfunt idx (fun j hj => hidx j (by omega))
            · intro i hi
              exact SlotOK_of_CurAt cfg (computeHash cfg.leader L) _ i 1
                (hfcur i (by omega))
            · intro i hi
              exact halli i (by omega)
          · exact hffld.2.2.trans hsslot
          · intro i hi
            refine ⟨hfcur i (by omega), Nat.le_refl 1, ?_⟩
            exact List.length_pos.2 (halli i (by omega))
        · intro i hi
          exact hfv i (by omega)
        · rw [show (rowEmitState cfg st L R2 t).innerPos
              = (firstGo cfg (computeHash cfg.leader L) cfg.args.length 0
                (t.setup (computeHash cfg.leader L)).2 st.innerPos).2.2 from rfl]
          rw [hflen, hvlen]
      · apply List.ext_getElem?
        intro i
        by_cases hi : i < cfg.args.length
        · rw [show (rowEmitState cfg st L R2 t).innerPos
              = (firstGo cfg (computeHash cfg.leader L) cfg.args.length 0
                (t.setup (computeHash cfg.leader L)).2 st.innerPos).2.2 from rfl]
          rw [hfv i hi, cursTo]
          rw [List.getElem?_map, List.getElem?_map, List.getElem?_range
            (by omega : i < cfg.args.length - 1 + 1)]
          rfl
        · rw [show (rowEmitState cfg st L R2 t).innerPos
              = (firstGo cfg (computeHash cfg.leader L) cfg.args.length 0
                (t.setup (computeHash cfg.leader L)).2 st.innerPos).2.2 from rfl]
          rw [List.getElem?_eq_none (by rw [hflen, hvlen]; omega),
            List.getElem?_eq_none]
          rw [List.length_map, cursTo, List.length_map, List.length_range]
          omega
    · have hex : ∃ i, i < cfg.args.length ∧
          matchOf (argAt cfg i) (computeHash cfg.leader L) = [] := by
        by_contra hc
        push_neg at hc
        exact hall ((all_matchOf_iff cfg (computeHash cfg.leader L)).2 hc)
      obtain ⟨hs1, hsOK⟩ := table_setup_false cfg (computeHash cfg.leader L) t hOK hex
      rw [hstep, if_neg (by rw [hs1]; exact Bool.false_ne_true)]
      have hMust2 : MustState cfg (rowSetupState cfg st L R2 t) := by
        refine ⟨hopen, hmr, ?_, ⟨encodedKey cfg.leader L, rfl⟩, hvlen⟩
        exact ⟨(t.setup (computeHash cfg.leader L)).2, rfl, hsOK⟩
      have hfuel2 : 2 * R2.length + 1 ≤ f := by
        simp only [List.length_cons] at hfuel
        omega
      have hres := ihR (rowSetupState cfg st L R2 t) f hMust2 rfl hfuel2
      have hrr : refRows cfg (L :: R2) = refRows cfg R2 := by
        rw [refRows_cons, if_neg hall, List.nil_append]
      rcases hres with ⟨hemp, hfalse⟩ | ⟨L3, R3, cs3, hless, hdec, h1, h2, h3, h4, h5, h6⟩
      · left
        exact ⟨hrr.trans hemp, hfalse⟩
      · right
        exact ⟨L3, R3, cs3, by simpa using Nat.lt_succ_of_lt hless,
          hrr.trans hdec, h1, h2, h3, h4, h5, h6⟩

/-! ## One consumer step from a probe state -/

theorem getRecord_probe_cons (cfg : HashJoinDef) (st : Impure)
    (H : Nat) (J : Nat → Nat) (R2 : List Row) (c : List Nat) (cs : List (List Nat))
    (hps : ProbeSt cfg H J st) (hpend : st.leaderPending = R2)
    (htail : odoTailR (digitsR cfg H J (cfg.args.length - 1)) = c :: cs) :
    ∃ J2,
      (getRecord cfg st).1 = true ∧
      ProbeSt cfg H J2 (getRecord cfg st).2 ∧
      (getRecord cfg st).2.leaderPending = R2 ∧
      (getRecord cfg st).2.leaderCurrent = st.leaderCurrent ∧
      (getRecord cfg st).2.innerPos = c.map some ∧
      odoTailR (digitsR cfg H J2 (cfg.args.length - 1)) = cs := by
  obtain ⟨hopen, hmr, hfst, hLH, ⟨t, hht, hOK, hslot, hcur⟩, ⟨b, hbuf⟩, hv, hvl⟩ := hps
  have hfe : fetchRecord cfg st.leaderHash (cfg.args.length - 1) t st.innerPos
      = fetchGo cfg H (fetchFuel cfg) (cfg.args.length - 1) t st.innerPos := by
    rw [hLH]
    rfl
  have hgr : getRecord cfg st = grLoopF cfg (2 * R2.length + 1 + 1) st := by
    rw [getRecord_open cfg st hopen, grMeasure, hpend, hmr]
    rfl
  rw [grLoopF_probe cfg (2 * R2.length + 1) st t hmr hfst hht] at hgr
  have hfs := fetchGo_spec cfg H (cfg.args.length - 1) (fetchFuel cfg)
    (by have := fetchFuel_ge cfg; omega) t st.innerPos J hOK.2.1 hslot hcur hv
  obtain ⟨J2, hx1, hx2, hx3, hx4, hx5, hx6, hx7, hx8, hx9⟩ := hfs.2 c cs htail
  have hx1f : (fetchRecord cfg st.leaderHash (cfg.args.length - 1) t st.innerPos).1
      = true := by
    rw [hfe]
    exact hx1
  rw [if_pos hx1f] at hgr
  have hclen : c.length = cfg.args.length := by
    rw [← hx3, cursTo, List.length_map, List.length_range]
    have : 0 < cfg.args.length := by
      have := lt_of_getElem?_eq_some (hv 0 (Nat.zero_le _))
      omega
    omega
  refine ⟨J2, by rw [hgr], ?_, by rw [hgr]; exact hpend, by rw [hgr]; rfl, ?_, hx4⟩
  · rw [hgr]
    refine ⟨hopen, hmr, hfst, hLH, ?_, ⟨b, hbuf⟩, ?_, ?_⟩
    · refine ⟨(fetchGo cfg H (fetchFuel cfg) (cfg.args.length - 1) t st.innerPos).2.1,
        ?_, ?_, ?_, hx2⟩
      · show some (fetchRecord cfg st.leaderHash (cfg.args.length - 1) t
          st.innerPos).2.1 = _
        rw [hfe]
      · refine EntriesOK_probe cfg H (cfg.args.length - 1) t _ hOK hx9 hx8 ?_ ?_
        · intro i hi
          exact SlotOK_of_CurAt cfg H _ i (J2 i) (hx2 i hi).1
        · intro i hi
          have h1 := (hcur i hi).2.1
          have h2 := (hcur i hi).2.2
          exact List.length_pos.1 (by omega)
      · exact hx9.2.2.trans hslot
    · intro i hi
      show (fetchRecord cfg st.leaderHash (cfg.args.length - 1) t
        st.innerPos).2.2[i]? = _
      rw [hfe]
      exact hx5 i hi
    · show (fetchRecord cfg st.leaderHash (cfg.args.length - 1) t
        st.innerPos).2.2.length = _
      rw [hfe, hx7, hvl]
  · rw [hgr]
    apply List.ext_getElem?
    intro i
    show (fetchRecord cfg st.leaderHash (cfg.args.length - 1) t
      st.innerPos).2.2[i]? = _
    rw [hfe]
    by_cases hi : i < cfg.args.length
    · rw [hx5 i (by omega), List.getElem?_map, ← hx3, cursTo, List.getElem?_map,
        List.getElem?_range (show i < cfg.args.length - 1 + 1 by omega)]
      rfl
    · rw [List.getElem?_eq_none (by rw [hx7, hvl]; omega),
        List.getElem?_eq_none (by rw [List.length_map]; omega)]

theorem getRecord_probe_nil (cfg : HashJoinDef) (st : Impure)
    (H : Nat) (J : Nat → Nat) (R2 : List Row)
    (hps : ProbeSt cfg H J st) (hpend : st.leaderPending = R2)
    (htail : odoTailR (digitsR cfg H J (cfg.args.length - 1)) = []) :
    ∃ st2, getRecord cfg st = getRecord cfg st2 ∧ MustState cfg st2 ∧
      st2.leaderPending = R2 := by
  obtain ⟨hopen, hmr, hfst, hLH, ⟨t, hht, hOK, hslot, hcur⟩, ⟨b, hbuf⟩, hv, hvl⟩ := hps
  have hfe : fetchRecord cfg st.leaderHash (cfg.args.length - 1) t st.innerPos
      = fetchGo cfg H (fetchFuel cfg) (cfg.args.length - 1) t st.innerPos := by
    rw [hLH]
    rfl
  have hgr : getRecord cfg st = grLoopF cfg (2 * R2.length + 1 + 1) st := by
    rw [getRecord_open cfg st hopen, grMeasure, hpend, hmr]
    rfl
  rw [grLoopF_probe cfg (2 * R2.length + 1) st t hmr hfst hht] at hgr
  have hfs := fetchGo_spec cfg H (cfg.args.length - 1) (fetchFuel cfg)
    (by have := fetchFuel_ge cfg; omega) t st.innerPos J hOK.2.1 hslot hcur hv
  obtain ⟨hx1, hx2, hx3, hx4, hx5⟩ := hfs.1 htail
  have hx1f : ¬((fetchRecord cfg st.leaderHash (cfg.args.length - 1) t
      st.innerPos).1 = true) := by
    rw [hfe, hx1]
    exact Bool.false_ne_true
  rw [if_neg hx1f] at hgr
  refine ⟨probeRetryState cfg st t, ?_, ?_, hpend⟩
  · rw [hgr, getRecord_open cfg (probeRetryState cfg st t) hopen]
    have hgm : grMeasure (probeRetryState cfg st t) = 2 * R2.length + 1 := by
      rw [grMeasure,
        show (probeRetryState cfg st t).leaderPending = st.leaderPending from rfl,
        hpend,
        show (probeRetryState cfg st t).mustRead = true from rfl]
      rfl
    rw [hgm]
  · refine ⟨hopen, rfl, ?_, ⟨b, hbuf⟩, ?_⟩
    · refine ⟨(fetchGo cfg H (fetchFuel cfg) (cfg.args.length - 1) t st.innerPos).2.1,
        ?_, ?_⟩
      · show some (fetchRecord cfg st.leaderHash (cfg.args.length - 1) t
          st.innerPos).2.1 = _
        rw [hfe]
      · refine EntriesOK_probe cfg H (cfg.args.length - 1) t _ hOK hx5 hx4 ?_ ?_
        · intro i hi
          exact CurEx_SlotOK cfg H _ i (hx3 i hi)
        · intro i hi
          have h1 := (hcur i hi).2.1
          have h2 := (hcur i hi).2.2
          exact List.length_pos.1 (by omega)
    · show (fetchRecord cfg st.leaderHash (cfg.args.length - 1) t
        st.innerPos).2.2.length = _
      rw [hfe, hx2, hvl]

/-! ## Output-count bounds and the run-level driver lemmas -/

theorem sum_map_const {α : Type} (l : List α) (k : Nat) :
    (l.map (fun _ => k)).sum = l.length * k := by
  induction l with
  | nil => simp
  | cons a l ih => simp [ih, List.length_cons, Nat.succ_mul]; omega

theorem rightProd_length {α : Type} (ls : List (List α)) :
    (rightProd ls).length = (ls.map List.length).prod := by
  induction ls with
  | nil => rfl
  | cons xs rest ih =>
    rw [show rightProd (xs :: rest)
        = xs.flatMap (fun x => (rightProd rest).map (x :: ·)) from rfl]
    rw [List.length_flatMap]
    rw [show (List.length ∘ fun x => (rightProd rest).map (x :: ·))
        = (fun _ : α => (rightProd rest).length) from funext (fun x => by simp)]
    rw [sum_map_const, ih, List.map_cons, List.prod_cons]

theorem matchOf_length_le (sub : SubStream) (H : Nat) :
    (matchOf sub H).length ≤ sub.rows.length := by
  rw [matchOf, List.length_map]
  calc ((sub.rows.enum).filter (fun pr => computeHash sub pr.2 == H)).length
      ≤ (sub.rows.enum).length := List.length_filter_le _ _
    _ = sub.rows.length := List.enum_length

theorem prod_map_le {α : Type} (l : List α) (f g : α → Nat)
    (h : ∀ x, x ∈ l → f x ≤ g x) : (l.map f).prod ≤ (l.map g).prod := by
  induction l with
  | nil => simp
  | cons a l ih =>
    rw [List.map_cons, List.map_cons, List.prod_cons, List.prod_cons]
    exact Nat.mul_le_mul (h a (List.mem_cons_self a l))
      (ih (fun x hx => h x (List.mem_cons_of_mem a hx)))

theorem prodBound_eq (cfg : HashJoinDef) :
    prodBound cfg = (cfg.args.map (fun sub => sub.rows.length)).prod := by
  rw [prodBound]
  have hgen : ∀ (l : List SubStream) (a : Nat),
      l.foldl (fun a sub => a * sub.rows.length) a
        = a * (l.map (fun sub => sub.rows.length)).prod := by
    intro l
    induction l with
    | nil => intro a; simp
    | cons s l ih =>
      intro a
      rw [List.foldl_cons, ih, List.map_cons, List.prod_cons, Nat.mul_assoc]
  rw [hgen]
  omega

theorem refRows_length_le (cfg : HashJoinDef) :
    ∀ R : List Row, (refRows cfg R).length ≤ R.length * prodBound cfg := by
  intro R
  induction R with
  | nil => simp [refRows_nil]
  | cons L R2 ih =>
    rw [refRows_cons, List.length_append]
    have hrow : (if cfg.args.all
          (fun sub => !(matchOf sub (computeHash cfg.leader L)).isEmpty) then
        (rightProd (cfg.args.map
          (fun sub => matchOf sub (computeHash cfg.leader L)))).map
          (fun c => (some L, c.map some))
      else []).length ≤ prodBound cfg := by
      by_cases hall : cfg.args.all
          (fun sub => !(matchOf sub (computeHash cfg.leader L)).isEmpty) = true
      · rw [if_pos hall, List.length_map, rightProd_length, List.map_map,
          prodBound_eq]
        exact prod_map_le cfg.args _ _
          (fun sub _ => matchOf_length_le sub (computeHash cfg.leader L))
      · rw [if_neg hall]
        simp [prodBound]
    have : (L :: R2).length * prodBound cfg = prodBound cfg + R2.length * prodBound cfg := by
      rw [List.length_cons, Nat.succ_mul]
      omega
    omega

theorem runGo_probe_loop (cfg : HashJoinDef) :
    ∀ (cs : List (List Nat)) (st : Impure) (H : Nat) (J : Nat → Nat) (R2 : List Row)
      (L : Option Row),
    ProbeSt cfg H J st → st.leaderPending = R2 → st.leaderCurrent = L →
    odoTailR (digitsR cfg H J (cfg.args.length - 1)) = cs →
    (∀ st2, MustState cfg st2 → st2.leaderPending = R2 →
      ∀ m2, runGo cfg ((refRows cfg R2).length + 1 + m2) st2 = refRows cfg R2) →
    ∀ m, runGo cfg (cs.length + (refRows cfg R2).length + 1 + m) st
      = cs.map (fun c => (L, c.map some)) ++ refRows cfg R2 := by
  intro cs
  induction cs with
  | nil =>
    intro st H J R2 L hps hpend hlc htail cont m
    obtain ⟨st2, heq, hm2, hp2⟩ := getRecord_probe_nil cfg st H J R2 hps hpend htail
    rw [List.map_nil, List.nil_append]
    calc runGo cfg (([] : List (List Nat)).length + (refRows cfg R2).length + 1 + m) st
        = runGo cfg (((refRows cfg R2).length + m) + 1) st := by
          rw [List.length_nil]
          congr 1
          omega
      _ = runGo cfg (((refRows cfg R2).length + m) + 1) st2 :=
          runGo_congr cfg _ st st2 heq
      _ = runGo cfg ((refRows cfg R2).length + 1 + m) st2 := by
          congr 1
          omega
      _ = refRows cfg R2 := cont st2 hm2 hp2 m
  | cons c cs2 ih =>
    intro st H J R2 L hps hpend hlc htail cont m
    obtain ⟨J2, hg1, hg2, hg3, hg4, hg5, hg6⟩ :=
      getRecord_probe_cons cfg st H J R2 c cs2 hps hpend htail
    rw [show (c :: cs2).length + (refRows cfg R2).length + 1 + m
        = (cs2.length + (refRows cfg R2).length + 1 + m) + 1 from by
      rw [List.length_cons]
      omega]
    rw [runGo_succ, if_pos hg1, hg4, hlc, hg5, List.map_cons, List.cons_append]
    congr 1
    exact ih (getRecord cfg st).2 H J2 R2 L hg2 hg3 (hg4.trans hlc) hg6 cont m

theorem runGo_must (cfg : HashJoinDef) (hk : cfg.args ≠ []) :
    ∀ (n : Nat) (R : List Row) (st : Impure),
    R.length ≤ n → MustState cfg st → st.leaderPending = R →
    ∀ m, runGo cfg ((refRows cfg R).length + 1 + m) st = refRows cfg R := by
  intro n
  induction n with
  | zero =>
    intro R st hn hMust hpend m
    have hR : R = [] := List.eq_nil_of_length_eq_zero (by omega)
    subst hR
    have hgr : getRecord cfg st = grLoopF cfg (2 * ([] : List Row).length + 1) st := by
      rw [getRecord_open cfg st hMust.1, grMeasure, hpend, hMust.2.1]
      rfl
    rcases grLoopF_must_spec cfg hk [] st (2 * ([] : List Row).length + 1) hMust hpend
        (Nat.le_refl _) with ⟨hemp, hfalse⟩ | ⟨L, R2, cs, hless, _⟩
    · rw [hemp, show (([] : List (Option Row × List (Option Nat))).length + 1 + m)
          = m + 1 from by simp only [List.length_nil]; omega]
      rw [runGo_succ, if_neg (by rw [hgr, hfalse]; exact Bool.false_ne_true)]
    · simp at hless
  | succ n ihn =>
    intro R st hn hMust hpend m
    have hgr : getRecord cfg st = grLoopF cfg (2 * R.length + 1) st := by
      rw [getRecord_open cfg st hMust.1, grMeasure, hpend, hMust.2.1]
      rfl
    rcases grLoopF_must_spec cfg hk R st (2 * R.length + 1) hMust hpend (Nat.le_refl _)
      with ⟨hemp, hfalse⟩ | ⟨L, R2, cs, hless, hdec, h1, hps, hpend2, hlc2, hip2, hcs⟩
    · rw [hemp, show (([] : List (Option Row × List (Option Nat))).length + 1 + m)
          = m + 1 from by simp only [List.length_nil]; omega]
      rw [runGo_succ, if_neg (by rw [hgr, hfalse]; exact Bool.false_ne_true)]
    · rw [hdec]
      rw [show ((some L, (cursTo cfg (computeHash cfg.leader L) (fun _ => 1)
            (cfg.args.length - 1)).map some)
          :: (cs.map (fun c => (some L, c.map some)) ++ refRows cfg R2)).length + 1 + m
        = (cs.length + (refRows cfg R2).length + 1 + m) + 1 from by
          simp only [List.length_cons, List.length_append, List.length_map]
          omega]
      rw [runGo_succ, if_pos (by rw [hgr]; exact h1)]
      rw [hgr, hlc2, hip2]
      congr 1
      exact runGo_probe_loop cfg cs (grLoopF cfg (2 * R.length + 1) st).2
        (computeHash cfg.leader L) (fun _ => 1) R2 (some L) hps hpend2 hlc2 hcs
        (fun st2 hm2 hp2 m2 => ihn R2 st2 (by omega) hm2 hp2 m2) m

theorem grLoopF_build (cfg : HashJoinDef) (fuel : Nat) (st : Impure) (L : Row)
    (rest : List Row)
    (hmr : st.mustRead = true) (hpend : st.leaderPending = L :: rest)
    (hht : st.hashTable = none) (hbuf : st.leaderBuffer = none) :
    grLoopF cfg (fuel + 1) st = grLoopF cfg (fuel + 1) (buildState cfg st) := by
  simp only [grLoopF, buildState, hmr, hpend, hht, hbuf, Option.isNone_none,
    Option.isNone_some, Bool.and_self, Bool.false_and, if_true, Bool.false_eq_true,
    if_false]

theorem refOutputs_eq_refRows (cfg : HashJoinDef) :
    refOutputs cfg = refRows cfg cfg.leader.rows := rfl

theorem runJoin_eq_refOutputs (cfg : HashJoinDef) (hk : cfg.args ≠ []) :
    runJoin cfg = refOutputs cfg := by
  rw [runJoin]
  cases hrows : cfg.leader.rows with
  | nil =>
    have hro : refOutputs cfg = [] := by
      rw [refOutputs_eq_refRows, hrows]
      rfl
    rw [hro]
    have h1 : getRecord cfg (openState cfg) = (false, openState cfg) := by
      rw [getRecord_open cfg _ rfl]
      have hgm : grMeasure (openState cfg) = 0 + 1 := by
        rw [grMeasure, show (openState cfg).leaderPending = cfg.leader.rows from rfl,
          hrows, show (openState cfg).mustRead = true from rfl]
        rfl
      rw [hgm]
      exact grLoopF_nil cfg 0 _ rfl (show cfg.leader.rows = [] from hrows)
    have h2 : runFuel cfg = 1 + 1 := by
      rw [runFuel, hrows]
      simp
    rw [h2, runGo_succ, h1]
    rfl
  | cons L rest =>
    have hlb := refRows_length_le cfg cfg.leader.rows
    have hmul : cfg.leader.rows.length * (prodBound cfg + 1)
        = cfg.leader.rows.length * prodBound cfg + cfg.leader.rows.length := by
      rw [Nat.mul_add]
      omega
    have hlen0 : 0 < cfg.leader.rows.length := by
      rw [hrows]
      simp
    have hMustB : MustState cfg (buildState cfg (openState cfg)) := by
      refine ⟨rfl, rfl, ⟨builtTable cfg, rfl, EntriesOK_builtTable cfg⟩,
        ⟨List.replicate cfg.leader.keyLengths.sum 0, rfl⟩, ?_⟩
      show (List.replicate cfg.args.length (none : Option Nat)).length = _
      exact List.length_replicate _ _
    have hgeq : getRecord cfg (openState cfg)
        = getRecord cfg (buildState cfg (openState cfg)) := by
      rw [getRecord_open cfg _ rfl, getRecord_open cfg _ rfl]
      have hgm : grMeasure (buildState cfg (openState cfg))
          = grMeasure (openState cfg) := rfl
      rw [hgm]
      have hgm2 : grMeasure (openState cfg) = 2 * cfg.leader.rows.length + 1 := by
        rw [grMeasure, show (openState cfg).leaderPending = cfg.leader.rows from rfl,
          show (openState cfg).mustRead = true from rfl]
        rfl
      rw [hgm2]
      exact grLoopF_build cfg (2 * cfg.leader.rows.length) (openState cfg) L rest
        rfl (show cfg.leader.rows = L :: rest from hrows) rfl rfl
    set m2 := runFuel cfg - (refRows cfg cfg.leader.rows).length - 2 with hm2
    have hfuel : runFuel cfg
        = ((refRows cfg cfg.leader.rows).length + (1 + m2)) + 1 := by
      rw [runFuel, hm2, runFuel]
      omega
    rw [hfuel, runGo_congr cfg _ (openState cfg) _ hgeq]
    rw [show ((refRows cfg cfg.leader.rows).length + (1 + m2)) + 1
        = (refRows cfg cfg.leader.rows).length + 1 + (m2 + 1) from by omega]
    rw [refOutputs_eq_refRows]
    exact runGo_must cfg hk cfg.leader.rows.length cfg.leader.rows
      (buildState cfg (openState cfg)) (Nat.le_refl _) hMustB rfl (m2 + 1)

/-! ## Multiplicity of combinations in the right-major product -/

theorem count_flatMap {α : Type} (l : List α) (f : α → List (List Nat))
    (b : List Nat) :
    List.count b (l.flatMap f) = (l.map (fun x => List.count b (f x))).sum := by
  induction l with
  | nil => rfl
  | cons a l ih =>
    rw [List.flatMap_cons, List.count_append, ih, List.map_cons, List.sum_cons]

theorem count_map_cons_eq (P : List (List Nat)) (x : Nat) (c : List Nat) :
    List.count (x :: c) (P.map (x :: ·)) = List.count c P := by
  induction P with
  | nil => rfl
  | cons p P ih =>
    rw [List.map_cons]
    by_cases h : p = c
    · subst h
      rw [List.count_cons_self, List.count_cons_self, ih]
    · rw [List.count_cons_of_ne (fun hc => h ((List.cons.inj hc).2).symm),
        List.count_cons_of_ne (fun hc => h hc.symm), ih]

theorem count_cons_map (P : List (List Nat)) (x y : Nat) (c : List Nat) :
    List.count (y :: c) (P.map (x :: ·)) = if x = y then List.count c P else 0 := by
  by_cases h : x = y
  · subst h
    rw [if_pos rfl]
    exact count_map_cons_eq P x c
  · rw [if_neg h, List.count_eq_zero]
    intro hmem
    rw [List.mem_map] at hmem
    obtain ⟨p, _, heq⟩ := hmem
    exact h (List.cons.inj heq).1

theorem sum_map_ite (xs : List Nat) (y : Nat) (K : Nat) :
    (xs.map (fun x => if x = y then K else 0)).sum = (List.count y xs) * K := by
  induction xs with
  | nil => simp
  | cons a xs ih =>
    rw [List.map_cons, List.sum_cons, ih]
    by_cases h : a = y
    · subst h
      rw [if_pos rfl, List.count_cons_self, Nat.succ_mul]
      omega
    · rw [if_neg h, List.count_cons_of_ne (fun hc => h hc.symm)]
      omega

theorem rightProd_count :
    ∀ (ls : List (List Nat)) (c : List Nat), c.length = ls.length →
    List.count c (rightProd ls)
      = ((ls.zip c).map (fun p => List.count p.2 p.1)).prod := by
  intro ls
  induction ls with
  | nil =>
    intro c hc
    have : c = [] := List.eq_nil_of_length_eq_zero hc
    subst this
    rfl
  | cons xs rest ih =>
    intro c hc
    cases c with
    | nil => simp at hc
    | cons y c2 =>
      rw [show rightProd (xs :: rest)
          = xs.flatMap (fun x => (rightProd rest).map (x :: ·)) from rfl]
      rw [count_flatMap]
      rw [show (fun x => List.count (y :: c2) ((rightProd rest).map (x :: ·)))
          = (fun x => if x = y then List.count c2 (rightProd rest) else 0) from
        funext (fun x => count_cons_map (rightProd rest) x y c2)]
      rw [sum_map_ite, ih c2 (by simpa using hc), List.zip_cons_cons,
        List.map_cons, List.prod_cons]

theorem mem_matchOf_iff (sub : SubStream) (H p : Nat) :
    p ∈ matchOf sub H
      ↔ p < sub.rows.length ∧ computeHash sub (sub.rows.getD p []) = H := by
  rw [matchOf, List.mem_map]
  constructor
  · rintro ⟨⟨i, a⟩, hmem, rfl⟩
    rw [List.mem_filter] at hmem
    obtain ⟨hin, hbeq⟩ := hmem
    rw [List.mk_mem_enum_iff_getElem?] at hin
    have hlt := lt_of_getElem?_eq_some hin
    refine ⟨hlt, ?_⟩
    have hget : sub.rows.getD i [] = a := by
      rw [List.getD_eq_getElem?_getD, hin]
      rfl
    rw [hget]
    simpa using hbeq
  · rintro ⟨hlt, hhash⟩
    rw [List.getD_eq_getElem?_getD, List.getElem?_eq_getElem hlt,
      Option.getD_some] at hhash
    refine ⟨(p, sub.rows[p]), ?_, rfl⟩
    rw [List.mem_filter]
    constructor
    · rw [List.mk_mem_enum_iff_getElem?, List.getElem?_eq_getElem hlt]
    · simpa using hhash

theorem matchOf_nodup (sub : SubStream) (H : Nat) : (matchOf sub H).Nodup := by
  rw [matchOf]
  have h1 : (((sub.rows.enum).filter
        (fun pr => computeHash sub pr.2 == H)).map Prod.fst).Sublist
      (sub.rows.enum.map Prod.fst) :=
    List.Sublist.map _ (List.filter_sublist _)
  have h2 : (sub.rows.enum.map Prod.fst).Nodup := by
    rw [List.enum_map_fst]
    exact List.nodup_range _
  exact List.Nodup.sublist h1 h2

/-! ## Child-stream open discipline -/

theorem grLoopF_first_none (cfg : HashJoinDef) (fuel : Nat) (st : Impure)
    (hmr : st.mustRead = false) (hfst : st.first = true) (hht : st.hashTable = none) :
    grLoopF cfg (fuel + 1) st = (false, st) := by
  simp only [grLoopF, hmr, hfst, hht, Bool.false_eq_true, if_false, if_true]

theorem grLoopF_probe_none (cfg : HashJoinDef) (fuel : Nat) (st : Impure)
    (hmr : st.mustRead = false) (hfst : st.first = false) (hht : st.hashTable = none) :
    grLoopF cfg (fuel + 1) st = (false, st) := by
  simp only [grLoopF, hmr, hfst, hht, Bool.false_eq_true, if_false]

theorem grLoopF_first_some (cfg : HashJoinDef) (fuel : Nat) (st : Impure)
    (t : HashTable)
    (hmr : st.mustRead = false) (hfst : st.first = true) (hht : st.hashTable = some t) :
    grLoopF cfg (fuel + 1) st
      = (if (firstGo cfg st.leaderHash cfg.args.length 0 t st.innerPos).1 then
          (true, firstEmitState cfg st t)
        else grLoopF cfg fuel (firstRetryState cfg st t)) := by
  simp only [grLoopF, hmr, hfst, hht, Bool.false_eq_true, if_false, if_true,
    firstEmitState, firstRetryState]

theorem replicate_map_succ (n : Nat) :
    (List.replicate n 0).map (· + 1) = List.replicate n 1 := by
  rw [List.map_replicate]

theorem grLoopF_inv (cfg : HashJoinDef) :
    ∀ (fuel : Nat) (st : Impure), InvOpen cfg st →
    InvOpen cfg (grLoopF cfg fuel st).2 := by
  intro fuel
  induction fuel with
  | zero => intro st h; exact h
  | succ fuel ih =>
    intro st h
    by_cases hmr : st.mustRead = true
    · cases hpend : st.leaderPending with
      | nil =>
        rw [grLoopF_nil cfg fuel st hmr hpend]
        exact h
      | cons L rest =>
        rcases h with ⟨hop, hht, hbuf⟩ | ⟨hop, t, hht⟩
        · rw [grLoopF_build cfg fuel st L rest hmr hpend hht hbuf]
          have hmr2 : (buildState cfg st).mustRead = true := hmr
          have hpend2 : (buildState cfg st).leaderPending = L :: rest := hpend
          have hht2 : (buildState cfg st).hashTable = some (builtTable cfg) := rfl
          rw [grLoopF_cons cfg fuel (buildState cfg st) L rest (builtTable cfg)
            hmr2 hpend2 hht2]
          have hop2 : (buildState cfg st).innerOpens
              = List.replicate cfg.args.length 1 := by
            show st.innerOpens.map (· + 1) = _
            rw [hop, replicate_map_succ]
          by_cases hs : ((builtTable cfg).setup
              (hashBytes (encodedKey cfg.leader L))).1 = true
          · rw [if_pos hs]
            by_cases hf : (firstGo cfg (hashBytes (encodedKey cfg.leader L))
                cfg.args.length 0
                ((builtTable cfg).setup (hashBytes (encodedKey cfg.leader L))).2
                (buildState cfg st).innerPos).1 = true
            · rw [if_pos hf]
              right
              exact ⟨hop2, _, rfl⟩
            · rw [if_neg hf]
              refine ih _ (Or.inr ⟨hop2, _, rfl⟩)
          · rw [if_neg hs]
            refine ih _ (Or.inr ⟨hop2, _, rfl⟩)
        · rw [grLoopF_cons cfg fuel st L rest t hmr hpend hht]
          by_cases hs : (t.setup (hashBytes (encodedKey cfg.leader L))).1 = true
          · rw [if_pos hs]
            by_cases hf : (firstGo cfg (hashBytes (encodedKey cfg.leader L))
                cfg.args.length 0
                (t.setup (hashBytes (encodedKey cfg.leader L))).2 st.innerPos).1 = true
            · rw [if_pos hf]
              right
              exact ⟨hop, _, rfl⟩
            · rw [if_neg hf]
              refine ih _ (Or.inr ⟨hop, _, rfl⟩)
          · rw [if_neg hs]
            refine ih _ (Or.inr ⟨hop, _, rfl⟩)
    · have hmr2 : st.mustRead = false := by
        cases hx : st.mustRead
        · rfl
        · exact absurd hx hmr
      by_cases hfst : st.first = true
      · cases hht : st.hashTable with
        | none =>
          rw [grLoopF_first_none cfg fuel st hmr2 hfst hht]
          exact h
        | some t =>
          have hR : st.innerOpens = List.replicate cfg.args.length 1 := by
            rcases h with ⟨_, hnone, _⟩ | ⟨hop, _, _⟩
            · rw [hht] at hnone
              cases hnone
            · exact hop
          rw [grLoopF_first_some cfg fuel st t hmr2 hfst hht]
          by_cases hf : (firstGo cfg st.leaderHash cfg.args.length 0 t st.innerPos).1
              = true
          · rw [if_pos hf]
            right
            exact ⟨hR, _, rfl⟩
          · rw [if_neg hf]
            refine ih _ (Or.inr ⟨hR, _, rfl⟩)
      · have hfst2 : st.first = false := by
          cases hx : st.first
          · rfl
          · exact absurd hx hfst
        cases hht : st.hashTable with
        | none =>
          rw [grLoopF_probe_none cfg fuel st hmr2 hfst2 hht]
          exact h
        | some t =>
          have hR : st.innerOpens = List.replicate cfg.args.length 1 := by
            rcases h with ⟨_, hnone, _⟩ | ⟨hop, _, _⟩
            · rw [hht] at hnone
              cases hnone
            · exact hop
          rw [grLoopF_probe cfg fuel st t hmr2 hfst2 hht]
          by_cases hf : (fetchRecord cfg st.leaderHash (cfg.args.length - 1) t
              st.innerPos).1 = true
          · rw [if_pos hf]
            right
            exact ⟨hR, _, rfl⟩
          · rw [if_neg hf]
            refine ih _ (Or.inr ⟨hR, _, rfl⟩)

theorem stateAfter_inv (cfg : HashJoinDef) (n : Nat) :
    InvOpen cfg (stateAfter cfg n) := by
  induction n with
  | zero =>
    left
    exact ⟨rfl, rfl, rfl⟩
  | succ n ih =>
    show InvOpen cfg (getRecord cfg (stateAfter cfg n)).2
    rw [getRecord]
    by_cases h : (stateAfter cfg n).flagOpen = true
    · rw [if_pos h]
      exact grLoopF_inv cfg _ _ ih
    · rw [if_neg h]
      exact ih

theorem getRecord_empty_leader (cfg : HashJoinDef) (h : cfg.leader.rows = []) :
    getRecord cfg (openState cfg) = (false, openState cfg) := by
  rw [getRecord_open cfg _ rfl]
  have hgm : grMeasure (openState cfg) = 0 + 1 := by
    rw [grMeasure, show (openState cfg).leaderPending = cfg.leader.rows from rfl, h,
      show (openState cfg).mustRead = true from rfl]
    rfl
  rw [hgm]
  exact grLoopF_nil cfg 0 _ rfl (show cfg.leader.rows = [] from h)

theorem stateAfter_empty_leader (cfg : HashJoinDef) (h : cfg.leader.rows = []) :
    ∀ n, stateAfter cfg n = openState cfg := by
  intro n
  induction n with
  | zero => rfl
  | succ n ih =>
    show (getRecord cfg (stateAfter cfg n)).2 = openState cfg
    rw [ih, getRecord_empty_leader cfg h]

/-! ## Shape preservation of the probe operations -/

theorem shape_updateSlot (t : HashTable) (idx : Nat) (cl cl2 : CollisionList)
    (hcl : t.collisions idx = some cl) (hsh : cl2.collisions = cl.collisions) :
    ShapeEq t (t.updateSlot idx cl2) := by
  intro idx2
  by_cases h : idx2 = idx
  · subst h
    rw [updateSlot_self, hcl, Option.map_some', Option.map_some', hsh]
  · rw [updateSlot_other t idx idx2 cl2 h]

theorem shape_refl (t : HashTable) : ShapeEq t t := fun _ => rfl

theorem shape_trans (t t2 t3 : HashTable) (h1 : ShapeEq t t2) (h2 : ShapeEq t2 t3) :
    ShapeEq t t3 := fun idx => (h2 idx).trans (h1 idx)

theorem shape_iterate (t : HashTable) (i H : Nat) : ShapeEq t (t.iterate i H).2 := by
  rw [HashTable.iterate]
  cases hcl : t.collisions (i * t.tableSize + t.slot) with
  | none => exact shape_refl t
  | some cl =>
    exact shape_updateSlot t _ cl _ hcl (iterate_collisions cl H)

theorem shape_reset (t : HashTable) (i H : Nat) : ShapeEq t (t.reset i H) := by
  rw [HashTable.reset]
  cases hcl : t.collisions (i * t.tableSize + t.slot) with
  | none => exact shape_refl t
  | some cl =>
    exact shape_updateSlot t _ cl _ hcl (locate_collisions cl H)

theorem shape_setupGo (t0 : HashTable) (H s : Nat) :
    ∀ (n i : Nat) (t : HashTable), ShapeEq t0 t →
    ShapeEq t0 (t.setupGo H s i n).2 := by
  intro n
  induction n with
  | zero =>
    intro i t hsh idx
    rw [show (t.setupGo H s i 0).2 = { t with slot := s } from rfl]
    exact hsh idx
  | succ n ih =>
    intro i t hsh
    rw [HashTable.setupGo]
    cases hcl : t.collisions (i * t.tableSize + s) with
    | none => exact hsh
    | some cl =>
      simp only
      have hupd : ShapeEq t0 (t.updateSlot (i * t.tableSize + s) (cl.locate H).2) :=
        shape_trans t0 t _ hsh
          (shape_updateSlot t _ cl _ hcl (locate_collisions cl H))
      by_cases hr : (cl.locate H).1 = true
      · rw [if_pos hr]
        exact ih (i + 1) _ hupd
      · rw [if_neg hr]
        exact hupd

theorem shape_setup (t : HashTable) (H : Nat) : ShapeEq t (t.setup H).2 := by
  rw [HashTable.setup]
  exact shape_setupGo t H (H % t.tableSize) t.streamCount 0 t (shape_refl t)

/-! ## Decomposition of reference outputs -/

theorem slot_entry_iff (cfg : HashJoinDef) (H : Nat) (t : HashTable)
    (hOK : EntriesOK cfg t) (i : Nat) (hi : i < cfg.args.length) :
    (∃ cl, t.collisions (i * HASH_SIZE + H % HASH_SIZE) = some cl ∧
      ∃ e, e ∈ cl.collisions ∧ e.hash = H)
    ↔ matchOf (argAt cfg i) H ≠ [] := by
  constructor
  · rintro ⟨cl, hcl, e, hmem, hhash⟩
    obtain ⟨hsc, ht, hm⟩ := hOK
    have hslot := hm i (H % HASH_SIZE) hi (Nat.mod_lt _ HASH_SIZE_pos)
    rw [hcl, Option.map_some'] at hslot
    by_cases hpre : builtEntriesPre (argAt cfg i) (H % HASH_SIZE) = []
    · rw [if_pos hpre] at hslot
      cases hslot
    · rw [if_neg hpre] at hslot
      have hcoll : cl.collisions = builtEntries (argAt cfg i) (H % HASH_SIZE) :=
        Option.some.inj hslot
      intro hemp
      have hfilter := matchOf_empty_filter (argAt cfg i) H hemp
      have hin : e ∈ (builtEntries (argAt cfg i) (H % HASH_SIZE)).filter
          (fun e => e.hash == H) := by
        rw [List.mem_filter]
        exact ⟨hcoll ▸ hmem, by simp [hhash]⟩
      rw [hfilter] at hin
      cases hin
  · intro hne
    obtain ⟨cl, hcl, hcoll⟩ := entriesMatch_slot cfg H t hOK.2.2 i hi hne
    refine ⟨cl, hcl, ?_⟩
    have hfne := builtEntries_filter_ne (argAt cfg i) H hne
    obtain ⟨e, hmem⟩ := List.exists_mem_of_ne_nil _ hfne
    rw [List.mem_filter] at hmem
    exact ⟨e, hcoll ▸ hmem.1, by simpa using hmem.2⟩

theorem length_of_mem_rightProd {α : Type} :
    ∀ (ls : List (List α)) (c : List α), c ∈ rightProd ls → c.length = ls.length := by
  intro ls
  induction ls with
  | nil =>
    intro c hc
    rw [show rightProd ([] : List (List α)) = [[]] from rfl] at hc
    rw [List.mem_singleton] at hc
    subst hc
    rfl
  | cons xs rest ih =>
    intro c hc
    rw [show rightProd (xs :: rest)
        = xs.flatMap (fun x => (rightProd rest).map (x :: ·)) from rfl] at hc
    rw [List.mem_flatMap] at hc
    obtain ⟨x, _, hmem⟩ := hc
    rw [List.mem_map] at hmem
    obtain ⟨c2, hc2, rfl⟩ := hmem
    rw [List.length_cons, ih c2 hc2, List.length_cons]

theorem coord_of_mem_rightProd (cfg : HashJoinDef) (H : Nat) (w : List Nat)
    (hc : w ∈ rightProd (cfg.args.map (fun sub => matchOf sub H)))
    (i : Nat) (hi : i < cfg.args.length) :
    w.getD i 0 ∈ matchOf (argAt cfg i) H := by
  have hclen : w.length = cfg.args.length := by
    rw [length_of_mem_rightProd _ w hc, List.length_map]
  have hpos : 0 < List.count w (rightProd (cfg.args.map (fun sub => matchOf sub H))) :=
    List.count_pos_iff.2 hc
  rw [rightProd_count _ w (by rw [hclen, List.length_map])] at hpos
  by_contra hnot
  have hzero : List.count (w.getD i 0) (matchOf (argAt cfg i) H) = 0 :=
    List.count_eq_zero.2 hnot
  have hziplen : i < ((cfg.args.map (fun sub => matchOf sub H)).zip w).length := by
    rw [List.length_zip, List.length_map, hclen]
    omega
  have hb1 : i < (cfg.args.map (fun sub => matchOf sub H)).length := by
    rw [List.length_map]
    omega
  have hb2 : i < w.length := by omega
  have hmemmap : (0 : Nat) ∈ (((cfg.args.map (fun sub => matchOf sub H)).zip w).map
      (fun p => List.count p.2 p.1)) := by
    rw [List.mem_map]
    refine ⟨((cfg.args.map (fun sub => matchOf sub H)).zip w)[i], List.getElem_mem _, ?_⟩
    simp only [List.getElem_zip, List.getElem_map]
    rw [← argAt_eq_getElem cfg i hi]
    have hwi : w[i] = w.getD i 0 := by
      rw [List.getD_eq_getElem?_getD, List.getElem?_eq_getElem hb2]
      rfl
    rw [hwi]
    exact hzero
  have := List.prod_eq_zero hmemmap
  omega

theorem mem_refOutputs_decomp (cfg : HashJoinDef)
    (out : Option Row × List (Option Nat)) (hout : out ∈ refOutputs cfg) :
    ∃ L, L ∈ cfg.leader.rows ∧ ∃ ps : List Nat,
      out = (some L, ps.map some) ∧ ps.length = cfg.args.length ∧
      (cfg.args.all (fun sub =>
        !(matchOf sub (computeHash cfg.leader L)).isEmpty) = true) ∧
      ∀ i, i < cfg.args.length →
        ps.getD i 0 ∈ matchOf (argAt cfg i) (computeHash cfg.leader L) := by
  rw [refOutputs] at hout
  rw [List.mem_flatMap] at hout
  obtain ⟨L, hL, hmem⟩ := hout
  simp only at hmem
  by_cases hall : cfg.args.all
      (fun sub => !(matchOf sub (computeHash cfg.leader L)).isEmpty) = true
  · rw [if_pos hall] at hmem
    rw [List.mem_map] at hmem
    obtain ⟨c, hc, rfl⟩ := hmem
    refine ⟨L, hL, c, rfl, ?_, hall, ?_⟩
    · rw [length_of_mem_rightProd _ c hc, List.length_map]
    · intro i hi
      exact coord_of_mem_rightProd cfg (computeHash cfg.leader L) c hc i hi
  · rw [if_neg hall] at hmem
    cases hmem

/-! ## Shared encoding facts -/

theorem encNull_eq (sub : SubStream) (n : Nat) (h : sub.keyLengths = [n]) :
    encodedKey sub [KeyVal.nullVal] = List.replicate n 0 ∧
    encodedKey sub [KeyVal.raw (List.replicate n 0)] = List.replicate n 0 := by
  constructor
  · rw [encodedKey, h]
    rw [show encodeKeys [n] [KeyVal.nullVal]
        = ([(n, KeyVal.nullVal)]).foldl encStep
            { buf := List.replicate (List.sum [n]) 0, off := 0 } from rfl]
    rw [List.foldl_cons, List.foldl_nil]
    rw [show encStep { buf := List.replicate (List.sum [n]) 0, off := 0 }
          (n, KeyVal.nullVal)
        = { buf := writeBytes (List.replicate (List.sum [n]) 0) 0
              (keyImage n KeyVal.nullVal), off := 0 + n } from rfl]
    simp [writeBytes, keyImage]
  · rw [encodedKey, h]
    rw [show encodeKeys [n] [KeyVal.raw (List.replicate n 0)]
        = ([(n, KeyVal.raw (List.replicate n 0))]).foldl encStep
            { buf := List.replicate (List.sum [n]) 0, off := 0 } from rfl]
    rw [List.foldl_cons, List.foldl_nil]
    rw [show encStep { buf := List.replicate (List.sum [n]) 0, off := 0 }
          (n, KeyVal.raw (List.replicate n 0))
        = { buf := writeBytes (List.replicate (List.sum [n]) 0) 0
              (keyImage n (KeyVal.raw (List.replicate n 0))), off := 0 + n }
          from rfl]
    simp [writeBytes, keyImage]

/-! ## The specification claims -/

/-- Claim C1: for every leader row and every choice of inner rows (one per
stream) whose encoded key buffers equal the leader's bytewise, the join emits
that combination exactly once, and the whole output stream is the per-leader-
row right-major odometer enumeration (last stream varies fastest, stream-order
within equal hashes). -/
theorem hashJoin_emits_each_byte_equal_combination_once (cfg : HashJoinDef)
    (hk : cfg.args ≠ []) (l0 : Nat) (hl0 : l0 < cfg.leader.rows.length)
    (ps : List Nat) (hlen : ps.length = cfg.args.length)
    (hmem : ∀ i, i < cfg.args.length →
      ps.getD i 0 < (argAt cfg i).rows.length ∧
      encodedKey (argAt cfg i) ((argAt cfg i).rows.getD (ps.getD i 0) [])
        = encodedKey cfg.leader (cfg.leader.rows.getD l0 [])) :
    runJoin cfg = refOutputs cfg ∧
    List.count ps (rightProd (cfg.args.map (fun sub =>
        matchOf sub (computeHash cfg.leader (cfg.leader.rows.getD l0 []))))) = 1 := by
  refine ⟨runJoin_eq_refOutputs cfg hk, ?_⟩
  rw [rightProd_count _ ps (by rw [hlen, List.length_map])]
  have hfac : ∀ i, i < cfg.args.length →
      List.count (ps.getD i 0)
        (matchOf (argAt cfg i) (computeHash cfg.leader (cfg.leader.rows.getD l0 [])))
      = 1 := by
    intro i hhi
    apply List.count_eq_one_of_mem (matchOf_nodup _ _)
    rw [mem_matchOf_iff]
    obtain ⟨h1, h2⟩ := hmem i hhi
    refine ⟨h1, ?_⟩
    show hashBytes (encodedKey (argAt cfg i) _) = _
    rw [h2]
    rfl
  apply List.prod_eq_one
  intro x hx
  rw [List.mem_iff_getElem] at hx
  obtain ⟨i, hb, hxi⟩ := hx
  have hi : i < cfg.args.length := by
    rw [List.length_map, List.length_zip, List.length_map, hlen] at hb
    omega
  have hb2 : i < ps.length := by omega
  rw [← hxi]
  simp only [List.getElem_map, List.getElem_zip]
  rw [← argAt_eq_getElem cfg i hi]
  rw [show ps[i] = ps.getD i 0 from by
    rw [List.getD_eq_getElem?_getD, List.getElem?_eq_getElem hb2]
    rfl]
  exact hfac i hi

theorem hashJoin_emits_each_byte_equal_combination_once_witness :
    (cfgC3.args ≠ []) ∧ (1 < cfgC3.leader.rows.length) ∧
    (([1] : List Nat).length = cfgC3.args.length) ∧
    (∀ i, i < cfgC3.args.length →
      ([1] : List Nat).getD i 0 < (argAt cfgC3 i).rows.length ∧
      encodedKey (argAt cfgC3 i)
          ((argAt cfgC3 i).rows.getD (([1] : List Nat).getD i 0) [])
        = encodedKey cfgC3.leader (cfgC3.leader.rows.getD 1 [])) ∧
    (runJoin cfgC3 = refOutputs cfgC3 ∧
      List.count [1] (rightProd (cfgC3.args.map (fun sub =>
        matchOf sub (computeHash cfgC3.leader (cfgC3.leader.rows.getD 1 []))))) = 1) :=
  ⟨by decide, by decide, by decide, by decide,
    hashJoin_emits_each_byte_equal_combination_once cfgC3 (by decide) 1 (by decide)
      [1] (by decide) (by decide)⟩

/-- Claim C2, counterexample: matching is by hash of the encoded keys, not by
the bytes themselves.  The two-byte keys `[0, 33]` and `[1, 0]` differ
bytewise but hash equally, and the operator joins them. -/
theorem hashJoin_joins_unequal_keys_on_hash_collision :
    runJoin cfgC2 = [(some [KeyVal.raw [0, 33]], [some 0])] ∧
    encodedKey (argAt cfgC2 0) [KeyVal.raw [1, 0]]
      ≠ encodedKey cfgC2.leader [KeyVal.raw [0, 33]] ∧
    computeHash (argAt cfgC2 0) [KeyVal.raw [1, 0]]
      = computeHash cfgC2.leader [KeyVal.raw [0, 33]] := by
  refine ⟨?_, by decide, by decide⟩
  rw [runJoin_eq_refOutputs cfgC2 (by decide)]
  decide

/-- Claim C2, amended: every emitted output row pairs the leader row with one
row per inner stream whose encoded key HASH equals the leader key's hash
(bytewise equality of the encoded keys is not guaranteed, only hash
equality). -/
theorem hashJoin_emission_sound_up_to_hash (cfg : HashJoinDef) (hk : cfg.args ≠ [])
    (out : Option Row × List (Option Nat)) (hout : out ∈ runJoin cfg) :
    ∃ L, L ∈ cfg.leader.rows ∧ ∃ ps : List Nat,
      out = (some L, ps.map some) ∧ ps.length = cfg.args.length ∧
      ∀ i, i < cfg.args.length →
        ps.getD i 0 < (argAt cfg i).rows.length ∧
        computeHash (argAt cfg i) ((argAt cfg i).rows.getD (ps.getD i 0) [])
          = computeHash cfg.leader L := by
  rw [runJoin_eq_refOutputs cfg hk] at hout
  obtain ⟨L, hL, ps, hps, hplen, _, hcoord⟩ := mem_refOutputs_decomp cfg out hout
  refine ⟨L, hL, ps, hps, hplen, ?_⟩
  intro i hi
  exact (mem_matchOf_iff _ _ _).1 (hcoord i hi)

theorem hashJoin_emission_sound_up_to_hash_witness :
    (cfgC2.args ≠ []) ∧
    ((some [KeyVal.raw [0, 33]], ([some 0] : List (Option Nat))) ∈ runJoin cfgC2) ∧
    (∃ L, L ∈ cfgC2.leader.rows ∧ ∃ ps : List Nat,
      (some [KeyVal.raw [0, 33]], ([some 0] : List (Option Nat)))
        = (some L, ps.map some) ∧
      ps.length = cfgC2.args.length ∧
      ∀ i, i < cfgC2.args.length →
        ps.getD i 0 < (argAt cfgC2 i).rows.length ∧
        computeHash (argAt cfgC2 i) ((argAt cfgC2 i).rows.getD (ps.getD i 0) [])
          = computeHash cfgC2.leader L) := by
  have hout : (some [KeyVal.raw [0, 33]], ([some 0] : List (Option Nat)))
      ∈ runJoin cfgC2 := by
    rw [runJoin_eq_refOutputs cfgC2 (by decide)]
    decide
  exact ⟨by decide, hout,
    hashJoin_emission_sound_up_to_hash cfgC2 (by decide) _ hout⟩

/-- Claim C3, counterexample: a NULL key does not exclude a row.  In scenario
S4 (leader `[NULL, 1]`, inner `[NULL, 1]`, one `i32` key) the output has two
rows, and the first pairs the NULL leader row with the NULL inner row. -/
theorem hashJoin_null_key_matches_null_key :
    runJoin cfgC3
      = [(some [KeyVal.nullVal], [some 0]), (some [i32 1], [some 1])] ∧
    (runJoin cfgC3).length ≠ 1 := by
  have h1 : runJoin cfgC3
      = [(some [KeyVal.nullVal], [some 0]), (some [i32 1], [some 1])] := by
    rw [runJoin_eq_refOutputs cfgC3 (by decide)]
    decide
  exact ⟨h1, by rw [h1]; decide⟩

/-- Claim C3, amended: a NULL key is encoded as `keyLength` zero bytes (the
buffer is zeroed and nothing is written), so a row with a NULL key
participates normally and matches rows whose key encodes to all-zero bytes —
including other NULL keys. -/
theorem null_key_encodes_as_zero_bytes (sub : SubStream) (n : Nat)
    (h : sub.keyLengths = [n]) :
    encodedKey sub [KeyVal.nullVal] = List.replicate n 0 ∧
    computeHash sub [KeyVal.nullVal]
      = computeHash sub [KeyVal.raw (List.replicate n 0)] := by
  obtain ⟨h1, h2⟩ := encNull_eq sub n h
  refine ⟨h1, ?_⟩
  show hashBytes (encodedKey sub [KeyVal.nullVal])
    = hashBytes (encodedKey sub [KeyVal.raw (List.replicate n 0)])
  rw [h1, h2]

theorem null_key_encodes_as_zero_bytes_witness :
    (cfgC3.leader.keyLengths = [4]) ∧
    (encodedKey cfgC3.leader [KeyVal.nullVal] = List.replicate 4 0 ∧
      computeHash cfgC3.leader [KeyVal.nullVal]
        = computeHash cfgC3.leader [KeyVal.raw (List.replicate 4 0)]) :=
  ⟨rfl, null_key_encodes_as_zero_bytes cfgC3.leader 4 rfl⟩

/-- Claim C4: on a table with the built shape, `setup h` returns true if and
only if every inner stream's probed slot exists and contains an entry whose
stored hash equals `h` exactly; and a leader row for which some stream has no
exact-hash match contributes no output row. -/
theorem setup_true_iff_every_stream_slot_has_exact_hash (cfg : HashJoinDef)
    (H : Nat) (t : HashTable) (hOK : EntriesOK cfg t) (hk : cfg.args ≠ []) :
    ((t.setup H).1 = true ↔
      ∀ i, i < cfg.args.length →
        ∃ cl, t.collisions (i * HASH_SIZE + H % HASH_SIZE) = some cl ∧
          ∃ e, e ∈ cl.collisions ∧ e.hash = H) ∧
    (∀ L, (∃ i, i < cfg.args.length ∧
        matchOf (argAt cfg i) (computeHash cfg.leader L) = []) →
      ∀ out, out ∈ runJoin cfg → out.1 ≠ some L) := by
  constructor
  · constructor
    · intro hs i hi
      rw [slot_entry_iff cfg H t hOK i hi]
      intro hemp
      obtain ⟨hfalse, _⟩ := table_setup_false cfg H t hOK ⟨i, hi, hemp⟩
      rw [hs] at hfalse
      cases hfalse
    · intro hall
      have hne : ∀ i, i < cfg.args.length → matchOf (argAt cfg i) H ≠ [] := by
        intro i hi
        rw [← slot_entry_iff cfg H t hOK i hi]
        exact hall i hi
      exact (table_setup_true cfg H t hOK hne).1
  · intro L hfail out hout houtL
    rw [runJoin_eq_refOutputs cfg hk] at hout
    obtain ⟨L2, _, ps, hps, _, hall2, _⟩ := mem_refOutputs_decomp cfg out hout
    have hLL : L2 = L := by
      rw [hps] at houtL
      exact Option.some.inj houtL
    subst hLL
    obtain ⟨i, hi, hemp⟩ := hfail
    have := (all_matchOf_iff cfg (computeHash cfg.leader L2)).1 hall2 i hi
    exact this hemp

theorem setup_true_iff_every_stream_slot_has_exact_hash_witness :
    (EntriesOK cfgC3 (builtTable cfgC3)) ∧ (cfgC3.args ≠ []) ∧
    ((((builtTable cfgC3).setup 7).1 = true ↔
      ∀ i, i < cfgC3.args.length →
        ∃ cl, (builtTable cfgC3).collisions (i * HASH_SIZE + 7 % HASH_SIZE) = some cl ∧
          ∃ e, e ∈ cl.collisions ∧ e.hash = 7) ∧
    (∀ L, (∃ i, i < cfgC3.args.length ∧
        matchOf (argAt cfgC3 i) (computeHash cfgC3.leader L) = []) →
      ∀ out, out ∈ runJoin cfgC3 → out.1 ≠ some L)) :=
  ⟨EntriesOK_builtTable cfgC3, by decide,
    setup_true_iff_every_stream_slot_has_exact_hash cfgC3 7 (builtTable cfgC3)
      (EntriesOK_builtTable cfgC3) (by decide)⟩

/-- Claim C5: a float or double key whose byte image compares equal to zero
(positive or negative zero) is encoded as an all-zero image of the key's
width, so `+0.0` and `-0.0` keys hash equally and join with each other. -/
theorem zero_float_keys_encode_all_zero_and_join (b4 b8 : List Nat) (len4 len8 : Nat)
    (h4 : f32IsZero b4 = true) (h8 : f64IsZero b8 = true) :
    keyImage len4 (KeyVal.real32 b4) = List.replicate len4 0 ∧
    keyImage len8 (KeyVal.real64 b8) = List.replicate len8 0 ∧
    runJoin cfgC5 = [(some [KeyVal.real32 (List.replicate 4 0)], [some 0])] := by
  refine ⟨?_, ?_, ?_⟩
  · rw [keyImage, if_pos h4]
  · rw [keyImage, if_pos h8]
  · rw [runJoin_eq_refOutputs cfgC5 (by decide)]
    decide

theorem zero_float_keys_encode_all_zero_and_join_witness :
    (f32IsZero [0, 0, 0, 128] = true) ∧ (f64IsZero (List.replicate 7 0 ++ [128]) = true) ∧
    (keyImage 4 (KeyVal.real32 [0, 0, 0, 128]) = List.replicate 4 0 ∧
      keyImage 8 (KeyVal.real64 (List.replicate 7 0 ++ [128])) = List.replicate 8 0 ∧
      runJoin cfgC5 = [(some [KeyVal.real32 (List.replicate 4 0)], [some 0])]) :=
  ⟨by decide, by decide,
    zero_float_keys_encode_all_zero_and_join [0, 0, 0, 128]
      (List.replicate 7 0 ++ [128]) 4 8 (by decide) (by decide)⟩

/-- Claim C6: within one open/close cycle each inner stream is opened at most
once, and only after the leader produced its first row; with an empty leader
the inner streams are never opened and the hash index is never allocated. -/
theorem inner_streams_opened_at_most_once_and_lazily (cfg : HashJoinDef) :
    (∀ n k, k ∈ (stateAfter cfg n).innerOpens → k ≤ 1) ∧
    (cfg.leader.rows = [] → ∀ n,
      (stateAfter cfg n).innerOpens = List.replicate cfg.args.length 0 ∧
      (stateAfter cfg n).hashTable = none) := by
  constructor
  · intro n k hk
    rcases stateAfter_inv cfg n with ⟨hop, _, _⟩ | ⟨hop, _⟩
    · rw [hop] at hk
      have := List.eq_of_mem_replicate hk
      omega
    · rw [hop] at hk
      have := List.eq_of_mem_replicate hk
      omega
  · intro h n
    rw [stateAfter_empty_leader cfg h n]
    exact ⟨rfl, rfl⟩

theorem inner_streams_opened_at_most_once_and_lazily_witness :
    (cfgC6e.leader.rows = []) ∧
    ((stateAfter cfgC6e 2).innerOpens = List.replicate cfgC6e.args.length 0 ∧
      (stateAfter cfgC6e 2).hashTable = none) :=
  ⟨rfl, (inner_streams_opened_at_most_once_and_lazily cfgC6e).2 rfl 2⟩

/-- Claim C7: `close` is idempotent — a second close without an intervening
open leaves the state unchanged — and after close every `getRecord` call
returns false (and changes nothing) until the next open. -/
theorem close_idempotent_and_getRecord_false_after_close (cfg : HashJoinDef)
    (st : Impure) :
    closeState (closeState st) = closeState st ∧
    getRecord cfg (closeState st) = (false, closeState st) := by
  have hflag : (closeState st).flagOpen = false := by
    rw [closeState]
    by_cases h : st.flagOpen = true
    · rw [if_pos h]
    · rw [if_neg h]
      cases hx : st.flagOpen
      · rfl
      · exact absurd hx h
  have hclosed : ∀ s2 : Impure, s2.flagOpen = false → closeState s2 = s2 := by
    intro s2 h2
    rw [closeState, h2]
    simp
  refine ⟨hclosed _ hflag, ?_⟩
  rw [getRecord, if_neg (by rw [hflag]; exact Bool.false_ne_true)]

/-- Claim C8: after the build-phase sort every allocated collision list is
sorted by hash ascending, and the probe operations (`setup`, `reset`,
`iterate`) never change any slot's entry list, so sortedness persists through
the whole probe phase. -/
theorem built_index_sorted_and_probe_ops_preserve_lists (cfg : HashJoinDef)
    (t : HashTable) (H i : Nat) :
    SortedSlots (builtTable cfg) ∧
    ShapeEq t (t.setup H).2 ∧ ShapeEq t (t.reset i H) ∧
    ShapeEq t (t.iterate i H).2 := by
  refine ⟨?_, shape_setup t H, shape_reset t i H, shape_iterate t i H⟩
  intro idx cl hcl
  rw [show (builtTable cfg).collisions idx
      = (((cfg.args.enum).foldl (fun t pr => buildStream t pr.1 pr.2)
          (initTable cfg)).collisions idx).map CollisionList.sortList from rfl] at hcl
  obtain ⟨cl0, _, rfl⟩ := Option.map_eq_some'.1 hcl
  show (sortEntries cl0.collisions).Pairwise _
  exact sortEntries_sorted _

/-- Claim C9: the key encoder advances its write offset by exactly
`keyLengths[i]` for every key, NULL keys included, so the final offset equals
the total key length; the buffer never grows beyond `totalKeyLength` bytes. -/
theorem computeHash_offset_advances_to_total_length (ks : List Nat) (row : Row)
    (h : row.length = ks.length) :
    (encodeKeys ks row).off = ks.sum ∧
    (encodeKeys ks row).buf.length = ks.sum ∧
    (∀ (st : KeyEncoding) (kv : Nat × KeyVal), (encStep st kv).off = st.off + kv.1) := by
  have hz : (List.map Prod.fst (ks.zip row)).sum = ks.sum := by
    rw [List.map_fst_zip ks row (by omega)]
  have hspec := encodeKeysGo_spec (ks.zip row)
    { buf := List.replicate ks.sum 0, off := 0 }
    (by simp [hz])
  refine ⟨?_, ?_, fun st kv => rfl⟩
  · rw [show encodeKeys ks row = (ks.zip row).foldl encStep
        { buf := List.replicate ks.sum 0, off := 0 } from rfl]
    rw [hspec.1]
    show 0 + (List.map Prod.fst (ks.zip row)).sum = ks.sum
    rw [hz]
    omega
  · rw [show encodeKeys ks row = (ks.zip row).foldl encStep
        { buf := List.replicate ks.sum 0, off := 0 } from rfl]
    rw [hspec.2]
    show (List.replicate ks.sum (0 : Nat)).length = ks.sum
    exact List.length_replicate _ _

theorem computeHash_offset_advances_to_total_length_witness :
    (([KeyVal.nullVal, i32 3] : Row).length = ([4, 4] : List Nat).length) ∧
    ((encodeKeys [4, 4] [KeyVal.nullVal, i32 3]).off = List.sum [4, 4] ∧
      (encodeKeys [4, 4] [KeyVal.nullVal, i32 3]).buf.length = List.sum [4, 4] ∧
      (∀ (st : KeyEncoding) (kv : Nat × KeyVal),
        (encStep st kv).off = st.off + kv.1)) :=
  ⟨by decide,
    computeHash_offset_advances_to_total_length [4, 4] [KeyVal.nullVal, i32 3]
      (by decide)⟩

/-- Claim C10: a NULL key leaves its zeroed segment untouched, so it encodes
to exactly the same bytes as a key whose raw image is all zeros; a NULL
leader key therefore matches inner rows whose key encodes to zero bytes,
whether those keys are NULL or genuine zero values (and no others). -/
theorem null_key_encoding_equals_zero_encoding_and_matches (sub : SubStream)
    (n : Nat) (h : sub.keyLengths = [n]) :
    encodedKey sub [KeyVal.nullVal] = encodedKey sub [KeyVal.raw (List.replicate n 0)] ∧
    computeHash sub [KeyVal.nullVal]
      = computeHash sub [KeyVal.raw (List.replicate n 0)] ∧
    runJoin cfgC10
      = [(some [KeyVal.nullVal], [some 0]), (some [KeyVal.nullVal], [some 1])] := by
  obtain ⟨h1, h2⟩ := encNull_eq sub n h
  refine ⟨h1.trans h2.symm, ?_, ?_⟩
  · show hashBytes (encodedKey sub [KeyVal.nullVal])
      = hashBytes (encodedKey sub [KeyVal.raw (List.replicate n 0)])
    rw [h1, h2]
  · rw [runJoin_eq_refOutputs cfgC10 (by decide)]
    decide

theorem null_key_encoding_equals_zero_encoding_and_matches_witness :
    (cfgC10.leader.keyLengths = [4]) ∧
    (encodedKey cfgC10.leader [KeyVal.nullVal]
        = encodedKey cfgC10.leader [KeyVal.raw (List.replicate 4 0)] ∧
      computeHash cfgC10.leader [KeyVal.nullVal]
        = computeHash cfgC10.leader [KeyVal.raw (List.replicate 4 0)] ∧
      runJoin cfgC10
        = [(some [KeyVal.nullVal], [some 0]), (some [KeyVal.nullVal], [some 1])]) :=
  ⟨rfl, null_key_encoding_equals_zero_encoding_and_matches cfgC10.leader 4 rfl⟩
